import Mathlib

/-! # CarDan: anchor indexing, alias resolution, dependency graphs, include expansion

A shallow embedding of the Go package `cardan` (`cardan.go`, `dag_builder.go`,
`loader.go`) together with the properties proved about it.

Conventions of the embedding

* `*yaml.Node` trees are values of `YamlNode`; only the fields the package reads
  or copies are kept.  A pointer into a tree is read as the node it refers to;
  where the tree is mutated after the pointer was stored (`LoadWithOptions`),
  the pointer is followed by the position of the node.
* A Go `map[string]T` is an association list `GoMap T` with pairwise distinct
  keys; `m[k] = v` is `GoMap.put`, `m[k]` is `GoMap.get?`.  Ranging over a map
  visits the entries in an order the runtime chooses: every loop over a map
  takes that order as an explicit list of keys (`GoMap.range`), and the theorems
  quantify over all orders.
* `*DAGNode` pointers are addresses (positions) in the object store `DAG.Mem`;
  the `*yaml.Node` pointers of `CarDan.Anchors` are positions in the tree.
* A function that mutates its argument returns the argument as it leaves it.
* Recursion that follows included files or a mutated tree is bounded by a
  `fuel` argument; `outOfFuel` is the outcome of a bound that was too small.
* `fmt.Errorf` call sites are the constructors of `Error`.
* A runtime panic (index out of range) is the outcome `panic`.
-/

namespace CarDan

/-! ## The document tree -/

/-- The `yaml.Kind` of a node; `ZeroKind` is the zero value of the Go type. -/
inductive Kind where
  | ZeroKind
  | DocumentNode
  | SequenceNode
  | MappingNode
  | ScalarNode
  | AliasNode
  deriving DecidableEq, Repr

/-- The fields of `yaml.Node` used by the package. -/
structure YamlNode where
  Kind : Kind
  Tag : String
  Value : String
  Anchor : String
  Line : Int
  Column : Int
  Content : List YamlNode
  deriving Repr

mutual
/-- Decidable equality of trees, by recursion on the first tree. -/
def YamlNode.decEq : (a b : YamlNode) → Decidable (a = b)
  | ⟨k1, t1, v1, a1, l1, c1, cs1⟩, ⟨k2, t2, v2, a2, l2, c2, cs2⟩ =>
    if hk : k1 = k2 then
      if ht : t1 = t2 then
        if hv : v1 = v2 then
          if ha : a1 = a2 then
            if hl : l1 = l2 then
              if hc : c1 = c2 then
                match YamlNode.decEqList cs1 cs2 with
                | isTrue h => isTrue (by subst hk ht hv ha hl hc h; rfl)
                | isFalse h => isFalse (by intro e; cases e; exact h rfl)
              else isFalse (by intro e; cases e; exact hc rfl)
            else isFalse (by intro e; cases e; exact hl rfl)
          else isFalse (by intro e; cases e; exact ha rfl)
        else isFalse (by intro e; cases e; exact hv rfl)
      else isFalse (by intro e; cases e; exact ht rfl)
    else isFalse (by intro e; cases e; exact hk rfl)
/-- Decidable equality of child lists. -/
def YamlNode.decEqList : (as bs : List YamlNode) → Decidable (as = bs)
  | [], [] => isTrue rfl
  | [], _ :: _ => isFalse (by intro e; cases e)
  | _ :: _, [] => isFalse (by intro e; cases e)
  | a :: as, b :: bs =>
    match YamlNode.decEq a b with
    | isTrue h1 =>
      match YamlNode.decEqList as bs with
      | isTrue h2 => isTrue (by subst h1 h2; rfl)
      | isFalse h2 => isFalse (by intro e; cases e; exact h2 rfl)
    | isFalse h1 => isFalse (by intro e; cases e; exact h1 rfl)
end

instance : DecidableEq YamlNode := YamlNode.decEq

/-- The struct `Node` of `cardan.go`: an indexed anchor.  `AST` is the node the
Go pointer refers to, as it is when the entry is read: `indexNodes` files the
node as it finds it, and `LoadWithOptions`, which mutates the tree after the
index is built, hands the entries back with the nodes as the expansion left
them. -/
structure Node where
  RefID : String
  AST : YamlNode
  AnchorID : String
  Line : Int
  Column : Int
  deriving DecidableEq, Repr

/-! ## Go maps -/

/-- A Go `map[string]β`: an association list with pairwise distinct keys. -/
abbrev GoMap (β : Type) := List (String × β)

/-- The keys of a map. -/
def GoMap.keys {β : Type} (m : GoMap β) : List String := m.map Prod.fst

/-- Lookup `m[k]` with the comma-ok result as an `Option`. -/
def GoMap.get? {β : Type} (m : GoMap β) (k : String) : Option β :=
  match m with
  | [] => none
  | (k1, v1) :: rest => if k1 = k then some v1 else GoMap.get? rest k

/-- Assignment `m[k] = v`: overwrite the entry of `k`, or add one. -/
def GoMap.put {β : Type} (m : GoMap β) (k : String) (v : β) : GoMap β :=
  match m with
  | [] => [(k, v)]
  | (k1, v1) :: rest => if k1 = k then (k, v) :: rest else (k1, v1) :: GoMap.put rest k v

/-- The entries a `for k, v := range m` loop visits when the runtime walks the
keys in the order `ord`. -/
def GoMap.range {β : Type} (m : GoMap β) (ord : List String) : List (String × β) :=
  ord.filterMap (fun k => (m.get? k).map (fun v => (k, v)))

/-- An iteration order of a map: its keys, each once, in any order. -/
def GoMap.IterOrder {β : Type} (m : GoMap β) (ord : List String) : Prop :=
  ord.Perm m.keys

/-! ## Errors and outcomes -/

/-- The error values built by the package, one constructor per `fmt.Errorf`. -/
inductive Error where
  /-- `"unmarshal error: %w"` -/
  | unmarshalError
  /-- `"index error: %w"` -/
  | indexError (cause : Error)
  /-- `"node is not alias: %v"` -/
  | notAlias (n : YamlNode)
  /-- `"unresolved alias: *%s"` (the same text in `cardan.go` and `loader.go`) -/
  | unresolvedAlias (name : String)
  /-- `"BasePath must be set when IncludeTag is used"` -/
  | basePathMissing
  /-- `"parent traversal forbidden in include: %s"` -/
  | parentTraversalForbidden (value : String)
  /-- `"failed to get absolute base path: %w"` -/
  | absBaseFailed
  /-- `"failed to get absolute target path: %w"` -/
  | absTargetFailed
  /-- `"included file escapes base directory: %s"` -/
  | pathEscape (value : String)
  /-- `"recursive inclusion detected: %s"` -/
  | recursiveInclusion (cleanPath : String)
  /-- `"failed to read included file %s: %w"` -/
  | includeReadError (cleanPath : String)
  /-- `"failed to parse included file %s: %w"` -/
  | includeParseError (cleanPath : String)
  /-- `"%s: bad depends_on ref: %w"` -/
  | badDependsOnRef (id : String) (cause : Error)
  /-- `"%s: unresolved DAG node: %s"` -/
  | unresolvedDAGNode (id : String) (refID : String)
  /-- `"cycle detected at node: %s"` -/
  | cycleDetected (id : String)
  /-- `"failed to decode YAML: %w"` -/
  | decodeFailed
  /-- `"empty YAML document"` -/
  | emptyDocument
  /-- `"failed to index anchors/aliases: %w"` -/
  | indexFailed (cause : Error)
  deriving DecidableEq, Repr

/-- Outcome of a call that returns `(value, error)`. -/
inductive Res (α : Type) where
  | ok (a : α)
  | err (e : Error)
  | panic
  deriving DecidableEq, Repr

/-- Outcome of a call that mutates a state `σ` and returns an `error`; the state
reached is kept in every case in which the call ends. -/
inductive Run (σ : Type) where
  | ok (s : σ)
  | err (e : Error) (s : σ)
  | panic (s : σ)
  | outOfFuel
  deriving DecidableEq, Repr

/-- What a call comes to when the state it leaves is seen through `f`. -/
def Run.map {σ τ : Type} (f : σ → τ) : Run σ → Run τ
  | Run.ok s => Run.ok (f s)
  | Run.err e s => Run.err e (f s)
  | Run.panic s => Run.panic (f s)
  | Run.outOfFuel => Run.outOfFuel

/-! ## `cardan.go`: indexing and alias resolution -/

/-- Doc: a parsed and indexed document. -/
structure Doc where
  NodesByID : GoMap Node
  RawTree : YamlNode
  deriving DecidableEq, Repr

/-- The `&Node{...}` literal of `indexNodes` for the tree node `n`. -/
def mkNode (n : YamlNode) : Node :=
  { RefID := n.Anchor, AST := n, AnchorID := n.Anchor, Line := n.Line, Column := n.Column }

mutual
/-- The body of the loop of `indexNodes` for one node `n`. -/
def indexNode (m : GoMap Node) : YamlNode → GoMap Node
  | ⟨k, t, v, a, l, c, cs⟩ =>
    let n : YamlNode := ⟨k, t, v, a, l, c, cs⟩
    let m1 := if a ≠ "" then m.put a (mkNode n) else m
    if k = Kind.SequenceNode ∨ k = Kind.MappingNode then indexNodes m1 cs else m1
/-- The function `indexNodes(doc, nodes)`: the state is `doc.NodesByID`.  The Go
function returns `nil` on every path, so only the map is returned. -/
def indexNodes (m : GoMap Node) : List YamlNode → GoMap Node
  | [] => m
  | n :: ns => indexNodes (indexNode m n) ns
end

/-- The function `ParseYAML`; `decoded` is what `decoder.Decode(&root)` of the
external parser produced (`none`: it returned an error).  The branch that wraps
an error of `indexNodes` as `index error` is never taken, `indexNodes` having
none. -/
def ParseYAML (decoded : Option YamlNode) : Res Doc :=
  match decoded with
  | none => Res.err Error.unmarshalError
  | some root => Res.ok { NodesByID := indexNodes [] root.Content, RawTree := root }

/-- The method `Doc.ResolveAlias`. -/
def Doc.ResolveAlias (d : Doc) (al : YamlNode) : Res Node :=
  if al.Kind ≠ Kind.AliasNode then Res.err (Error.notAlias al)
  else
    match d.NodesByID.get? al.Value with
    | none => Res.err (Error.unresolvedAlias al.Value)
    | some target => Res.ok target

/-! ## `dag_builder.go`: the dependency graph -/

/-- DAGNode: `DependsOn` holds pointers, here addresses into `DAG.Mem`. -/
structure DAGNode where
  ID : String
  DependsOn : List Nat
  AST : YamlNode
  Visited : Bool
  Visiting : Bool
  deriving DecidableEq, Repr

/-- DAG: `Nodes` is the Go map from identifier to `*DAGNode`; `Mem` holds the
`DAGNode` objects the pointers refer to, the address of an object being its
position in `Mem`. -/
structure DAG where
  Nodes : GoMap Nat
  Mem : List DAGNode
  deriving DecidableEq, Repr

/-- First loop of `BuildDAG`: one fresh `DAGNode` per entry of `doc.NodesByID`. -/
def BuildDAG.alloc (dag : DAG) : List (String × Node) → DAG
  | [] => dag
  | (id, node) :: rest =>
    BuildDAG.alloc
      { Nodes := dag.Nodes.put id dag.Mem.length,
        Mem := dag.Mem ++ [{ ID := id, DependsOn := [], AST := node.AST,
                             Visited := false, Visiting := false }] }
      rest

/-- The statement `dagNode.DependsOn = append(dagNode.DependsOn, depNode)`. -/
def appendDep (mem : List DAGNode) (addr dep : Nat) : List DAGNode :=
  mem.modify (fun n => { n with DependsOn := n.DependsOn ++ [dep] }) addr

/-- The loop `for _, item := range v.Content` of `BuildDAG`. -/
def BuildDAG.items (doc : Doc) (nodes : GoMap Nat) (id : String) (addr : Nat) :
    List DAGNode → List YamlNode → Res (List DAGNode)
  | mem, [] => Res.ok mem
  | mem, item :: rest =>
    match doc.ResolveAlias item with
    | Res.err e => Res.err (Error.badDependsOnRef id e)
    | Res.panic => Res.panic
    | Res.ok resolved =>
      match nodes.get? resolved.RefID with
      | none => Res.err (Error.unresolvedDAGNode id resolved.RefID)
      | some depNode => BuildDAG.items doc nodes id addr (appendDep mem addr depNode) rest

/-- The loop `for i := 0; i < len(dn.Content); i += 2` of `BuildDAG` over the
remaining children: `k := dn.Content[i]`, `v := dn.Content[i+1]`; reading
`Content[i+1]` past the end panics. -/
def BuildDAG.pairs (doc : Doc) (key : String) (nodes : GoMap Nat) (id : String) (addr : Nat) :
    List DAGNode → List YamlNode → Res (List DAGNode)
  | mem, [] => Res.ok mem
  | _, [_] => Res.panic
  | mem, k :: v :: rest =>
    if k.Value = key ∧ v.Kind = Kind.SequenceNode then
      match BuildDAG.items doc nodes id addr mem v.Content with
      | Res.ok mem1 => BuildDAG.pairs doc key nodes id addr mem1 rest
      | r => r
    else BuildDAG.pairs doc key nodes id addr mem rest

/-- Second loop of `BuildDAG`, over the entries `(id, dagNode)` of `dag.Nodes`. -/
def BuildDAG.link (doc : Doc) (key : String) (nodes : GoMap Nat) :
    List DAGNode → List (String × Nat) → Res (List DAGNode)
  | mem, [] => Res.ok mem
  | mem, (id, addr) :: rest =>
    match mem[addr]? with
    | none => Res.panic
    | some dagNode =>
      if dagNode.AST.Kind ≠ Kind.MappingNode then BuildDAG.link doc key nodes mem rest
      else
        match BuildDAG.pairs doc key nodes id addr mem dagNode.AST.Content with
        | Res.ok mem1 => BuildDAG.link doc key nodes mem1 rest
        | r => r

/-- The function `BuildDAG(doc, key)`; `ord1` and `ord2` are the orders in which
the two `range` loops walk `doc.NodesByID` and `dag.Nodes`. -/
def BuildDAG (doc : Doc) (key : String) (ord1 ord2 : List String) : Res DAG :=
  let dag := BuildDAG.alloc { Nodes := [], Mem := [] } (doc.NodesByID.range ord1)
  match BuildDAG.link doc key dag.Nodes dag.Mem (dag.Nodes.range ord2) with
  | Res.ok mem => Res.ok { Nodes := dag.Nodes, Mem := mem }
  | Res.err e => Res.err e
  | Res.panic => Res.panic

/-- A `for` loop over pointers that stops at the first call that does not
return `nil`. -/
def forEach {σ : Type} (f : σ → Nat → Run σ) : σ → List Nat → Run σ
  | s, [] => Run.ok s
  | s, a :: rest =>
    match f s a with
    | Run.ok s1 => forEach f s1 rest
    | r => r

/-- The function `visit(n)`, `n` being the pointer `a`; the recursion depth is
bounded by `fuel`.  Dereferencing an address outside the store is a panic. -/
def visit : Nat → List DAGNode → Nat → Run (List DAGNode)
  | 0, _, _ => Run.outOfFuel
  | fuel + 1, mem, a =>
    match mem[a]? with
    | none => Run.panic mem
    | some n =>
      if n.Visited then Run.ok mem
      else if n.Visiting then Run.err (Error.cycleDetected n.ID) mem
      else
        match forEach (visit fuel) (mem.modify (fun m => { m with Visiting := true }) a)
            n.DependsOn with
        | Run.ok mem1 =>
          Run.ok (mem1.modify (fun m => { m with Visiting := false, Visited := true }) a)
        | r => r

/-- The method `DAG.DetectCycles`; `ord` is the order in which the `range` loop
walks `g.Nodes`.  The result state is the object store with the markers left
behind.  The recursion of `visit` never goes deeper than the number of objects
plus one. -/
def DAG.DetectCycles (g : DAG) (ord : List String) : Run (List DAGNode) :=
  forEach (visit (g.Mem.length + 1)) g.Mem ((g.Nodes.range ord).map Prod.snd)

/-! ## `cardan.go`: include expansion -/

/-- The function `strings.Contains(s, substr)`. -/
def strings.Contains (s substr : String) : Bool :=
  decide (substr.data <:+: s.data)

/-- The function `strings.HasPrefix(s, pre)`. -/
def strings.HasPrefix (s pre : String) : Bool :=
  pre.data.isPrefixOf s.data

/-- What `resolveIncludes` calls outside the package: the path functions of
`path/filepath`, the file system and the parser.  `Abs`, `ReadFile` and
`Unmarshal` give `none` when the Go function returns an error; `Unmarshal`
gives the value of `includedNode` after `yaml.Unmarshal(content, &includedNode)`. -/
structure Env where
  Join : String → String → String
  Clean : String → String
  Abs : String → Option String
  Dir : String → String
  ReadFile : String → Option String
  Unmarshal : String → Option YamlNode

/-- The state `resolveIncludes` works on besides the tree: `Visited` holds the
keys of the map `visited` (every value stored is `true`), `Reads` the paths
handed to `os.ReadFile` so far, oldest first. -/
structure IncState where
  Visited : List String
  Reads : List String
  deriving DecidableEq, Repr

/-- The loop `for _, child := range node.Content` of `resolveIncludes`: `f` is
the recursive call on one child; the children are replaced by what the calls
leave of them, and the loop stops at the first call that does not return `nil`. -/
def forChildren (f : YamlNode → IncState → Run (YamlNode × IncState)) :
    List YamlNode → IncState → Run (List YamlNode × IncState)
  | [], st => Run.ok ([], st)
  | c :: cs, st =>
    match f c st with
    | Run.ok (c1, st1) =>
      match forChildren f cs st1 with
      | Run.ok (cs1, st2) => Run.ok (c1 :: cs1, st2)
      | Run.err e (cs1, st2) => Run.err e (c1 :: cs1, st2)
      | Run.panic (cs1, st2) => Run.panic (c1 :: cs1, st2)
      | Run.outOfFuel => Run.outOfFuel
    | Run.err e (c1, st1) => Run.err e (c1 :: cs, st1)
    | Run.panic (c1, st1) => Run.panic (c1 :: cs, st1)
    | Run.outOfFuel => Run.outOfFuel

/-- The block `if node.Tag == includeTag { ... }` of `resolveIncludes`; `recur`
is the recursive call of `resolveIncludes` on the parsed file, with the
include tag already passed.  The node in the result is `node` as the block
leaves it: overwritten by `*includedNode.Content[0]` when the block runs to
its end, untouched otherwise. -/
def resolveIncludes.directive (env : Env) (includeTag : String)
    (recur : YamlNode → String → IncState → Run (YamlNode × IncState))
    (node : YamlNode) (currentDir : String) (st : IncState) : Run (YamlNode × IncState) :=
  if node.Tag = includeTag then
    let includePath := env.Join currentDir node.Value
    let cleanPath := env.Clean includePath
    if strings.Contains node.Value ".." then
      Run.err (Error.parentTraversalForbidden node.Value) (node, st)
    else
      match env.Abs currentDir with
      | none => Run.err Error.absBaseFailed (node, st)
      | some absBase =>
        match env.Abs cleanPath with
        | none => Run.err Error.absTargetFailed (node, st)
        | some absTarget =>
          if ¬ strings.HasPrefix absTarget absBase then
            Run.err (Error.pathEscape node.Value) (node, st)
          else if cleanPath ∈ st.Visited then
            Run.err (Error.recursiveInclusion cleanPath) (node, st)
          else
            let st1 : IncState :=
              { Visited := cleanPath :: st.Visited, Reads := st.Reads ++ [cleanPath] }
            match env.ReadFile cleanPath with
            | none => Run.err (Error.includeReadError cleanPath) (node, st1)
            | some content =>
              match env.Unmarshal content with
              | none => Run.err (Error.includeParseError cleanPath) (node, st1)
              | some includedNode =>
                match recur includedNode (env.Dir cleanPath) st1 with
                | Run.ok (included1, st2) =>
                  match included1.Content with
                  | [] => Run.panic (node, st2)
                  | c :: _ => Run.ok (c, st2)
                | Run.err e (_, st2) => Run.err e (node, st2)
                | Run.panic (_, st2) => Run.panic (node, st2)
                | Run.outOfFuel => Run.outOfFuel
  else Run.ok (node, st)

/-- The function `resolveIncludes(node, currentDir, includeTag, visited)`: the
directive block, then the loop over the children of the node as the block left
it.  The result holds the node as the call leaves it (it is mutated in place)
and the state; `fuel` bounds the depth of the recursion. -/
def resolveIncludes (env : Env) (includeTag : String) :
    Nat → YamlNode → String → IncState → Run (YamlNode × IncState)
  | 0, _, _, _ => Run.outOfFuel
  | fuel + 1, node, currentDir, st =>
    match resolveIncludes.directive env includeTag (resolveIncludes env includeTag fuel)
        node currentDir st with
    | Run.ok (node1, st1) =>
      match forChildren (fun c s => resolveIncludes env includeTag fuel c currentDir s)
          node1.Content st1 with
      | Run.ok (cs, st2) => Run.ok ({ node1 with Content := cs }, st2)
      | Run.err e (cs, st2) => Run.err e ({ node1 with Content := cs }, st2)
      | Run.panic (cs, st2) => Run.panic ({ node1 with Content := cs }, st2)
      | Run.outOfFuel => Run.outOfFuel
    | r => r

/-- LoadOptions: the options of `LoadWithOptions`. -/
structure LoadOptions where
  IncludeTag : String
  BasePath : String
  deriving DecidableEq, Repr

/-- What a call of `LoadWithOptions` comes to.  `returned doc err reads` holds the
two results `(*Doc, error)` of the Go function, `none` standing for `nil`, and
the paths handed to `os.ReadFile` during the call. -/
inductive Loaded where
  | returned (doc : Option Doc) (err : Option Error) (reads : List String)
  | panic (reads : List String)
  | outOfFuel
  deriving DecidableEq, Repr

/-- The node at the position `path` below `n`: the child indices on the way
down. -/
def YamlNode.at? : YamlNode → List Nat → Option YamlNode
  | n, [] => some n
  | n, i :: rest =>
    match n.Content[i]? with
    | none => none
    | some c => c.at? rest

mutual
/-- The position of the node each entry of the index points to: the walk of
`indexNode`, with the position `path` of the node in place of the node. -/
def posNode : List Nat → GoMap (List Nat) → YamlNode → GoMap (List Nat)
  | path, m, ⟨k, _, _, a, _, _, cs⟩ =>
    let m1 := if a ≠ "" then m.put a path else m
    if k = Kind.SequenceNode ∨ k = Kind.MappingNode then posNodes path 0 m1 cs else m1
/-- The walk of `indexNodes` over the children of the node at `path`, from the
child with index `i` on. -/
def posNodes : List Nat → Nat → GoMap (List Nat) → List YamlNode → GoMap (List Nat)
  | _, _, m, [] => m
  | path, i, m, n :: ns => posNodes path (i + 1) (posNode (path ++ [i]) m n) ns
end

/-- The object that was at the position `path` of the tree `old` before the
expansion, as the expansion that returned `nil` and made `new` of `old` left
it.  The object at the root of `old` now holds `new`.  Below a node that is no
directive the children are the same objects, each as its own call left it.
Below a directive, which was overwritten by the included node, the former
children are no longer part of the tree and were not touched. -/
def YamlNode.after (includeTag : String) : YamlNode → YamlNode → List Nat → Option YamlNode
  | _, new, [] => some new
  | old, new, i :: rest =>
    if old.Tag = includeTag then old.at? (i :: rest)
    else
      match old.Content[i]?, new.Content[i]? with
      | some oc, some nc => YamlNode.after includeTag oc nc rest
      | _, _ => none

/-- The index after the expansion that made `new` of `old`: the keys and the
copied fields of the entries are those `indexNodes` filed, and the pointer `AST`
of each entry refers to the same object as before, read as it is now. -/
def refreshIndex (includeTag : String) (old new : YamlNode) (m : GoMap Node) : GoMap Node :=
  m.map (fun e =>
    (e.1,
      match (posNodes [] 0 [] old.Content).get? e.1 with
      | none => e.2
      | some path =>
        match YamlNode.after includeTag old new path with
        | none => e.2
        | some n => { e.2 with AST := n }))

/-- The function `LoadWithOptions(r, opts)`; `decoded` is what the decoder makes
of `r`, `fuel` bounds the depth of the recursion of `resolveIncludes`.  The
index of the returned document is the one `ParseYAML` built before the
expansion, with the same keys; `RawTree` is the tree as the expansion left it,
and the entries of the index point into it. -/
def LoadWithOptions (env : Env) (fuel : Nat) (decoded : Option YamlNode) (opts : LoadOptions) :
    Loaded :=
  match ParseYAML decoded with
  | Res.err e => Loaded.returned none (some e) []
  | Res.panic => Loaded.panic []
  | Res.ok doc =>
    if opts.IncludeTag ≠ "" then
      if opts.BasePath = "" then Loaded.returned none (some Error.basePathMissing) []
      else
        match resolveIncludes env opts.IncludeTag fuel doc.RawTree opts.BasePath
            { Visited := [], Reads := [] } with
        | Run.ok (tree, st) =>
          Loaded.returned
            (some { NodesByID := refreshIndex opts.IncludeTag doc.RawTree tree doc.NodesByID,
                    RawTree := tree })
            none st.Reads
        | Run.err e (_, st) => Loaded.returned none (some e) st.Reads
        | Run.panic (_, st) => Loaded.panic st.Reads
        | Run.outOfFuel => Loaded.outOfFuel
    else Loaded.returned (some doc) none []

/-! ## `loader.go`: the raw document and the rewriting of references -/

mutual
/-- The number of nodes on the longest path from a node down to a leaf. -/
def YamlNode.height : YamlNode → Nat
  | ⟨_, _, _, _, _, _, cs⟩ => heightList cs + 1
/-- The greatest height among the trees of a list. -/
def heightList : List YamlNode → Nat
  | [] => 0
  | n :: ns => max n.height (heightList ns)
end

set_option linter.dupNamespace false

/-- CarDan: the raw tree and its two maps.  A `*yaml.Node` of `Anchors` points
into the tree; here it is the position of the node, the child indices on the
way down from `RootNode`. -/
structure CarDan where
  RootNode : YamlNode
  Anchors : GoMap (List Nat)
  Aliases : GoMap String
  deriving DecidableEq, Repr

mutual
/-- The function `walkAndIndex(n, anchors, aliases)`; `path` is the position of
`n`, the state is the pair of maps.  The Go function returns `nil` on every
path, so only the maps are returned. -/
def walkAndIndex : List Nat → GoMap (List Nat) × GoMap String → YamlNode →
    GoMap (List Nat) × GoMap String
  | path, st, ⟨k, _, v, a, _, _, cs⟩ =>
    let anchors := if a ≠ "" then st.1.put a path else st.1
    let aliases := if k = Kind.AliasNode then st.2.put v v else st.2
    walkAndIndex.children path 0 (anchors, aliases) cs
/-- The loop `for _, child := range n.Content` of `walkAndIndex`, from the child
with index `i` on; `path` is the position of `n`. -/
def walkAndIndex.children : List Nat → Nat → GoMap (List Nat) × GoMap String →
    List YamlNode → GoMap (List Nat) × GoMap String
  | _, _, st, [] => st
  | path, i, st, c :: cs =>
    walkAndIndex.children path (i + 1) (walkAndIndex (path ++ [i]) st c) cs
end

/-- The function `Load`; `decoded` is what `decoder.Decode(&root)` of the
external parser produced (`none`: it returned an error).  The branch that wraps
an error of `walkAndIndex` as `failed to index anchors/aliases` is never taken,
`walkAndIndex` having none. -/
def Load (decoded : Option YamlNode) : Res CarDan :=
  match decoded with
  | none => Res.err Error.decodeFailed
  | some root =>
    match root.Content with
    | [] => Res.err Error.emptyDocument
    | first :: _ =>
      let maps := walkAndIndex [] ([], []) first
      Res.ok { RootNode := first, Anchors := maps.1, Aliases := maps.2 }

/-- The method `CarDan.GetRawAnchor`: `none` is the `nil` pointer. -/
def CarDan.GetRawAnchor (c : CarDan) (id : String) : Option YamlNode :=
  match c.Anchors.get? id with
  | none => none
  | some path => c.RootNode.at? path

/-- The assignments `item.Kind = yaml.ScalarNode`, `item.Tag = "!!str"`,
`item.Value = anchor` of `resolveFieldRefs`. -/
def setScalar (n : YamlNode) (anchor : String) : YamlNode :=
  { n with Kind := Kind.ScalarNode, Tag := "!!str", Value := anchor }

/-- The loop `for _, item := range v.Content` of `resolveFieldRefs`: the state
is the list of items as the loop leaves them. -/
def resolveFieldRefs.items (aliases : GoMap String) : List YamlNode → Run (List YamlNode)
  | [] => Run.ok []
  | item :: rest =>
    if item.Kind = Kind.AliasNode then
      match aliases.get? item.Value with
      | none => Run.err (Error.unresolvedAlias item.Value) (item :: rest)
      | some anchor =>
        (resolveFieldRefs.items aliases rest).map (fun rest1 => setScalar item anchor :: rest1)
    else (resolveFieldRefs.items aliases rest).map (fun rest1 => item :: rest1)

/-- The body `if k.Value == field { ... }` of the key/value loop of
`resolveFieldRefs` for the key `k` and the value `v`: the state is `v` as the
body leaves it. -/
def resolveFieldRefs.value (field : String) (aliases : GoMap String) (k v : YamlNode) :
    Run YamlNode :=
  if k.Value = field then
    if v.Kind = Kind.SequenceNode then
      (resolveFieldRefs.items aliases v.Content).map (fun its => { v with Content := its })
    else if v.Kind = Kind.AliasNode then
      match aliases.get? v.Value with
      | none => Run.err (Error.unresolvedAlias v.Value) v
      | some anchor => Run.ok (setScalar v anchor)
    else Run.ok v
  else Run.ok v

/-- The loop `for i := 0; i < len(n.Content)-1; i += 2` of `resolveFieldRefs`
over the remaining children: `k := n.Content[i]`, `v := n.Content[i+1]`; a
last child without a partner is not read. -/
def resolveFieldRefs.pairs (field : String) (aliases : GoMap String) :
    List YamlNode → Run (List YamlNode)
  | k :: v :: rest =>
    match resolveFieldRefs.value field aliases k v with
    | Run.ok v1 =>
      (resolveFieldRefs.pairs field aliases rest).map (fun rest1 => k :: v1 :: rest1)
    | Run.err e v1 => Run.err e (k :: v1 :: rest)
    | Run.panic v1 => Run.panic (k :: v1 :: rest)
    | Run.outOfFuel => Run.outOfFuel
  | cs => Run.ok cs

/-- The loop `for _, child := range n.Content` of `resolveFieldRefs`: `f` is the
recursive call on one child; the loop stops at the first call that does not
return `nil`. -/
def forNodes (f : YamlNode → Run YamlNode) : List YamlNode → Run (List YamlNode)
  | [] => Run.ok []
  | c :: cs =>
    match f c with
    | Run.ok c1 => (forNodes f cs).map (fun cs1 => c1 :: cs1)
    | Run.err e c1 => Run.err e (c1 :: cs)
    | Run.panic c1 => Run.panic (c1 :: cs)
    | Run.outOfFuel => Run.outOfFuel

/-- The function `resolveFieldRefs(n, field, aliases)`: the key/value loop when
`n` is a Mapping, then the loop over the children as the first loop left them.
The result holds the node as the call leaves it (it is mutated in place);
`fuel` bounds the depth of the recursion. -/
def resolveFieldRefs (field : String) (aliases : GoMap String) : Nat → YamlNode → Run YamlNode
  | 0, _ => Run.outOfFuel
  | fuel + 1, n =>
    match (if n.Kind = Kind.MappingNode then resolveFieldRefs.pairs field aliases n.Content
        else Run.ok n.Content) with
    | Run.ok cs =>
      (forNodes (resolveFieldRefs field aliases fuel) cs).map (fun cs1 => { n with Content := cs1 })
    | Run.err e cs => Run.err e { n with Content := cs }
    | Run.panic cs => Run.panic { n with Content := cs }
    | Run.outOfFuel => Run.outOfFuel

/-- The method `CarDan.ResolveRefs`.  The recursion of `resolveFieldRefs` never
goes deeper than the height of the tree. -/
def CarDan.ResolveRefs (c : CarDan) (field : String) : Run CarDan :=
  (resolveFieldRefs field c.Aliases c.RootNode.height c.RootNode).map
    (fun root => { c with RootNode := root })

/-! ## Vocabulary of the properties -/

/-- The `DependsOn` relation of an object store: `a` holds a pointer to `b`. -/
def Edge (mem : List DAGNode) (a b : Nat) : Prop :=
  ∃ n, mem[a]? = some n ∧ b ∈ n.DependsOn

/-- The node at `a` lies on a directed cycle: it reaches itself through one or
more `DependsOn` edges. -/
def OnCycle (mem : List DAGNode) (a : Nat) : Prop :=
  Relation.TransGen (Edge mem) a a

/-- Marker state Visited. -/
def IsVisited (mem : List DAGNode) (x : Nat) : Prop :=
  ∃ n, mem[x]? = some n ∧ n.Visited = true

/-- Marker state Visiting (and not yet Visited). -/
def IsVisiting (mem : List DAGNode) (x : Nat) : Prop :=
  ∃ n, mem[x]? = some n ∧ n.Visited = false ∧ n.Visiting = true

/-- All markers are Unvisited. -/
def AllUnvisited (mem : List DAGNode) : Prop :=
  ∀ n ∈ mem, n.Visited = false ∧ n.Visiting = false

instance (mem : List DAGNode) : Decidable (AllUnvisited mem) := by
  unfold AllUnvisited
  infer_instance

/-- Every pointer stored in the graph refers to an object of the store. -/
def Closed (mem : List DAGNode) : Prop :=
  ∀ a b, Edge mem a b → b < mem.length

/-- The part of an object that `visit` never writes. -/
def DAGNode.shape (n : DAGNode) : String × List Nat := (n.ID, n.DependsOn)

/-- Two stores hold the same graph: identifiers and edges agree. -/
def SameGraph (mem mem1 : List DAGNode) : Prop :=
  ∀ x : Nat, (mem1[x]?).map DAGNode.shape = (mem[x]?).map DAGNode.shape

/-- The error names a node that lies on a cycle. -/
def NamesCycleNode (mem : List DAGNode) (e : Error) : Prop :=
  ∃ y n, mem[y]? = some n ∧ e = Error.cycleDetected n.ID ∧ OnCycle mem y

/-- What holds of the Visited nodes at every point of a detection pass: their
dependencies are Visited and they lie on no cycle. -/
def Inv (mem : List DAGNode) : Prop :=
  ∀ x, IsVisited mem x → (∀ y, Edge mem x y → IsVisited mem y) ∧ ¬ OnCycle mem x

/-- What a call that returned `nil` did to the store. -/
structure Post (mem mem1 : List DAGNode) : Prop where
  same : SameGraph mem mem1
  visiting : ∀ x, IsVisiting mem1 x ↔ IsVisiting mem x
  visited : ∀ x, IsVisited mem x → IsVisited mem1 x
  inv : Inv mem → Inv mem1

/-- The call returned, with `nil` or with an error. -/
def Run.Returned {σ : Type} (r : Run σ) : Prop :=
  (∃ s, r = Run.ok s) ∨ (∃ e s, r = Run.err e s)

/-- Marker state Unvisited, as a test. -/
def isUnvisited (mem : List DAGNode) (x : Nat) : Bool :=
  match mem[x]? with
  | some n => !n.Visited && !n.Visiting
  | none => false

/-- The addresses of the Unvisited nodes. -/
def unvisitedSet (mem : List DAGNode) : Finset Nat :=
  (Finset.range mem.length).filter (fun x => isUnvisited mem x = true)

/-- The object the first loop of `BuildDAG` creates for an index entry. -/
def freshNode (p : String × Node) : DAGNode :=
  { ID := p.1, DependsOn := [], AST := p.2.AST, Visited := false, Visiting := false }

/-- The map `dag.Nodes` after the first loop has walked the entries `es`: the
object of the entry at position `i` has address `i`. -/
def allocNodes (es : List (String × Node)) : GoMap Nat :=
  (es.enumFrom 0).map (fun p => (p.2.1, p.1))

/-- The object `n` with the pointers `ds` appended to its `DependsOn`. -/
def addDeps (ds : List Nat) (n : DAGNode) : DAGNode :=
  { n with DependsOn := n.DependsOn ++ ds }

/-- The pointer `BuildDAG` appends for a dependency item, when it can: the
object stored under the `RefID` of the index entry the alias resolves to. -/
def depAddr (doc : Doc) (nodes : GoMap Nat) (item : YamlNode) : Option Nat :=
  match doc.ResolveAlias item with
  | Res.ok resolved => nodes.get? resolved.RefID
  | _ => none

/-- The elements of the Sequence values stored under `key` among the key/value
pairs `content` of a Mapping, in document order. -/
def pairItems (key : String) : List YamlNode → List YamlNode
  | k :: v :: rest =>
    (if k.Value = key ∧ v.Kind = Kind.SequenceNode then v.Content else []) ++ pairItems key rest
  | _ => []

/-- The dependency items of an anchored node: those of a Mapping, none otherwise. -/
def depItems (key : String) (ast : YamlNode) : List YamlNode :=
  if ast.Kind = Kind.MappingNode then pairItems key ast.Content else []

/-! ## Example documents -/

/-- A plain scalar `v`. -/
def scalar (v : String) : YamlNode :=
  { Kind := Kind.ScalarNode, Tag := "!!str", Value := v, Anchor := "", Line := 0, Column := 0,
    Content := [] }

/-- The alias `*v`. -/
def aliasOf (v : String) : YamlNode :=
  { Kind := Kind.AliasNode, Tag := "", Value := v, Anchor := "", Line := 0, Column := 0,
    Content := [] }

/-- A sequence of the nodes `cs`. -/
def seqOf (cs : List YamlNode) : YamlNode :=
  { Kind := Kind.SequenceNode, Tag := "!!seq", Value := "", Anchor := "", Line := 0, Column := 0,
    Content := cs }

/-- A mapping with anchor `anchor` (none if empty) and alternating keys and values `cs`. -/
def mapOf (anchor : String) (cs : List YamlNode) : YamlNode :=
  { Kind := Kind.MappingNode, Tag := "!!map", Value := "", Anchor := anchor, Line := 0,
    Column := 0, Content := cs }

/-- The document node around the root content node `c`. -/
def documentOf (c : YamlNode) : YamlNode :=
  { Kind := Kind.DocumentNode, Tag := "", Value := "", Anchor := "", Line := 0, Column := 0,
    Content := [c] }

/-- The document `A: &A {name: a}`, `B: &B {depends_on: [*A]}`. -/
def chainTree : YamlNode :=
  documentOf (mapOf "" [scalar "A", mapOf "A" [scalar "name", scalar "a"],
    scalar "B", mapOf "B" [scalar "depends_on", seqOf [aliasOf "A"]]])

/-- The document `A: &A {depends_on: [*B]}`, `B: &B {depends_on: [*A]}`. -/
def cycleTree : YamlNode :=
  documentOf (mapOf "" [scalar "A", mapOf "A" [scalar "depends_on", seqOf [aliasOf "B"]],
    scalar "B", mapOf "B" [scalar "depends_on", seqOf [aliasOf "A"]]])

/-- The indexed document of a tree, as `ParseYAML` builds it. -/
def docOf (root : YamlNode) : Doc :=
  { NodesByID := indexNodes [] root.Content, RawTree := root }

/-- The graph of a `BuildDAG` result (the empty graph if there is none). -/
def graphOf (r : Res DAG) : DAG :=
  match r with
  | Res.ok g => g
  | _ => { Nodes := [], Mem := [] }

/-- The graph of `chainTree`. -/
def chainGraph : DAG := graphOf (BuildDAG (docOf chainTree) "depends_on" ["A", "B"] ["B", "A"])

/-- The graph of `cycleTree`. -/
def cycleGraph : DAG := graphOf (BuildDAG (docOf cycleTree) "depends_on" ["A", "B"] ["B", "A"])

/-! ## Vocabulary of the index -/

mutual
/-- A node followed by all nodes below it, in pre-order (parents first,
children left to right). -/
def YamlNode.preorder : YamlNode → List YamlNode
  | ⟨k, t, v, a, l, c, cs⟩ => ⟨k, t, v, a, l, c, cs⟩ :: preorderList cs
/-- The nodes of a list of trees, in pre-order. -/
def preorderList : List YamlNode → List YamlNode
  | [] => []
  | n :: ns => n.preorder ++ preorderList ns
end

/-- The data model of the trees the parser hands over: only Sequence and
Mapping nodes have children. -/
def LeavesChildless (ns : List YamlNode) : Prop :=
  ∀ n ∈ preorderList ns, n.Kind ≠ Kind.SequenceNode → n.Kind ≠ Kind.MappingNode → n.Content = []

instance (ns : List YamlNode) : Decidable (LeavesChildless ns) := by
  unfold LeavesChildless
  infer_instance

/-- What meeting the node `n` does to the index. -/
def indexStep (m : GoMap Node) (n : YamlNode) : GoMap Node :=
  if n.Anchor ≠ "" then m.put n.Anchor (mkNode n) else m

/-- The last node of `ns` that carries the anchor `id`. -/
def lastAnchored (id : String) (ns : List YamlNode) : Option YamlNode :=
  (ns.filter (fun n => n.Anchor = id)).getLast?

/-- The document `first: &first {name: foo}`, `second: &second {name: bar}`. -/
def twoAnchorsTree : YamlNode :=
  documentOf (mapOf "" [scalar "first", mapOf "first" [scalar "name", scalar "foo"],
    scalar "second", mapOf "second" [scalar "name", scalar "bar"]])

/-- The document `first: {name: foo}`, `second: {name: bar}`. -/
def noAnchorsTree : YamlNode :=
  documentOf (mapOf "" [scalar "first", mapOf "" [scalar "name", scalar "foo"],
    scalar "second", mapOf "" [scalar "name", scalar "bar"]])

/-- A tree outside the data model: a Scalar with an anchored child. -/
def scalarWithChildTree : YamlNode :=
  documentOf { scalar "s" with Content := [mapOf "hidden" []] }

/-! ## Vocabulary of graph building -/

/-- The key/value pairs of the child list of a Mapping. -/
def kvPairs : List YamlNode → List (YamlNode × YamlNode)
  | k :: v :: rest => (k, v) :: kvPairs rest
  | _ => []

/-- What `indexNodes` keeps true of the index: distinct keys, and every entry
filed under the anchor of its node. -/
def IndexInv (m : GoMap Node) : Prop :=
  m.keys.Nodup ∧ ∀ id v, m.get? id = some v → v.RefID = id ∧ v.AnchorID = id ∧ v.AST.Anchor = id

/-- How `BuildDAG` fails on the dependency item `it` of the node `id`, with the
error `e`: `ResolveAlias` failed and its error is wrapped, or the resolved
entry has no object in `nodes`. -/
def ItemFails (doc : Doc) (nodes : GoMap Nat) (id : String) (it : YamlNode) (e : Error) : Prop :=
  (∃ cause, doc.ResolveAlias it = Res.err cause ∧ e = Error.badDependsOnRef id cause) ∨
  (∃ r, doc.ResolveAlias it = Res.ok r ∧ nodes.get? r.RefID = none ∧
    e = Error.unresolvedDAGNode id r.RefID)

/-- The document `B: &B {depends_on: [*nope]}`: the alias names no anchor. -/
def badRefTree : YamlNode :=
  documentOf (mapOf "" [scalar "B", mapOf "B" [scalar "depends_on", seqOf [aliasOf "nope"]]])

/-- A Sequence of `&x {depends_on: [*nope]}` and a later Scalar `&x`: the
Mapping is not the node indexed under `x`. -/
def shadowedTree : YamlNode :=
  documentOf (seqOf [mapOf "x" [scalar "depends_on", seqOf [aliasOf "nope"]],
    { scalar "s" with Anchor := "x" }])

/-- The document `A: &A {name: a}`, `B: &B {depends_on: *A}`: the dependency is
a single alias, not a list. -/
def singleAliasTree : YamlNode :=
  documentOf (mapOf "" [scalar "A", mapOf "A" [scalar "name", scalar "a"],
    scalar "B", mapOf "B" [scalar "depends_on", aliasOf "A"]])

/-! ## A lexical model of `path/filepath` on Unix and of a file system

`filepath.Join`, `Clean`, `Abs` and `Dir` belong to the Go standard library;
the general theorems take them as the parameter `Env`.  The model below follows
their documented behaviour on Unix, on the characters of the path, without
looking at symbolic links; it is used for concrete scenarios. -/

/-- The path elements between the separators `/`. -/
def filepath.split : List Char → List (List Char)
  | [] => [[]]
  | c :: cs =>
    if c = '/' then [] :: filepath.split cs
    else
      match filepath.split cs with
      | [] => [[c]]
      | x :: xs => (c :: x) :: xs

/-- The elements `es` joined with `/`. -/
def filepath.unsplit : List (List Char) → List Char
  | [] => []
  | [e] => e
  | e :: es => e ++ '/' :: filepath.unsplit es

/-- The rules of `Clean` on the elements still to read, `acc` being the elements
kept so far, last first: empty elements and `.` are dropped, `..` removes the
element before it, is dropped at the root and is kept at the start of a
relative path. -/
def filepath.cleanElems (rooted : Bool) : List (List Char) → List (List Char) → List (List Char)
  | acc, [] => acc.reverse
  | acc, e :: es =>
    if e = [] ∨ e = ['.'] then filepath.cleanElems rooted acc es
    else if e = ['.', '.'] then
      match acc with
      | top :: below =>
        if top = ['.', '.'] then filepath.cleanElems rooted (e :: acc) es
        else filepath.cleanElems rooted below es
      | [] => if rooted then filepath.cleanElems rooted [] es
              else filepath.cleanElems rooted [e] es
    else filepath.cleanElems rooted (e :: acc) es

/-- The function `filepath.Clean`. -/
def filepath.Clean (path : String) : String :=
  if path.data = [] then "."
  else
    let rooted : Bool := path.data.head? = some '/'
    let elems := filepath.cleanElems rooted [] (filepath.split path.data)
    if rooted then String.mk ('/' :: filepath.unsplit elems)
    else if elems = [] then "." else String.mk (filepath.unsplit elems)

/-- The function `filepath.Join` of two elements: empty elements are ignored,
the others are joined with `/` and the result is cleaned. -/
def filepath.Join (a b : String) : String :=
  if a = "" then (if b = "" then "" else filepath.Clean b)
  else filepath.Clean (a ++ "/" ++ b)

/-- The function `filepath.Abs` in the working directory `cwd` (`none`: the
working directory cannot be determined). -/
def filepath.Abs (cwd : Option String) (path : String) : Option String :=
  if path.data.head? = some '/' then some (filepath.Clean path)
  else
    match cwd with
    | none => none
    | some wd => some (filepath.Join wd path)

/-- The function `filepath.Dir`: the path up to its last separator, cleaned. -/
def filepath.Dir (path : String) : String :=
  filepath.Clean (String.mk ((path.data.reverse.dropWhile (fun c => c ≠ '/')).reverse))

/-- The environment with the lexical path functions, the working directory
`cwd`, the files `files` (path and content) and the parser results `docs`
(content and the node `yaml.Unmarshal` fills). -/
def lexicalEnv (cwd : Option String) (files : GoMap String) (docs : GoMap YamlNode) : Env :=
  { Join := filepath.Join, Clean := filepath.Clean, Abs := filepath.Abs cwd,
    Dir := filepath.Dir, ReadFile := fun p => files.get? p,
    Unmarshal := fun c => docs.get? c }

/-- The include directive `!include value`. -/
def includeOf (value : String) : YamlNode :=
  { Kind := Kind.ScalarNode, Tag := "!include", Value := value, Anchor := "", Line := 0,
    Column := 0, Content := [] }

/-- The state at the start of an expansion. -/
def IncState.empty : IncState := { Visited := [], Reads := [] }

/-- The state a call that ended left behind. -/
def Run.state? {σ : Type} : Run σ → Option σ
  | Run.ok s => some s
  | Run.err _ s => some s
  | Run.panic s => some s
  | Run.outOfFuel => none

/-- The directive `d`, met in the directory `dir`, gets as far as the check of
the visited set with the cleaned path `p`: it carries the include tag, its path
value has no `..`, it resolves to `p`, and the absolute form of `p` has the
absolute form of `dir` as a prefix. -/
def PassesChecks (env : Env) (includeTag : String) (d : YamlNode) (dir p : String) : Prop :=
  d.Tag = includeTag ∧ strings.Contains d.Value ".." = false ∧
  env.Clean (env.Join dir d.Value) = p ∧
  ∃ absBase absTarget, env.Abs dir = some absBase ∧ env.Abs p = some absTarget ∧
    strings.HasPrefix absTarget absBase = true

/-- The state `b` comes later than the state `a` in an expansion: nothing has
left the visited set or the list of reads. -/
def IncState.le (a b : IncState) : Prop :=
  (∀ p ∈ a.Visited, p ∈ b.Visited) ∧ (∀ p ∈ a.Reads, p ∈ b.Reads)

/-- A file system in which `base/a.yml` holds the sequence `[x]`; the working
directory is `/work`. -/
def plainEnv : Env :=
  lexicalEnv (some "/work") [("base/a.yml", "- x")] [("- x", documentOf (seqOf [scalar "x"]))]

/-- A file system in which `base/a.yml` holds `k: !include a.yml`, so that it
includes itself. -/
def selfIncludeEnv : Env :=
  lexicalEnv (some "/work") [("base/a.yml", "k: !include a.yml")]
    [("k: !include a.yml", documentOf (mapOf "" [scalar "k", includeOf "a.yml"]))]

/-- The document `k: !include a.yml`, which is also what `base/a.yml` holds in
`selfIncludeEnv`. -/
def selfIncludeTree : YamlNode :=
  documentOf (mapOf "" [scalar "k", includeOf "a.yml"])

/-- The state after `base/a.yml` has been marked visited and read. -/
def visitedA : IncState := { Visited := ["base/a.yml"], Reads := ["base/a.yml"] }

/-! ## Vocabulary of the calls made during an expansion -/

/-- A call `resolveIncludes(node, dir, includeTag, visited)`: its arguments, the
state it starts from and the recursion depth left to it. -/
structure Call where
  fuel : Nat
  node : YamlNode
  dir : String
  st : IncState

/-- What the call comes to. -/
def Call.run (env : Env) (includeTag : String) (c : Call) : Run (YamlNode × IncState) :=
  resolveIncludes env includeTag c.fuel c.node c.dir c.st

/-- `Calls env includeTag a b`: while the call `a` runs, the call `b` is reached.
The two call sites of `resolveIncludes` are followed: the call on the parsed
file of a directive that got past the checks and the visited set, made after
the path was marked visited (`included`); and the call on a child, made when
the directive block has returned `nil` and the calls on the children before it
have returned `nil` (`child`). -/
inductive Calls (env : Env) (includeTag : String) : Call → Call → Prop where
  | here (a : Call) : Calls env includeTag a a
  | included {fuel : Nat} {node : YamlNode} {dir : String} {st : IncState} {p content : String}
      {inc : YamlNode} {b : Call} :
      PassesChecks env includeTag node dir p → p ∉ st.Visited →
      env.ReadFile p = some content → env.Unmarshal content = some inc →
      Calls env includeTag
        ⟨fuel, inc, env.Dir p, { Visited := p :: st.Visited, Reads := st.Reads ++ [p] }⟩ b →
      Calls env includeTag ⟨fuel + 1, node, dir, st⟩ b
  | child {fuel : Nat} {node : YamlNode} {dir : String} {st : IncState} {n1 : YamlNode}
      {st1 : IncState} (pre : List YamlNode) (c : YamlNode) (post : List YamlNode)
      {pre1 : List YamlNode} {st2 : IncState} {b : Call} :
      resolveIncludes.directive env includeTag (resolveIncludes env includeTag fuel)
        node dir st = Run.ok (n1, st1) →
      n1.Content = pre ++ c :: post →
      forChildren (fun x s => resolveIncludes env includeTag fuel x dir s) pre st1 =
        Run.ok (pre1, st2) →
      Calls env includeTag ⟨fuel, c, dir, st2⟩ b →
      Calls env includeTag ⟨fuel + 1, node, dir, st⟩ b

/-! ## Vocabulary of the results of an expansion -/

/-- No node of the tree `n` carries the tag `tag`: the tree holds no directive. -/
def TagFree (tag : String) (n : YamlNode) : Prop :=
  ∀ x ∈ n.preorder, x.Tag ≠ tag

instance (tag : String) (n : YamlNode) : Decidable (TagFree tag n) := by
  unfold TagFree
  infer_instance

/-- The document `tasks: !include tasks.yml`. -/
def tasksTree : YamlNode :=
  documentOf (mapOf "" [scalar "tasks", includeOf "tasks.yml"])

/-- A file system in which `base/tasks.yml` holds the sequence `[{task1: run}]`. -/
def tasksEnv : Env :=
  lexicalEnv (some "/work") [("base/tasks.yml", "- task1: run")]
    [("- task1: run", documentOf (seqOf [mapOf "" [scalar "task1", scalar "run"]]))]

/-- The document `data: !include inc.yml`. -/
def anchorMainTree : YamlNode :=
  documentOf (mapOf "" [scalar "data", includeOf "inc.yml"])

/-- A file system in which `base/inc.yml` holds `&inc_anchor {k: v}`. -/
def anchorEnv : Env :=
  lexicalEnv (some "/work") [("base/inc.yml", "&inc_anchor {k: v}")]
    [("&inc_anchor {k: v}", documentOf (mapOf "inc_anchor" [scalar "k", scalar "v"]))]

/-! ## Vocabulary of the marker states -/

/-- No object is both Visited and Visiting. -/
def CleanMarks (mem : List DAGNode) : Prop :=
  ∀ (x : Nat) (n : DAGNode), mem[x]? = some n → n.Visited = true → n.Visiting = false

/-- The document `X: &X {depends_on: [*A]}`, `A: &A {depends_on: [*B]}`,
`B: &B {depends_on: [*A]}`: `X` leads into the cycle of `A` and `B` and is not
on it. -/
def tailCycleTree : YamlNode :=
  documentOf (mapOf "" [scalar "X", mapOf "X" [scalar "depends_on", seqOf [aliasOf "A"]],
    scalar "A", mapOf "A" [scalar "depends_on", seqOf [aliasOf "B"]],
    scalar "B", mapOf "B" [scalar "depends_on", seqOf [aliasOf "A"]]])

/-- The graph of `tailCycleTree`. -/
def tailCycleGraph : DAG :=
  graphOf (BuildDAG (docOf tailCycleTree) "depends_on" ["X", "A", "B"] ["X", "A", "B"])

/-- The state a call left behind (the empty store if it left none). -/
def Run.stateD (r : Run (List DAGNode)) : List DAGNode :=
  match r with
  | Run.ok s => s
  | Run.err _ s => s
  | Run.panic s => s
  | Run.outOfFuel => []

/-- Every Mapping node of the tree has an even number of children. -/
def EvenMappings (root : YamlNode) : Prop :=
  ∀ n ∈ root.preorder, n.Kind = Kind.MappingNode → n.Content.length % 2 = 0

instance (root : YamlNode) : Decidable (EvenMappings root) := by
  unfold EvenMappings
  infer_instance

/-- A tree outside the precondition: the Mapping `&M` has the single child `k`. -/
def oddMappingTree : YamlNode :=
  documentOf (mapOf "M" [scalar "k"])

/-! ## Vocabulary of the rewriting of references -/

/-- The string Scalar that stands for an alias: kind Scalar, tag `!!str`, the
value (the identifier of the anchor the alias names) and everything else kept. -/
def YamlNode.asString (n : YamlNode) : YamlNode :=
  { n with Kind := Kind.ScalarNode, Tag := "!!str" }

/-- An element of a Sequence stored under the field: an Alias becomes a string
Scalar, any other node stays. -/
def markItem (n : YamlNode) : YamlNode :=
  if n.Kind = Kind.AliasNode then n.asString else n

/-- The value stored under the field: in a Sequence the elements are marked, a
single Alias becomes a string Scalar, any other value stays. -/
def markValue (v : YamlNode) : YamlNode :=
  if v.Kind = Kind.SequenceNode then { v with Content := v.Content.map markItem }
  else if v.Kind = Kind.AliasNode then v.asString
  else v

/-- The child list of a Mapping with the values of the key `field` marked. -/
def markPairs (field : String) : List YamlNode → List YamlNode
  | k :: v :: rest => k :: (if k.Value = field then markValue v else v) :: markPairs field rest
  | cs => cs

mutual
/-- The tree the specification describes after `ResolveRefs(field)`: in every
Mapping of the tree the values stored under `field` are marked, every other
node is as it was. -/
def YamlNode.resolved (field : String) : YamlNode → YamlNode
  | ⟨k, t, v, a, l, c, cs⟩ =>
    ⟨k, t, v, a, l, c,
      if k = Kind.MappingNode then markPairs field (resolvedList field cs)
      else resolvedList field cs⟩
/-- The trees of a list, each as the specification describes it after
`ResolveRefs(field)`. -/
def resolvedList (field : String) : List YamlNode → List YamlNode
  | [] => []
  | n :: ns => n.resolved field :: resolvedList field ns
end

/-- Every alias of the tree is a key of the map, stored under itself. -/
def AliasesRecorded (aliases : GoMap String) (n : YamlNode) : Prop :=
  ∀ x ∈ n.preorder, x.Kind = Kind.AliasNode → aliases.get? x.Value = some x.Value

/-- Every key of the map is stored under itself. -/
def IdentityMap (aliases : GoMap String) : Prop :=
  ∀ k v, aliases.get? k = some v → v = k

/-- The document of the test `TestCarDanLoadAndResolve`:
`jobA: &jobA {name: a}`, `jobB: {name: b, depends_on: [*jobA]}`. -/
def jobsTree : YamlNode :=
  documentOf (mapOf "" [scalar "jobA", mapOf "jobA" [scalar "name", scalar "a"],
    scalar "jobB", mapOf "" [scalar "name", scalar "b",
      scalar "depends_on", seqOf [aliasOf "jobA"]]])

/-- The document `jobA: &jobA {name: a}`, `jobB: {depends_on: *jobA}`, in which
the field holds a single alias. -/
def singleRefTree : YamlNode :=
  documentOf (mapOf "" [scalar "jobA", mapOf "jobA" [scalar "name", scalar "a"],
    scalar "jobB", mapOf "" [scalar "depends_on", aliasOf "jobA"]])

/-- The document comes from `Load` (the empty document if it does not). -/
def loaded (r : Res CarDan) : CarDan :=
  match r with
  | Res.ok c => c
  | _ => { RootNode := documentOf (scalar ""), Anchors := [], Aliases := [] }

/-- The calls `ResolveRefs(f)` for the fields `f` of the list, one after the
other on the same document, up to the first call that does not return `nil`. -/
def resolveRefsAll (c : CarDan) : List String → Run CarDan
  | [] => Run.ok c
  | field :: rest =>
    match c.ResolveRefs field with
    | Run.ok c1 => resolveRefsAll c1 rest
    | r => r

/-! ## An include target without content -/

/-- The zero value of `yaml.Node`, which `yaml.Unmarshal` leaves untouched when
the input holds no document. -/
def zeroNode : YamlNode :=
  { Kind := Kind.ZeroKind, Tag := "", Value := "", Anchor := "", Line := 0, Column := 0,
    Content := [] }

/-- The document `data: !include empty.yml`. -/
def emptyIncludeTree : YamlNode :=
  documentOf (mapOf "" [scalar "data", includeOf "empty.yml"])

/-- A file system in which `base/empty.yml` is an empty file: it is read, the
parser accepts it and fills in no content. -/
def emptyFileEnv : Env :=
  lexicalEnv (some "/work") [("base/empty.yml", "")] [("", zeroNode)]

/-- Some file of the file system is read and parsed, and its parsed document
is left without content by an expansion that returned `nil`. -/
def EmptyTarget (env : Env) (includeTag : String) : Prop :=
  ∃ p content inc fuel dir st inc1 st1, env.ReadFile p = some content ∧
    env.Unmarshal content = some inc ∧
    resolveIncludes env includeTag fuel inc dir st = Run.ok (inc1, st1) ∧ inc1.Content = []

/-! ## Vocabulary of the pointers of the index -/

/-- Every entry of the index `m` has a position in `mp`, and the node at that
position of the tree is the node the entry holds. -/
def PosInv (root : YamlNode) (m : GoMap Node) (mp : GoMap (List Nat)) : Prop :=
  ∀ id nd, m.get? id = some nd → ∃ path, mp.get? id = some path ∧ root.at? path = some nd.AST

/-- The document `data: &x !include inc.yml`: the directive carries an anchor. -/
def anchoredDirectiveTree : YamlNode :=
  documentOf (mapOf "" [scalar "data", { includeOf "inc.yml" with Anchor := "x" }])

/-! # Theorems -/

theorem DAGNode.shape_eq_iff (n m : DAGNode) :
    n.shape = m.shape ↔ n.ID = m.ID ∧ n.DependsOn = m.DependsOn := by
  simp [DAGNode.shape]

theorem SameGraph.same_refl (mem : List DAGNode) : SameGraph mem mem := fun _ => rfl

theorem SameGraph.same_trans {m1 m2 m3 : List DAGNode} (h1 : SameGraph m1 m2) (h2 : SameGraph m2 m3) :
    SameGraph m1 m3 := fun x => (h2 x).trans (h1 x)

theorem SameGraph.length_eq {m1 m2 : List DAGNode} (h : SameGraph m1 m2) :
    m2.length = m1.length := by
  rcases Nat.lt_trichotomy m2.length m1.length with hlt | heq | hgt
  · have := h m2.length
    rw [List.getElem?_eq_none (le_refl _), List.getElem?_eq_getElem hlt] at this
    simp at this
  · exact heq
  · have := h m1.length
    rw [List.getElem?_eq_none (le_refl _), List.getElem?_eq_getElem hgt] at this
    simp at this

theorem SameGraph.edge_eq {m1 m2 : List DAGNode} (h : SameGraph m1 m2) : Edge m2 = Edge m1 := by
  funext a b
  apply propext
  have := h a
  unfold Edge
  constructor
  · rintro ⟨n, hn, hb⟩
    rw [hn] at this
    cases h1 : m1[a]? with
    | none => rw [h1] at this; simp at this
    | some n1 =>
      rw [h1] at this
      simp [DAGNode.shape_eq_iff] at this
      exact ⟨n1, rfl, this.2 ▸ hb⟩
  · rintro ⟨n, hn, hb⟩
    rw [hn] at this
    cases h2 : m2[a]? with
    | none => rw [h2] at this; simp at this
    | some n2 =>
      rw [h2] at this
      simp [DAGNode.shape_eq_iff] at this
      exact ⟨n2, rfl, this.2 ▸ hb⟩

theorem SameGraph.closed {m1 m2 : List DAGNode} (h : SameGraph m1 m2) (hc : Closed m1) :
    Closed m2 := by
  intro a b hab
  rw [h.edge_eq] at hab
  rw [h.length_eq]
  exact hc a b hab

theorem SameGraph.namesCycleNode {m1 m2 : List DAGNode} (h : SameGraph m1 m2) {e : Error}
    (hn : NamesCycleNode m2 e) : NamesCycleNode m1 e := by
  obtain ⟨y, n, hy, he, hc⟩ := hn
  have := h y
  rw [hy] at this
  cases h1 : m1[y]? with
  | none => rw [h1] at this; simp at this
  | some n1 =>
    rw [h1] at this
    simp [DAGNode.shape_eq_iff] at this
    refine ⟨y, n1, h1, ?_, ?_⟩
    · rw [he, this.1]
    · unfold OnCycle at hc ⊢
      rw [h.edge_eq] at hc
      exact hc

theorem sameGraph_modify (mem : List DAGNode) (f : DAGNode → DAGNode) (a : Nat)
    (hf : ∀ n, (f n).ID = n.ID ∧ (f n).DependsOn = n.DependsOn) :
    SameGraph mem (mem.modify f a) := by
  intro x
  rw [List.getElem?_modify]
  cases mem[x]? with
  | none => simp
  | some n =>
    by_cases hax : a = x
    · simp [hax, DAGNode.shape_eq_iff, (hf n).1, (hf n).2]
    · simp [hax]

/-! ## Marker updates -/

theorem isVisited_setVisiting {mem : List DAGNode} {a : Nat} (x : Nat) :
    IsVisited (mem.modify (fun m => { m with Visiting := true }) a) x ↔ IsVisited mem x := by
  unfold IsVisited
  rw [List.getElem?_modify]
  cases mem[x]? with
  | none => simp
  | some n => by_cases hax : a = x <;> simp [hax]

theorem isVisiting_setVisiting {mem : List DAGNode} {a : Nat} {n : DAGNode}
    (ha : mem[a]? = some n) (hv : n.Visited = false) (x : Nat) :
    IsVisiting (mem.modify (fun m => { m with Visiting := true }) a) x ↔
      (IsVisiting mem x ∨ x = a) := by
  unfold IsVisiting
  rw [List.getElem?_modify]
  by_cases hax : a = x
  · subst hax
    simp [ha, hv]
  · have hxa : ¬ x = a := fun h => hax h.symm
    cases mem[x]? with
    | none => simp [hxa]
    | some m => simp [hax, hxa]

theorem isVisited_setVisited {mem : List DAGNode} {a : Nat} (ha : a < mem.length) (x : Nat) :
    IsVisited (mem.modify (fun m => { m with Visiting := false, Visited := true }) a) x ↔
      (IsVisited mem x ∨ x = a) := by
  unfold IsVisited
  rw [List.getElem?_modify]
  by_cases hax : a = x
  · subst hax
    simp [List.getElem?_eq_getElem ha]
  · have hxa : ¬ x = a := fun h => hax h.symm
    cases mem[x]? with
    | none => simp [hxa]
    | some m => simp [hax, hxa]

theorem isVisiting_setVisited {mem : List DAGNode} {a : Nat} (x : Nat) :
    IsVisiting (mem.modify (fun m => { m with Visiting := false, Visited := true }) a) x ↔
      (IsVisiting mem x ∧ x ≠ a) := by
  unfold IsVisiting
  rw [List.getElem?_modify]
  by_cases hax : a = x
  · subst hax
    cases mem[a]? with
    | none => simp
    | some m => simp
  · have hxa : ¬ x = a := fun h => hax h.symm
    cases mem[x]? with
    | none => simp
    | some m => simp [hax, hxa]

theorem not_isVisited_of_isVisiting {mem : List DAGNode} {x : Nat} (h : IsVisiting mem x) :
    ¬ IsVisited mem x := by
  rintro ⟨n, hn, hv⟩
  obtain ⟨m, hm, hv1, _⟩ := h
  rw [hn] at hm
  cases hm
  rw [hv] at hv1
  cases hv1

/-! ## The invariant of a detection pass -/

theorem Post.post_refl (mem : List DAGNode) : Post mem mem :=
  ⟨SameGraph.same_refl mem, fun _ => Iff.rfl, fun _ h => h, fun h => h⟩

theorem Post.post_trans {m1 m2 m3 : List DAGNode} (h1 : Post m1 m2) (h2 : Post m2 m3) : Post m1 m3 :=
  ⟨h1.same.same_trans h2.same, fun x => (h2.visiting x).trans (h1.visiting x),
    fun x h => h2.visited x (h1.visited x h), fun h => h2.inv (h1.inv h)⟩

theorem Inv.reach {mem : List DAGNode} (hi : Inv mem) {b c : Nat} (hb : IsVisited mem b)
    (hbc : Relation.ReflTransGen (Edge mem) b c) : IsVisited mem c := by
  induction hbc with
  | refl => exact hb
  | tail _ hyz ih => exact (hi _ ih).1 _ hyz

/-! ## The loop and `visit` when they return `nil` -/

theorem forEach_ok {f : List DAGNode → Nat → Run (List DAGNode)}
    (hf : ∀ mem a mem1, f mem a = Run.ok mem1 → Post mem mem1 ∧ IsVisited mem1 a) :
    ∀ (ds : List Nat) (mem mem1 : List DAGNode), forEach f mem ds = Run.ok mem1 →
      Post mem mem1 ∧ ∀ d ∈ ds, IsVisited mem1 d := by
  intro ds
  induction ds with
  | nil =>
    intro mem mem1 h
    simp only [forEach, Run.ok.injEq] at h
    subst h
    exact ⟨Post.post_refl _, by simp⟩
  | cons d ds ih =>
    intro mem mem1 h
    simp only [forEach] at h
    cases hd : f mem d with
    | ok m2 =>
      rw [hd] at h
      obtain ⟨p1, v1⟩ := hf _ _ _ hd
      obtain ⟨p2, v2⟩ := ih _ _ h
      refine ⟨p1.post_trans p2, ?_⟩
      intro x hx
      rcases List.mem_cons.1 hx with rfl | hx
      · exact p2.visited _ v1
      · exact v2 _ hx
    | err e m2 => rw [hd] at h; cases h
    | panic m2 => rw [hd] at h; cases h
    | outOfFuel => rw [hd] at h; cases h

theorem visit_ok : ∀ (fuel : Nat) (mem : List DAGNode) (a : Nat) (mem1 : List DAGNode),
    visit fuel mem a = Run.ok mem1 → Post mem mem1 ∧ IsVisited mem1 a := by
  intro fuel
  induction fuel with
  | zero => intro mem a mem1 h; simp [visit] at h
  | succ fuel ih =>
    intro mem a mem1 h
    simp only [visit] at h
    cases ha : mem[a]? with
    | none => rw [ha] at h; cases h
    | some n =>
      rw [ha] at h
      simp only at h
      by_cases hv : n.Visited = true
      · simp only [hv, if_true, Run.ok.injEq] at h
        subst h
        exact ⟨Post.post_refl _, n, ha, hv⟩
      · have hvf : n.Visited = false := by simpa using hv
        by_cases hg : n.Visiting = true
        · simp [hvf, hg] at h
        · have hgf : n.Visiting = false := by simpa using hg
          simp only [hvf, hgf, Bool.false_eq_true, if_false] at h
          cases hl : forEach (visit fuel) (mem.modify (fun m => { m with Visiting := true }) a)
              n.DependsOn with
          | err e m2 => rw [hl] at h; cases h
          | panic m2 => rw [hl] at h; cases h
          | outOfFuel => rw [hl] at h; cases h
          | ok m2 =>
            rw [hl] at h
            simp only [Run.ok.injEq] at h
            subst h
            obtain ⟨p, hdeps⟩ := forEach_ok ih _ _ _ hl
            have hs0 : SameGraph mem (mem.modify (fun m => { m with Visiting := true }) a) :=
              sameGraph_modify _ _ _ (fun _ => ⟨rfl, rfl⟩)
            have hs2 : SameGraph m2
                (m2.modify (fun m => { m with Visiting := false, Visited := true }) a) :=
              sameGraph_modify _ _ _ (fun _ => ⟨rfl, rfl⟩)
            have hsame := (hs0.same_trans p.same).same_trans hs2
            have halt : a < mem.length := by
              rcases Nat.lt_or_ge a mem.length with h1 | h1
              · exact h1
              · rw [List.getElem?_eq_none h1] at ha; cases ha
            have ha2 : a < m2.length := by
              rw [(hs0.same_trans p.same).length_eq]; exact halt
            have hnotving : ¬ IsVisiting mem a := by
              rintro ⟨m, hm, _, hm2⟩
              rw [ha] at hm; cases hm
              rw [hgf] at hm2; cases hm2
            have hving2 : IsVisiting m2 a :=
              (p.visiting a).2 ((isVisiting_setVisiting ha hvf a).2 (Or.inr rfl))
            refine ⟨⟨hsame, ?_, ?_, ?_⟩, (isVisited_setVisited ha2 a).2 (Or.inr rfl)⟩
            · intro x
              rw [isVisiting_setVisited, p.visiting, isVisiting_setVisiting ha hvf]
              constructor
              · rintro ⟨h1 | h1, h2⟩
                · exact h1
                · exact absurd h1 h2
              · intro h1
                refine ⟨Or.inl h1, ?_⟩
                rintro rfl
                exact hnotving h1
            · intro x hx
              exact (isVisited_setVisited ha2 x).2
                (Or.inl (p.visited x ((isVisited_setVisiting x).2 hx)))
            · intro hinv
              have hinv0 : Inv (mem.modify (fun m => { m with Visiting := true }) a) := by
                intro x hx
                have hx1 := (isVisited_setVisiting x).1 hx
                obtain ⟨h1, h2⟩ := hinv x hx1
                refine ⟨?_, ?_⟩
                · intro y hy
                  rw [hs0.edge_eq] at hy
                  exact (isVisited_setVisiting y).2 (h1 y hy)
                · unfold OnCycle
                  rw [hs0.edge_eq]
                  exact h2
              have hinv2 := p.inv hinv0
              intro x hx
              rcases (isVisited_setVisited ha2 x).1 hx with hx2 | rfl
              · obtain ⟨h1, h2⟩ := hinv2 x hx2
                refine ⟨?_, ?_⟩
                · intro y hy
                  rw [hs2.edge_eq] at hy
                  exact (isVisited_setVisited ha2 y).2 (Or.inl (h1 y hy))
                · unfold OnCycle
                  rw [hs2.edge_eq]
                  exact h2
              · refine ⟨?_, ?_⟩
                · intro y hy
                  rw [hsame.edge_eq] at hy
                  obtain ⟨n1, hn1, hy1⟩ := hy
                  rw [ha] at hn1
                  cases hn1
                  exact (isVisited_setVisited ha2 y).2 (Or.inl (hdeps y hy1))
                · unfold OnCycle
                  rw [hs2.edge_eq]
                  intro hcyc
                  obtain ⟨b, hxb, hbx⟩ := Relation.TransGen.head'_iff.1 hcyc
                  have hxb0 := hxb
                  rw [(hs0.same_trans p.same).edge_eq] at hxb0
                  obtain ⟨n1, hn1, hb1⟩ := hxb0
                  rw [ha] at hn1
                  cases hn1
                  exact not_isVisited_of_isVisiting hving2 (hinv2.reach (hdeps b hb1) hbx)

/-! ## The loop and `visit` when they return an error -/

theorem forEach_err {f : List DAGNode → Nat → Run (List DAGNode)}
    (hok : ∀ mem a mem1, f mem a = Run.ok mem1 → Post mem mem1 ∧ IsVisited mem1 a)
    (herr : ∀ mem a e mem1, f mem a = Run.err e mem1 →
      (∀ x, IsVisiting mem x → Relation.TransGen (Edge mem) x a) → NamesCycleNode mem e) :
    ∀ (ds : List Nat) (mem : List DAGNode) (e : Error) (mem1 : List DAGNode),
      forEach f mem ds = Run.err e mem1 →
      (∀ x, IsVisiting mem x → ∀ d ∈ ds, Relation.TransGen (Edge mem) x d) →
      NamesCycleNode mem e := by
  intro ds
  induction ds with
  | nil => intro mem e mem1 h; simp [forEach] at h
  | cons d ds ih =>
    intro mem e mem1 h hpre
    simp only [forEach] at h
    cases hd : f mem d with
    | ok m2 =>
      rw [hd] at h
      obtain ⟨p, _⟩ := hok _ _ _ hd
      apply p.same.namesCycleNode
      apply ih _ _ _ h
      intro x hx y hy
      rw [p.same.edge_eq]
      exact hpre x ((p.visiting x).1 hx) y (List.mem_cons_of_mem _ hy)
    | err e2 m2 =>
      rw [hd] at h
      cases h
      exact herr _ _ _ _ hd (fun x hx => hpre x hx d (List.mem_cons_self _ _))
    | panic m2 => rw [hd] at h; cases h
    | outOfFuel => rw [hd] at h; cases h

theorem visit_err : ∀ (fuel : Nat) (mem : List DAGNode) (a : Nat) (e : Error)
    (mem1 : List DAGNode), visit fuel mem a = Run.err e mem1 →
    (∀ x, IsVisiting mem x → Relation.TransGen (Edge mem) x a) → NamesCycleNode mem e := by
  intro fuel
  induction fuel with
  | zero => intro mem a e mem1 h; simp [visit] at h
  | succ fuel ih =>
    intro mem a e mem1 h hpre
    simp only [visit] at h
    cases ha : mem[a]? with
    | none => rw [ha] at h; cases h
    | some n =>
      rw [ha] at h
      simp only at h
      by_cases hv : n.Visited = true
      · simp [hv] at h
      · have hvf : n.Visited = false := by simpa using hv
        by_cases hg : n.Visiting = true
        · simp only [hvf, hg, Bool.false_eq_true, if_false, if_true, Run.err.injEq] at h
          exact ⟨a, n, ha, h.1.symm, hpre a ⟨n, ha, hvf, hg⟩⟩
        · have hgf : n.Visiting = false := by simpa using hg
          simp only [hvf, hgf, Bool.false_eq_true, if_false] at h
          have hs0 : SameGraph mem (mem.modify (fun m => { m with Visiting := true }) a) :=
            sameGraph_modify _ _ _ (fun _ => ⟨rfl, rfl⟩)
          cases hl : forEach (visit fuel) (mem.modify (fun m => { m with Visiting := true }) a)
              n.DependsOn with
          | ok m2 => rw [hl] at h; cases h
          | panic m2 => rw [hl] at h; cases h
          | outOfFuel => rw [hl] at h; cases h
          | err e2 m2 =>
            rw [hl] at h
            cases h
            apply hs0.namesCycleNode
            apply forEach_err (visit_ok fuel) ih _ _ _ _ hl
            intro x hx d hd
            rw [hs0.edge_eq]
            have hedge : Edge mem a d := ⟨n, ha, hd⟩
            rcases (isVisiting_setVisiting ha hvf x).1 hx with hx1 | rfl
            · exact Relation.TransGen.tail (hpre x hx1) hedge
            · exact Relation.TransGen.single hedge

/-! ## `visit` ends: no panic, and the fuel of `DetectCycles` is enough -/

theorem isUnvisited_iff (mem : List DAGNode) (x : Nat) :
    isUnvisited mem x = true ↔ x < mem.length ∧ ¬ IsVisited mem x ∧ ¬ IsVisiting mem x := by
  unfold isUnvisited IsVisited IsVisiting
  rcases Nat.lt_or_ge x mem.length with h | h
  · rw [List.getElem?_eq_getElem h]
    cases h1 : (mem[x]).Visited <;> cases h2 : (mem[x]).Visiting <;> simp [h, h1, h2]
  · rw [List.getElem?_eq_none h]
    simp
    omega

theorem Post.unvisitedSet_subset {mem mem1 : List DAGNode} (p : Post mem mem1) :
    unvisitedSet mem1 ⊆ unvisitedSet mem := by
  intro x hx
  simp only [unvisitedSet, Finset.mem_filter, Finset.mem_range, isUnvisited_iff] at hx ⊢
  obtain ⟨h1, _, h2, h3⟩ := hx
  rw [p.same.length_eq] at h1
  exact ⟨h1, h1, fun h => h2 (p.visited x h), fun h => h3 ((p.visiting x).2 h)⟩

theorem unvisitedSet_setVisiting {mem : List DAGNode} {a : Nat} {n : DAGNode}
    (ha : mem[a]? = some n) (hv : n.Visited = false) (hg : n.Visiting = false) :
    (unvisitedSet (mem.modify (fun m => { m with Visiting := true }) a)).card <
      (unvisitedSet mem).card := by
  have halt : a < mem.length := by
    rcases Nat.lt_or_ge a mem.length with h1 | h1
    · exact h1
    · rw [List.getElem?_eq_none h1] at ha; cases ha
  apply Finset.card_lt_card
  rw [Finset.ssubset_iff_of_subset]
  · refine ⟨a, ?_, ?_⟩
    · simp only [unvisitedSet, Finset.mem_filter, Finset.mem_range]
      refine ⟨halt, ?_⟩
      simp [isUnvisited, ha, hv, hg]
    · simp only [unvisitedSet, Finset.mem_filter, Finset.mem_range, isUnvisited_iff]
      rintro ⟨_, _, _, h3⟩
      exact h3 ((isVisiting_setVisiting ha hv a).2 (Or.inr rfl))
  · intro x hx
    simp only [unvisitedSet, Finset.mem_filter, Finset.mem_range, isUnvisited_iff,
      List.length_modify] at hx ⊢
    obtain ⟨h1, _, h2, h3⟩ := hx
    exact ⟨h1, h1, fun h => h2 ((isVisited_setVisiting x).2 h),
      fun h => h3 ((isVisiting_setVisiting ha hv x).2 (Or.inl h))⟩

theorem forEach_returned {f : List DAGNode → Nat → Run (List DAGNode)} {k : Nat}
    (hok : ∀ mem a mem1, f mem a = Run.ok mem1 → Post mem mem1 ∧ IsVisited mem1 a)
    (hret : ∀ mem a, Closed mem → a < mem.length → (unvisitedSet mem).card < k →
      (f mem a).Returned) :
    ∀ (ds : List Nat) (mem : List DAGNode), Closed mem → (∀ d ∈ ds, d < mem.length) →
      (unvisitedSet mem).card < k → (forEach f mem ds).Returned := by
  intro ds
  induction ds with
  | nil => intro mem _ _ _; exact Or.inl ⟨mem, rfl⟩
  | cons d ds ih =>
    intro mem hc hds hk
    simp only [forEach]
    rcases hret mem d hc (hds d (List.mem_cons_self _ _)) hk with ⟨m2, hd⟩ | ⟨e, m2, hd⟩
    · rw [hd]
      obtain ⟨p, _⟩ := hok _ _ _ hd
      apply ih m2 (p.same.closed hc)
      · intro x hx
        rw [p.same.length_eq]
        exact hds x (List.mem_cons_of_mem _ hx)
      · exact lt_of_le_of_lt (Finset.card_le_card p.unvisitedSet_subset) hk
    · rw [hd]
      exact Or.inr ⟨e, m2, rfl⟩

theorem visit_returned : ∀ (fuel : Nat) (mem : List DAGNode) (a : Nat), Closed mem →
    a < mem.length → (unvisitedSet mem).card < fuel → (visit fuel mem a).Returned := by
  intro fuel
  induction fuel with
  | zero => intro mem a _ _ h; omega
  | succ fuel ih =>
    intro mem a hc ha hk
    simp only [visit]
    rw [List.getElem?_eq_getElem ha]
    simp only
    by_cases hv : (mem[a]).Visited = true
    · simp only [hv, if_true]
      exact Or.inl ⟨mem, rfl⟩
    · have hvf : (mem[a]).Visited = false := by simpa using hv
      by_cases hg : (mem[a]).Visiting = true
      · simp only [hvf, hg, Bool.false_eq_true, if_false, if_true]
        exact Or.inr ⟨_, mem, rfl⟩
      · have hgf : (mem[a]).Visiting = false := by simpa using hg
        simp only [hvf, hgf, Bool.false_eq_true, if_false]
        have ha1 : mem[a]? = some mem[a] := List.getElem?_eq_getElem ha
        have hs0 : SameGraph mem (mem.modify (fun m => { m with Visiting := true }) a) :=
          sameGraph_modify _ _ _ (fun _ => ⟨rfl, rfl⟩)
        have hlt := unvisitedSet_setVisiting ha1 hvf hgf
        have := forEach_returned (visit_ok fuel) ih (mem[a]).DependsOn
          (mem.modify (fun m => { m with Visiting := true }) a) (hs0.closed hc)
          (by
            intro d hd
            rw [List.length_modify]
            exact hc a d ⟨_, ha1, hd⟩)
          (by omega)
        rcases this with ⟨m2, h2⟩ | ⟨e, m2, h2⟩
        · rw [h2]; exact Or.inl ⟨_, rfl⟩
        · rw [h2]; exact Or.inr ⟨_, _, rfl⟩

/-! ## A whole detection pass -/

theorem AllUnvisited.not_isVisited {mem : List DAGNode} (hu : AllUnvisited mem) (x : Nat) :
    ¬ IsVisited mem x := by
  rintro ⟨n, hn, hv⟩
  have := (hu n (List.getElem?_mem hn)).1
  rw [hv] at this
  cases this

theorem AllUnvisited.not_isVisiting {mem : List DAGNode} (hu : AllUnvisited mem) (x : Nat) :
    ¬ IsVisiting mem x := by
  rintro ⟨n, hn, _, hv⟩
  have := (hu n (List.getElem?_mem hn)).2
  rw [hv] at this
  cases this

theorem unvisitedSet_card_le (mem : List DAGNode) : (unvisitedSet mem).card ≤ mem.length := by
  have := Finset.card_filter_le (Finset.range mem.length) (fun x => isUnvisited mem x = true)
  simpa [unvisitedSet] using this

/-- A pass that fails names a node on a cycle. -/
theorem detectCycles_err (g : DAG) (ord : List String) (hu : AllUnvisited g.Mem) (e : Error)
    (mem : List DAGNode) (h : g.DetectCycles ord = Run.err e mem) : NamesCycleNode g.Mem e :=
  forEach_err (visit_ok _) (visit_err _) _ _ _ _ h
    (fun x hx => absurd hx (hu.not_isVisiting x))

/-- A pass that succeeds has marked every node it started from, and no marked
node lies on a cycle. -/
theorem detectCycles_ok (g : DAG) (ord : List String) (hu : AllUnvisited g.Mem)
    (mem : List DAGNode) (h : g.DetectCycles ord = Run.ok mem) :
    ∀ a ∈ (g.Nodes.range ord).map Prod.snd, ¬ OnCycle g.Mem a := by
  obtain ⟨p, hv⟩ := forEach_ok (visit_ok _) _ _ _ h
  have hinv : Inv mem := p.inv (fun x hx => absurd hx (hu.not_isVisited x))
  intro a ha hcyc
  apply (hinv a (hv a ha)).2
  unfold OnCycle at hcyc ⊢
  rw [p.same.edge_eq]
  exact hcyc

/-- A pass over a graph whose pointers are valid returns. -/
theorem detectCycles_returned (g : DAG) (ord : List String) (hc : Closed g.Mem)
    (hr : ∀ a ∈ (g.Nodes.range ord).map Prod.snd, a < g.Mem.length) :
    (g.DetectCycles ord).Returned :=
  forEach_returned (visit_ok _) (visit_returned _) _ _ hc hr
    (Nat.lt_succ_of_le (unvisitedSet_card_le _))

/-! ## Go maps -/

theorem GoMap.get?_put {β : Type} (m : GoMap β) (k : String) (v : β) (k1 : String) :
    (m.put k v).get? k1 = if k = k1 then some v else m.get? k1 := by
  induction m with
  | nil => simp [GoMap.put, GoMap.get?]
  | cons p rest ih =>
    obtain ⟨k2, v2⟩ := p
    by_cases h : k2 = k
    · subst h
      by_cases h2 : k2 = k1 <;> simp [GoMap.put, GoMap.get?, h2]
    · by_cases h1 : k2 = k1
      · subst h1
        have : ¬ k = k2 := fun e => h e.symm
        simp [GoMap.put, GoMap.get?, h, this]
      · simp [GoMap.put, GoMap.get?, h, h1, ih]

theorem GoMap.get?_eq_none_iff {β : Type} (m : GoMap β) (k : String) :
    m.get? k = none ↔ k ∉ m.keys := by
  induction m with
  | nil => simp [GoMap.get?, GoMap.keys]
  | cons p rest ih =>
    obtain ⟨k2, v2⟩ := p
    by_cases h : k2 = k
    · simp [GoMap.get?, GoMap.keys, h]
    · have h1 : ¬ k = k2 := fun e => h e.symm
      simp only [GoMap.keys] at ih
      simp [GoMap.get?, GoMap.keys, h, h1, ih]

theorem GoMap.mem_keys_iff {β : Type} (m : GoMap β) (k : String) :
    k ∈ m.keys ↔ ∃ v, m.get? k = some v := by
  rw [← Option.isSome_iff_exists, ← Option.ne_none_iff_isSome, Ne, GoMap.get?_eq_none_iff]
  simp

theorem GoMap.mem_of_get? {β : Type} {m : GoMap β} {k : String} {v : β}
    (h : m.get? k = some v) : (k, v) ∈ m := by
  induction m with
  | nil => simp [GoMap.get?] at h
  | cons p rest ih =>
    obtain ⟨k2, v2⟩ := p
    by_cases h1 : k2 = k
    · simp [GoMap.get?, h1] at h
      simp [h1, h]
    · simp [GoMap.get?, h1] at h
      exact List.mem_cons_of_mem _ (ih h)

theorem GoMap.get?_of_mem {β : Type} {m : GoMap β} (hnd : m.keys.Nodup) {k : String} {v : β}
    (h : (k, v) ∈ m) : m.get? k = some v := by
  induction m with
  | nil => simp at h
  | cons p rest ih =>
    obtain ⟨k2, v2⟩ := p
    simp only [GoMap.keys, List.map_cons, List.nodup_cons] at hnd
    rcases List.mem_cons.1 h with h1 | h1
    · cases h1
      simp [GoMap.get?]
    · have hk : k ∈ rest.map Prod.fst := List.mem_map_of_mem Prod.fst h1
      have hne : ¬ k2 = k := by
        rintro rfl
        exact hnd.1 hk
      simp only [GoMap.get?, hne, if_false]
      exact ih hnd.2 h1

theorem GoMap.put_of_not_mem {β : Type} (m : GoMap β) (k : String) (v : β) (h : k ∉ m.keys) :
    m.put k v = m ++ [(k, v)] := by
  induction m with
  | nil => simp [GoMap.put]
  | cons p rest ih =>
    obtain ⟨k2, v2⟩ := p
    simp only [GoMap.keys, List.map_cons, List.mem_cons, not_or] at h
    have h1 : ¬ k2 = k := fun e => h.1 e.symm
    simp only [GoMap.put, h1, if_false, List.cons_append]
    rw [ih h.2]

theorem GoMap.keys_put {β : Type} (m : GoMap β) (k : String) (v : β) :
    (m.put k v).keys = if k ∈ m.keys then m.keys else m.keys ++ [k] := by
  induction m with
  | nil => simp [GoMap.put, GoMap.keys]
  | cons p rest ih =>
    obtain ⟨k2, v2⟩ := p
    by_cases h : k2 = k
    · subst h
      simp [GoMap.put, GoMap.keys]
    · have h1 : ¬ k = k2 := fun e => h e.symm
      simp only [GoMap.keys] at ih
      simp only [GoMap.put, h, if_false, GoMap.keys, List.map_cons, List.mem_cons, h1,
        false_or, ih]
      split <;> simp

theorem GoMap.nodup_keys_put {β : Type} (m : GoMap β) (k : String) (v : β)
    (h : m.keys.Nodup) : (m.put k v).keys.Nodup := by
  rw [GoMap.keys_put]
  split
  · exact h
  · rename_i hk
    exact List.Nodup.append h (List.nodup_singleton k) (by simpa using hk)

theorem GoMap.range_keys {β : Type} (m : GoMap β) (hnd : m.keys.Nodup) :
    m.range m.keys = m := by
  induction m with
  | nil => rfl
  | cons p rest ih =>
    obtain ⟨k2, v2⟩ := p
    simp only [GoMap.keys, List.map_cons, List.nodup_cons] at hnd
    have hrest : GoMap.range rest (rest.map Prod.fst) = rest := ih hnd.2
    have hcong : GoMap.range ((k2, v2) :: rest) (rest.map Prod.fst) =
        GoMap.range rest (rest.map Prod.fst) := by
      unfold GoMap.range
      apply List.filterMap_congr
      intro k hk
      have hne : ¬ k2 = k := by
        rintro rfl
        exact hnd.1 hk
      simp [GoMap.get?, hne]
    have hhead : GoMap.range ((k2, v2) :: rest) (k2 :: rest.map Prod.fst) =
        (k2, v2) :: GoMap.range ((k2, v2) :: rest) (rest.map Prod.fst) := by
      simp [GoMap.range, GoMap.get?]
    show GoMap.range ((k2, v2) :: rest) (k2 :: rest.map Prod.fst) = _
    rw [hhead, hcong, hrest]

theorem GoMap.range_perm {β : Type} (m : GoMap β) (hnd : m.keys.Nodup) {ord : List String}
    (hord : m.IterOrder ord) : (m.range ord).Perm m := by
  have h1 : (m.range ord).Perm (m.range m.keys) := List.Perm.filterMap _ hord
  rw [GoMap.range_keys m hnd] at h1
  exact h1

/-! ## What `BuildDAG` builds -/

theorem addDeps_nil : addDeps [] = id := by
  funext n
  simp [addDeps]

theorem addDeps_comp (ds1 ds2 : List Nat) : addDeps ds2 ∘ addDeps ds1 = addDeps (ds1 ++ ds2) := by
  funext n
  simp [addDeps, List.append_assoc]

theorem alloc_eq : ∀ (es : List (String × Node)) (dag : DAG),
    (dag.Nodes.keys ++ es.map Prod.fst).Nodup →
    BuildDAG.alloc dag es =
      { Nodes := dag.Nodes ++ (es.enumFrom dag.Mem.length).map (fun p => (p.2.1, p.1)),
        Mem := dag.Mem ++ es.map freshNode } := by
  intro es
  induction es with
  | nil => intro dag _; simp [BuildDAG.alloc]
  | cons e rest ih =>
    intro dag hnd
    obtain ⟨id, node⟩ := e
    have hid : id ∉ dag.Nodes.keys := by
      intro h
      rw [List.nodup_append] at hnd
      exact hnd.2.2 h (by simp)
    simp only [BuildDAG.alloc]
    rw [ih]
    · rw [GoMap.put_of_not_mem _ _ _ hid]
      simp [freshNode]
    · simp only
      rw [GoMap.put_of_not_mem _ _ _ hid]
      simpa [GoMap.keys, List.append_assoc] using hnd

theorem allocNodes_keys (es : List (String × Node)) :
    (allocNodes es).keys = es.map Prod.fst := by
  simp only [allocNodes, GoMap.keys, List.map_map]
  have : (Prod.fst ∘ fun p : Nat × String × Node => (p.2.1, p.1)) = Prod.fst ∘ Prod.snd := by
    funext p; rfl
  rw [this, ← List.map_map, List.enumFrom_map_snd]

theorem allocNodes_addrs (es : List (String × Node)) :
    (allocNodes es).map Prod.snd = List.range es.length := by
  simp only [allocNodes, List.map_map]
  have : (Prod.snd ∘ fun p : Nat × String × Node => (p.2.1, p.1)) = Prod.fst := by
    funext p; rfl
  rw [this, List.enumFrom_map_fst, List.range_eq_range']

theorem allocNodes_mem_iff (es : List (String × Node)) (id : String) (a : Nat) :
    (id, a) ∈ allocNodes es ↔ ∃ node, es[a]? = some (id, node) := by
  simp only [allocNodes, List.mem_map, Prod.mk.injEq, Prod.exists]
  constructor
  · rintro ⟨i, id1, node, hmem, rfl, rfl⟩
    have := List.mk_add_mem_enumFrom_iff_getElem?.1 (by simpa using hmem : (0 + i, (id1, node)) ∈ _)
    exact ⟨node, this⟩
  · rintro ⟨node, h⟩
    refine ⟨a, id, node, ?_, rfl, rfl⟩
    have := (List.mk_add_mem_enumFrom_iff_getElem? (n := 0) (i := a) (x := (id, node))
      (l := es)).2 h
    simpa using this

theorem allocNodes_get? (es : List (String × Node)) (hnd : (es.map Prod.fst).Nodup)
    (id : String) (a : Nat) :
    (allocNodes es).get? id = some a ↔ ∃ node, es[a]? = some (id, node) := by
  rw [← allocNodes_mem_iff]
  constructor
  · exact GoMap.mem_of_get?
  · exact GoMap.get?_of_mem (by rw [allocNodes_keys]; exact hnd)

theorem items_ok (doc : Doc) (nodes : GoMap Nat) (id : String) (addr : Nat) :
    ∀ (its : List YamlNode) (mem mem1 : List DAGNode),
      BuildDAG.items doc nodes id addr mem its = Res.ok mem1 →
      ∃ ds, ds.map some = its.map (depAddr doc nodes) ∧ mem1 = mem.modify (addDeps ds) addr := by
  intro its
  induction its with
  | nil =>
    intro mem mem1 h
    simp only [BuildDAG.items, Res.ok.injEq] at h
    exact ⟨[], rfl, by rw [addDeps_nil, List.modify_id]; exact h.symm⟩
  | cons it rest ih =>
    intro mem mem1 h
    simp only [BuildDAG.items] at h
    cases hr : doc.ResolveAlias it with
    | err e => rw [hr] at h; cases h
    | panic => rw [hr] at h; cases h
    | ok resolved =>
      rw [hr] at h
      simp only at h
      cases hg : nodes.get? resolved.RefID with
      | none => rw [hg] at h; cases h
      | some dep =>
        rw [hg] at h
        simp only at h
        obtain ⟨ds, hds, hm⟩ := ih _ _ h
        refine ⟨dep :: ds, ?_, ?_⟩
        · simp [hds, depAddr, hr, hg]
        · rw [hm]
          show List.modify (addDeps ds) addr (List.modify (addDeps [dep]) addr mem) = _
          rw [List.modify_modify_eq, addDeps_comp]
          rfl

theorem pairs_ok (doc : Doc) (key : String) (nodes : GoMap Nat) (id : String) (addr : Nat) :
    ∀ (k : Nat) (content : List YamlNode) (mem mem1 : List DAGNode), content.length ≤ k →
      BuildDAG.pairs doc key nodes id addr mem content = Res.ok mem1 →
      ∃ ds, ds.map some = (pairItems key content).map (depAddr doc nodes) ∧
        mem1 = mem.modify (addDeps ds) addr := by
  intro k
  induction k with
  | zero =>
    intro content mem mem1 hk h
    have : content = [] := List.length_eq_zero.1 (Nat.le_zero.1 hk)
    subst this
    simp only [BuildDAG.pairs, Res.ok.injEq] at h
    exact ⟨[], rfl, by rw [addDeps_nil, List.modify_id]; exact h.symm⟩
  | succ k ih =>
    intro content mem mem1 hk h
    match content, hk, h with
    | [], _, h =>
      simp only [BuildDAG.pairs, Res.ok.injEq] at h
      exact ⟨[], rfl, by rw [addDeps_nil, List.modify_id]; exact h.symm⟩
    | [_], _, h => simp [BuildDAG.pairs] at h
    | kn :: v :: rest, hk, h =>
      have hlen : rest.length ≤ k := by simp at hk; omega
      simp only [BuildDAG.pairs] at h
      by_cases hc : kn.Value = key ∧ v.Kind = Kind.SequenceNode
      · rw [if_pos hc] at h
        cases hi : BuildDAG.items doc nodes id addr mem v.Content with
        | err e => rw [hi] at h; cases h
        | panic => rw [hi] at h; cases h
        | ok m2 =>
          rw [hi] at h
          simp only at h
          obtain ⟨ds1, hds1, hm1⟩ := items_ok doc nodes id addr _ _ _ hi
          obtain ⟨ds2, hds2, hm2⟩ := ih _ _ _ hlen h
          refine ⟨ds1 ++ ds2, ?_, ?_⟩
          · simp [pairItems, hc, hds1, hds2]
          · rw [hm2, hm1, List.modify_modify_eq, addDeps_comp]
      · rw [if_neg hc] at h
        obtain ⟨ds2, hds2, hm2⟩ := ih _ _ _ hlen h
        exact ⟨ds2, by simp [pairItems, hc, hds2], hm2⟩

theorem link_ok (doc : Doc) (key : String) (nodes : GoMap Nat) :
    ∀ (entries : List (String × Nat)) (mem mem1 : List DAGNode),
      (entries.map Prod.snd).Nodup →
      BuildDAG.link doc key nodes mem entries = Res.ok mem1 →
      ∀ i n, mem[i]? = some n → ∃ ds, mem1[i]? = some (addDeps ds n) ∧
        ds.map some = if i ∈ entries.map Prod.snd
          then (depItems key n.AST).map (depAddr doc nodes) else [] := by
  intro entries
  induction entries with
  | nil =>
    intro mem mem1 _ h i n hi
    simp only [BuildDAG.link, Res.ok.injEq] at h
    subst h
    exact ⟨[], by rw [addDeps_nil]; exact hi, by simp⟩
  | cons e rest ih =>
    intro mem mem1 hnd h i n hi
    obtain ⟨id, addr⟩ := e
    simp only [List.map_cons, List.nodup_cons] at hnd
    simp only [BuildDAG.link] at h
    cases ha : mem[addr]? with
    | none => rw [ha] at h; cases h
    | some dagNode =>
      rw [ha] at h
      simp only at h
      by_cases hk : dagNode.AST.Kind = Kind.MappingNode
      · simp only [hk, ne_eq, not_true_eq_false, if_false] at h
        cases hp : BuildDAG.pairs doc key nodes id addr mem dagNode.AST.Content with
        | err e => rw [hp] at h; cases h
        | panic => rw [hp] at h; cases h
        | ok m2 =>
          rw [hp] at h
          simp only at h
          obtain ⟨ds0, hds0, hm2⟩ := pairs_ok doc key nodes id addr _ _ _ _ (le_refl _) hp
          by_cases hia : i = addr
          · subst hia
            rw [ha] at hi
            cases hi
            have h2 : m2[i]? = some (addDeps ds0 n) := by
              rw [hm2, List.getElem?_modify_eq, ha]; rfl
            obtain ⟨ds, hds, hdsv⟩ := ih _ _ hnd.2 h i _ h2
            rw [if_neg hnd.1] at hdsv
            have : ds = [] := by simpa using hdsv
            subst this
            refine ⟨ds0, ?_, ?_⟩
            · rw [hds, addDeps_nil]; rfl
            · simp [depItems, hk, hds0]
          · have h2 : m2[i]? = some n := by
              rw [hm2, List.getElem?_modify_ne _ _ (fun e => hia e.symm), hi]
            obtain ⟨ds, hds, hdsv⟩ := ih _ _ hnd.2 h i _ h2
            refine ⟨ds, hds, ?_⟩
            rw [hdsv]
            have hmem : i ∈ List.map Prod.snd ((id, addr) :: rest) ↔
                i ∈ List.map Prod.snd rest := by
              simp [hia]
            by_cases hm : i ∈ List.map Prod.snd rest
            · rw [if_pos hm, if_pos (hmem.2 hm)]
            · rw [if_neg hm, if_neg (fun hc => hm (hmem.1 hc))]
      · simp only [ne_eq, hk, not_false_eq_true, if_true] at h
        obtain ⟨ds, hds, hdsv⟩ := ih _ _ hnd.2 h i _ hi
        refine ⟨ds, hds, ?_⟩
        rw [hdsv]
        by_cases hia : i = addr
        · subst hia
          rw [ha] at hi
          cases hi
          simp [hnd.1, depItems, hk]
        · have hmem : i ∈ List.map Prod.snd ((id, addr) :: rest) ↔
              i ∈ List.map Prod.snd rest := by
            simp [hia]
          by_cases hm : i ∈ List.map Prod.snd rest
          · rw [if_pos hm, if_pos (hmem.2 hm)]
          · rw [if_neg hm, if_neg (fun hc => hm (hmem.1 hc))]

theorem link_length (doc : Doc) (key : String) (nodes : GoMap Nat) :
    ∀ (entries : List (String × Nat)) (mem mem1 : List DAGNode),
      BuildDAG.link doc key nodes mem entries = Res.ok mem1 → mem1.length = mem.length := by
  intro entries
  induction entries with
  | nil =>
    intro mem mem1 h
    simp only [BuildDAG.link, Res.ok.injEq] at h
    rw [h]
  | cons e rest ih =>
    intro mem mem1 h
    obtain ⟨id, addr⟩ := e
    simp only [BuildDAG.link] at h
    cases ha : mem[addr]? with
    | none => rw [ha] at h; cases h
    | some dagNode =>
      rw [ha] at h
      simp only at h
      by_cases hk : dagNode.AST.Kind = Kind.MappingNode
      · simp only [hk, ne_eq, not_true_eq_false, if_false] at h
        cases hp : BuildDAG.pairs doc key nodes id addr mem dagNode.AST.Content with
        | err e => rw [hp] at h; cases h
        | panic => rw [hp] at h; cases h
        | ok m2 =>
          rw [hp] at h
          simp only at h
          obtain ⟨ds0, _, hm2⟩ := pairs_ok doc key nodes id addr _ _ _ _ (le_refl _) hp
          rw [ih _ _ h, hm2, List.length_modify]
      · simp only [ne_eq, hk, not_false_eq_true, if_true] at h
        exact ih _ _ h

/-- The graph a successful `BuildDAG` returns, object by object. -/
theorem buildDAG_ok (doc : Doc) (key : String) (ord1 ord2 : List String) (g : DAG)
    (hnd : doc.NodesByID.keys.Nodup) (h1 : doc.NodesByID.IterOrder ord1)
    (h2 : doc.NodesByID.IterOrder ord2) (h : BuildDAG doc key ord1 ord2 = Res.ok g) :
    g.Nodes = allocNodes (doc.NodesByID.range ord1) ∧
    g.Mem.length = (doc.NodesByID.range ord1).length ∧
    ∀ (a : Nat) (p : String × Node), (doc.NodesByID.range ord1)[a]? = some p →
      ∃ ds : List Nat, g.Mem[a]? = some (addDeps ds (freshNode p)) ∧
        ds.map some = (depItems key p.2.AST).map (depAddr doc g.Nodes) := by
  have hes : (doc.NodesByID.range ord1).Perm doc.NodesByID := GoMap.range_perm _ hnd h1
  have hesnd : ((doc.NodesByID.range ord1).map Prod.fst).Nodup :=
    (hes.map Prod.fst).nodup_iff.2 hnd
  have halloc := alloc_eq (doc.NodesByID.range ord1) { Nodes := [], Mem := [] }
    (by simpa [GoMap.keys] using hesnd)
  simp only [List.nil_append, List.length_nil] at halloc
  unfold BuildDAG at h
  simp only [halloc] at h
  change (match BuildDAG.link doc key (allocNodes (doc.NodesByID.range ord1))
    ((doc.NodesByID.range ord1).map freshNode)
    (GoMap.range (allocNodes (doc.NodesByID.range ord1)) ord2) with
    | Res.ok mem => Res.ok { Nodes := allocNodes (doc.NodesByID.range ord1), Mem := mem }
    | Res.err e => Res.err e
    | Res.panic => Res.panic) = Res.ok g at h
  cases hl : BuildDAG.link doc key (allocNodes (doc.NodesByID.range ord1))
    ((doc.NodesByID.range ord1).map freshNode)
    (GoMap.range (allocNodes (doc.NodesByID.range ord1)) ord2) with
  | err e => rw [hl] at h; cases h
  | panic => rw [hl] at h; cases h
  | ok mem =>
    rw [hl] at h
    simp only [Res.ok.injEq] at h
    subst h
    have hkeys : (allocNodes (doc.NodesByID.range ord1)).keys.Nodup := by
      rw [allocNodes_keys]; exact hesnd
    have hord2 : (allocNodes (doc.NodesByID.range ord1)).IterOrder ord2 := by
      unfold GoMap.IterOrder
      rw [allocNodes_keys]
      exact h2.trans (hes.map Prod.fst).symm
    have hperm := GoMap.range_perm _ hkeys hord2
    have haddrs : ((GoMap.range (allocNodes (doc.NodesByID.range ord1)) ord2).map
        Prod.snd).Perm (List.range (doc.NodesByID.range ord1).length) := by
      rw [← allocNodes_addrs]
      exact hperm.map Prod.snd
    have hlen := link_length doc key _ _ _ _ hl
    rw [List.length_map] at hlen
    refine ⟨rfl, hlen, ?_⟩
    intro a p hp
    have hlt : a < (doc.NodesByID.range ord1).length := by
      rcases Nat.lt_or_ge a (doc.NodesByID.range ord1).length with h3 | h3
      · exact h3
      · rw [List.getElem?_eq_none h3] at hp; cases hp
    obtain ⟨ds, hds, hv⟩ := link_ok doc key _ _ _ _ (haddrs.nodup_iff.2 (List.nodup_range _)) hl
      a (freshNode p) (by rw [List.getElem?_map, hp]; rfl)
    refine ⟨ds, hds, ?_⟩
    rw [hv, if_pos (haddrs.mem_iff.2 (List.mem_range.2 hlt))]
    rfl

/-- Every address stored in the map of a built graph is the address of an object. -/
theorem buildDAG_get?_lt (doc : Doc) (key : String) (ord1 ord2 : List String) (g : DAG)
    (hnd : doc.NodesByID.keys.Nodup) (h1 : doc.NodesByID.IterOrder ord1)
    (h2 : doc.NodesByID.IterOrder ord2) (h : BuildDAG doc key ord1 ord2 = Res.ok g)
    {id : String} {a : Nat} (hg : g.Nodes.get? id = some a) : a < g.Mem.length := by
  obtain ⟨hn, hl, _⟩ := buildDAG_ok doc key ord1 ord2 g hnd h1 h2 h
  rw [hn] at hg
  have := List.mem_map_of_mem Prod.snd (GoMap.mem_of_get? hg)
  rw [allocNodes_addrs] at this
  rw [hl]
  exact List.mem_range.1 this

theorem buildDAG_closed (doc : Doc) (key : String) (ord1 ord2 : List String) (g : DAG)
    (hnd : doc.NodesByID.keys.Nodup) (h1 : doc.NodesByID.IterOrder ord1)
    (h2 : doc.NodesByID.IterOrder ord2) (h : BuildDAG doc key ord1 ord2 = Res.ok g) :
    Closed g.Mem := by
  obtain ⟨_, hl, hobj⟩ := buildDAG_ok doc key ord1 ord2 g hnd h1 h2 h
  rintro a b ⟨n, hn, hb⟩
  have hlt : a < (doc.NodesByID.range ord1).length := by
    rw [← hl]
    rcases Nat.lt_or_ge a g.Mem.length with h3 | h3
    · exact h3
    · rw [List.getElem?_eq_none h3] at hn; cases hn
  obtain ⟨ds, hds, hv⟩ := hobj a _ (List.getElem?_eq_getElem hlt)
  rw [hn] at hds
  cases hds
  simp only [addDeps, freshNode, List.nil_append] at hb
  have hmem : some b ∈ ds.map some := List.mem_map_of_mem some hb
  rw [hv] at hmem
  obtain ⟨item, _, hitem⟩ := List.mem_map.1 hmem
  unfold depAddr at hitem
  cases hr : doc.ResolveAlias item with
  | err e => rw [hr] at hitem; cases hitem
  | panic => rw [hr] at hitem; cases hitem
  | ok resolved =>
    rw [hr] at hitem
    exact buildDAG_get?_lt doc key ord1 ord2 g hnd h1 h2 h hitem

theorem buildDAG_allUnvisited (doc : Doc) (key : String) (ord1 ord2 : List String) (g : DAG)
    (hnd : doc.NodesByID.keys.Nodup) (h1 : doc.NodesByID.IterOrder ord1)
    (h2 : doc.NodesByID.IterOrder ord2) (h : BuildDAG doc key ord1 ord2 = Res.ok g) :
    AllUnvisited g.Mem := by
  obtain ⟨_, hl, hobj⟩ := buildDAG_ok doc key ord1 ord2 g hnd h1 h2 h
  intro n hn
  obtain ⟨a, ha⟩ := List.getElem?_of_mem hn
  have hlt : a < (doc.NodesByID.range ord1).length := by
    rw [← hl]
    rcases Nat.lt_or_ge a g.Mem.length with h3 | h3
    · exact h3
    · rw [List.getElem?_eq_none h3] at ha; cases ha
  obtain ⟨ds, hds, _⟩ := hobj a _ (List.getElem?_eq_getElem hlt)
  rw [ha] at hds
  cases hds
  exact ⟨rfl, rfl⟩

/-- A detection pass over a built graph starts from every object of the store. -/
theorem buildDAG_roots (doc : Doc) (key : String) (ord1 ord2 ord : List String) (g : DAG)
    (hnd : doc.NodesByID.keys.Nodup) (h1 : doc.NodesByID.IterOrder ord1)
    (h2 : doc.NodesByID.IterOrder ord2) (h : BuildDAG doc key ord1 ord2 = Res.ok g)
    (hord : g.Nodes.IterOrder ord) :
    ((g.Nodes.range ord).map Prod.snd).Perm (List.range g.Mem.length) := by
  obtain ⟨hn, hl, _⟩ := buildDAG_ok doc key ord1 ord2 g hnd h1 h2 h
  have hes : (doc.NodesByID.range ord1).Perm doc.NodesByID := GoMap.range_perm _ hnd h1
  have hkeys : g.Nodes.keys.Nodup := by
    rw [hn, allocNodes_keys]
    exact (hes.map Prod.fst).nodup_iff.2 hnd
  have := (GoMap.range_perm _ hkeys hord).map Prod.snd
  rw [hl]
  rw [hn] at this ⊢
  rw [allocNodes_addrs] at this
  exact this

/-! ## Claims on cycle detection -/

/-- C1: for every graph `g` that `BuildDAG` returns (whatever orders the runtime
picks for the three map loops), `DetectCycles` returns, and it returns `nil`
exactly when no node of the graph reaches itself through one or more
`DependsOn` edges (a self-loop is such a cycle). -/
theorem C1_detectCycles_ok_iff_acyclic (doc : Doc) (key : String) (ord1 ord2 ord : List String)
    (g : DAG) (hnd : doc.NodesByID.keys.Nodup) (h1 : doc.NodesByID.IterOrder ord1)
    (h2 : doc.NodesByID.IterOrder ord2) (hb : BuildDAG doc key ord1 ord2 = Res.ok g)
    (hord : g.Nodes.IterOrder ord) :
    AllUnvisited g.Mem ∧ (g.DetectCycles ord).Returned ∧
      ((∃ mem, g.DetectCycles ord = Run.ok mem) ↔ ∀ a, ¬ OnCycle g.Mem a) := by
  have hu := buildDAG_allUnvisited doc key ord1 ord2 g hnd h1 h2 hb
  have hc := buildDAG_closed doc key ord1 ord2 g hnd h1 h2 hb
  have hroots := buildDAG_roots doc key ord1 ord2 ord g hnd h1 h2 hb hord
  have hret : (g.DetectCycles ord).Returned :=
    detectCycles_returned g ord hc (fun a ha => List.mem_range.1 (hroots.mem_iff.1 ha))
  refine ⟨hu, hret, ?_, ?_⟩
  · rintro ⟨mem, hm⟩ a hcyc
    have hlt : a < g.Mem.length := by
      obtain ⟨b, hab, _⟩ := Relation.TransGen.head'_iff.1 hcyc
      obtain ⟨n, hn, _⟩ := hab
      rcases Nat.lt_or_ge a g.Mem.length with h3 | h3
      · exact h3
      · rw [List.getElem?_eq_none h3] at hn; cases hn
    exact detectCycles_ok g ord hu mem hm a (hroots.mem_iff.2 (List.mem_range.2 hlt)) hcyc
  · intro hacyc
    rcases hret with ⟨mem, hm⟩ | ⟨e, mem, hm⟩
    · exact ⟨mem, hm⟩
    · obtain ⟨y, _, _, _, hy⟩ := detectCycles_err g ord hu e mem hm
      exact absurd hy (hacyc y)

/-- Witness of C1 on `A` without dependencies and `B: depends_on [*A]`. -/
theorem C1_witness_chain :
    (BuildDAG (docOf chainTree) "depends_on" ["A", "B"] ["B", "A"] = Res.ok chainGraph) ∧
    (AllUnvisited chainGraph.Mem ∧ (chainGraph.DetectCycles ["B", "A"]).Returned ∧
      ((∃ mem, chainGraph.DetectCycles ["B", "A"] = Run.ok mem) ↔
        ∀ a, ¬ OnCycle chainGraph.Mem a)) :=
  ⟨rfl, C1_detectCycles_ok_iff_acyclic (docOf chainTree) "depends_on" ["A", "B"] ["B", "A"]
    ["B", "A"] chainGraph (by decide) (List.Perm.refl _) (List.Perm.swap _ _ _) rfl
    (List.Perm.swap _ _ _)⟩

/-- The pass over the graph of `chainTree` returns `nil`. -/
theorem chainGraph_detectCycles : ∃ mem, chainGraph.DetectCycles ["B", "A"] = Run.ok mem :=
  ⟨_, rfl⟩

/-- The pass over the graph of `cycleTree` fails, and names `A` or `B`. -/
theorem cycleGraph_detectCycles :
    (∃ mem, cycleGraph.DetectCycles ["A", "B"] = Run.err (Error.cycleDetected "A") mem) ∧
    (∃ mem, cycleGraph.DetectCycles ["B", "A"] = Run.err (Error.cycleDetected "B") mem) :=
  ⟨⟨_, rfl⟩, ⟨_, rfl⟩⟩

/-- C2: for every graph whose markers are all Unvisited, whatever the order in
which the nodes are walked, a `DetectCycles` that fails fails with
`CycleDetected` naming the `ID` of a node that reaches itself through one or
more `DependsOn` edges. -/
theorem C2_cycleDetected_names_cycle_node (g : DAG) (ord : List String)
    (hu : AllUnvisited g.Mem) (e : Error) (mem : List DAGNode)
    (h : g.DetectCycles ord = Run.err e mem) :
    ∃ y n, g.Mem[y]? = some n ∧ e = Error.cycleDetected n.ID ∧ OnCycle g.Mem y :=
  detectCycles_err g ord hu e mem h

/-- Witness of C2 on `A: depends_on [*B]`, `B: depends_on [*A]`: the error names `A`. -/
theorem C2_witness_cycle :
    AllUnvisited cycleGraph.Mem ∧
    ∃ y n, cycleGraph.Mem[y]? = some n ∧ Error.cycleDetected "A" = Error.cycleDetected n.ID ∧
      OnCycle cycleGraph.Mem y :=
  ⟨by decide, C2_cycleDetected_names_cycle_node cycleGraph ["A", "B"] (by decide) _ _ rfl⟩

/-! ## The anchor index -/

theorem preorderList_cons (n : YamlNode) (ns : List YamlNode) :
    preorderList (n :: ns) = n.preorder ++ preorderList ns := by
  simp [preorderList]

theorem preorder_eq (n : YamlNode) : n.preorder = n :: preorderList n.Content := by
  cases n
  simp [YamlNode.preorder]

mutual
theorem indexNode_eq_foldl (n : YamlNode) (m : GoMap Node) (h : LeavesChildless [n]) :
    indexNode m n = n.preorder.foldl indexStep m := by
  match n with
  | ⟨k, t, v, a, l, c, cs⟩ =>
    have hcs : LeavesChildless cs := by
      intro x hx
      apply h
      simp [preorderList, YamlNode.preorder, hx]
    simp only [indexNode, YamlNode.preorder, List.foldl_cons]
    by_cases hk : k = Kind.SequenceNode ∨ k = Kind.MappingNode
    · rw [if_pos hk, indexNodes_eq_foldl cs _ hcs]
      rfl
    · rw [if_neg hk]
      have : cs = [] := by
        have := h ⟨k, t, v, a, l, c, cs⟩ (by simp [preorderList, YamlNode.preorder])
          (fun e => hk (Or.inl e)) (fun e => hk (Or.inr e))
        exact this
      subst this
      simp [preorderList, indexStep, mkNode]
theorem indexNodes_eq_foldl (ns : List YamlNode) (m : GoMap Node) (h : LeavesChildless ns) :
    indexNodes m ns = (preorderList ns).foldl indexStep m := by
  match ns with
  | [] => simp [indexNodes, preorderList]
  | n :: rest =>
    have h1 : LeavesChildless [n] := by
      intro x hx
      apply h
      simp only [preorderList, List.append_nil] at hx
      simp [preorderList, hx]
    have h2 : LeavesChildless rest := by
      intro x hx
      apply h
      simp [preorderList, hx]
    simp only [indexNodes, preorderList, List.foldl_append]
    rw [indexNode_eq_foldl n m h1, indexNodes_eq_foldl rest _ h2]
end

theorem lastAnchored_cons (id : String) (n : YamlNode) (l : List YamlNode) :
    lastAnchored id (n :: l) =
      (lastAnchored id l).or (if n.Anchor = id then some n else none) := by
  unfold lastAnchored
  have : n :: l = [n] ++ l := rfl
  rw [this, List.filter_append, List.getLast?_append]
  by_cases h : n.Anchor = id <;> simp [List.filter, h]

theorem lastAnchored_some {id : String} {l : List YamlNode} {n : YamlNode}
    (h : lastAnchored id l = some n) : n ∈ l ∧ n.Anchor = id := by
  have := List.mem_of_getLast?_eq_some h
  simpa using this

theorem lastAnchored_eq_none_iff (id : String) (l : List YamlNode) :
    lastAnchored id l = none ↔ ∀ n ∈ l, n.Anchor ≠ id := by
  unfold lastAnchored
  rw [List.getLast?_eq_none_iff, List.filter_eq_nil_iff]
  simp

theorem indexStep_get? (m : GoMap Node) (n : YamlNode) (id : String) :
    (indexStep m n).get? id =
      if n.Anchor ≠ "" ∧ n.Anchor = id then some (mkNode n) else m.get? id := by
  unfold indexStep
  by_cases h : n.Anchor = ""
  · have : ¬ (n.Anchor ≠ "" ∧ n.Anchor = id) := fun hc => hc.1 h
    rw [if_neg (by simpa using h), if_neg this]
  · rw [if_pos h, GoMap.get?_put]
    by_cases h1 : n.Anchor = id
    · rw [if_pos h1, if_pos ⟨h, h1⟩]
    · rw [if_neg h1, if_neg (fun hc => h1 hc.2)]

theorem foldl_indexStep_get? (id : String) (hid : id ≠ "") :
    ∀ (l : List YamlNode) (m : GoMap Node),
      (l.foldl indexStep m).get? id = ((lastAnchored id l).map mkNode).or (m.get? id) := by
  intro l
  induction l with
  | nil => intro m; simp [lastAnchored]
  | cons n l ih =>
    intro m
    rw [List.foldl_cons, ih, lastAnchored_cons, indexStep_get?]
    cases h : lastAnchored id l with
    | some x => simp
    | none =>
      by_cases h1 : n.Anchor = id
      · have h2 : n.Anchor ≠ "" := by rw [h1]; exact hid
        simp [h1, hid]
      · simp [h1]

theorem foldl_indexStep_get?_empty : ∀ (l : List YamlNode) (m : GoMap Node),
    (l.foldl indexStep m).get? "" = m.get? "" := by
  intro l
  induction l with
  | nil => intro m; rfl
  | cons n l ih =>
    intro m
    rw [List.foldl_cons, ih, indexStep_get?]
    by_cases h : n.Anchor = ""
    · simp [h]
    · have : ¬ (n.Anchor ≠ "" ∧ n.Anchor = "") := fun hc => h hc.2
      rw [if_neg this]

theorem foldl_indexStep_nodup : ∀ (l : List YamlNode) (m : GoMap Node), m.keys.Nodup →
    (l.foldl indexStep m).keys.Nodup := by
  intro l
  induction l with
  | nil => intro m h; exact h
  | cons n l ih =>
    intro m h
    rw [List.foldl_cons]
    apply ih
    unfold indexStep
    split
    · exact GoMap.nodup_keys_put _ _ _ h
    · exact h

/-- The index of a tree, entry by entry. -/
theorem index_get? (root : YamlNode) (h : LeavesChildless root.Content) (id : String) :
    (docOf root).NodesByID.get? id =
      if id = "" then none else (lastAnchored id (preorderList root.Content)).map mkNode := by
  show (indexNodes [] root.Content).get? id = _
  rw [indexNodes_eq_foldl _ _ h]
  by_cases hid : id = ""
  · subst hid
    rw [foldl_indexStep_get?_empty, if_pos rfl]
    rfl
  · rw [foldl_indexStep_get? id hid, if_neg hid]
    simp [GoMap.get?]

theorem index_nodup (root : YamlNode) (h : LeavesChildless root.Content) :
    (docOf root).NodesByID.keys.Nodup := by
  show (indexNodes [] root.Content).keys.Nodup
  rw [indexNodes_eq_foldl _ _ h]
  exact foldl_indexStep_nodup _ _ (by simp [GoMap.keys])

/-- C3: for every tree shaped as the data model says (only Sequence and Mapping
nodes have children), `ParseYAML` succeeds with the index built by
`indexNodes`; the keys of the index are pairwise distinct and are exactly the
non-empty anchors carried by the nodes below the document root; and the entry
of a key `id` is the `Node` of the last node, in left-to-right depth-first
pre-order, that carries the anchor `id` (so it is a node of the tree with that
anchor). -/
theorem C3_index_exact_last_wins (root : YamlNode) (h : LeavesChildless root.Content) :
    ParseYAML (some root) = Res.ok (docOf root) ∧
    (docOf root).NodesByID.keys.Nodup ∧
    (∀ id, id ∈ (docOf root).NodesByID.keys ↔
      (id ≠ "" ∧ ∃ n ∈ preorderList root.Content, n.Anchor = id)) ∧
    (∀ id v, (docOf root).NodesByID.get? id = some v →
      lastAnchored id (preorderList root.Content) = some v.AST ∧ v = mkNode v.AST ∧
      v.AST ∈ preorderList root.Content ∧ v.AST.Anchor = id) := by
  refine ⟨rfl, index_nodup root h, ?_, ?_⟩
  · intro id
    rw [GoMap.mem_keys_iff]
    constructor
    · rintro ⟨v, hv⟩
      rw [index_get? root h] at hv
      by_cases hid : id = ""
      · rw [if_pos hid] at hv; cases hv
      · rw [if_neg hid] at hv
        cases hl : lastAnchored id (preorderList root.Content) with
        | none => rw [hl] at hv; cases hv
        | some n =>
          obtain ⟨h1, h2⟩ := lastAnchored_some hl
          exact ⟨hid, n, h1, h2⟩
    · rintro ⟨hid, n, hn, ha⟩
      rw [index_get? root h, if_neg hid]
      cases hl : lastAnchored id (preorderList root.Content) with
      | none => exact absurd ha ((lastAnchored_eq_none_iff _ _).1 hl n hn)
      | some x => exact ⟨mkNode x, rfl⟩
  · intro id v hv
    rw [index_get? root h] at hv
    by_cases hid : id = ""
    · rw [if_pos hid] at hv; cases hv
    · rw [if_neg hid] at hv
      cases hl : lastAnchored id (preorderList root.Content) with
      | none => rw [hl] at hv; cases hv
      | some n =>
        rw [hl] at hv
        simp only [Option.map_some', Option.some.injEq] at hv
        subst hv
        obtain ⟨h1, h2⟩ := lastAnchored_some hl
        exact ⟨rfl, rfl, h1, h2⟩

/-- Witness of C3: the document with the anchors `&first` and `&second` is
indexed under exactly these two keys. -/
theorem C3_witness_two_anchors :
    LeavesChildless twoAnchorsTree.Content ∧
    (docOf twoAnchorsTree).NodesByID.keys = ["first", "second"] ∧
    (ParseYAML (some twoAnchorsTree) = Res.ok (docOf twoAnchorsTree) ∧
    (docOf twoAnchorsTree).NodesByID.keys.Nodup ∧
    (∀ id, id ∈ (docOf twoAnchorsTree).NodesByID.keys ↔
      (id ≠ "" ∧ ∃ n ∈ preorderList twoAnchorsTree.Content, n.Anchor = id)) ∧
    (∀ id v, (docOf twoAnchorsTree).NodesByID.get? id = some v →
      lastAnchored id (preorderList twoAnchorsTree.Content) = some v.AST ∧ v = mkNode v.AST ∧
      v.AST ∈ preorderList twoAnchorsTree.Content ∧ v.AST.Anchor = id)) :=
  ⟨by decide, by decide, C3_index_exact_last_wins twoAnchorsTree (by decide)⟩

/-- A document without anchors has an empty index. -/
theorem noAnchors_index : (docOf noAnchorsTree).NodesByID = [] := by decide

/-- With the same anchor on two nodes the later one wins. -/
theorem duplicate_anchor_last_wins :
    (docOf (documentOf (seqOf [mapOf "x" [], scalar "k", mapOf "x" [scalar "a", scalar "b"]]))
      ).NodesByID = [("x", mkNode (mapOf "x" [scalar "a", scalar "b"]))] := by decide

/-- The hypothesis of C3 is needed: `indexNodes` does not descend into a node
that is neither a Sequence nor a Mapping, so an anchor below a Scalar that had
children would not be indexed. -/
theorem index_skips_below_scalars :
    (docOf scalarWithChildTree).NodesByID = [] := by decide

/-! ## Alias resolution -/

/-- C4: `ResolveAlias` is determined by three cases.  A node whose kind is not
Alias fails with NotAnAlias; an Alias whose payload is not a key of the index
fails with UnresolvedAlias naming the payload; an Alias whose payload is a key
returns exactly the entry stored under it.  The embedding of `ResolveAlias` is
a function of the document and the node that returns only the result: the Go
method assigns to neither. -/
theorem C4_resolveAlias_cases (d : Doc) (n : YamlNode) :
    (n.Kind ≠ Kind.AliasNode → d.ResolveAlias n = Res.err (Error.notAlias n)) ∧
    (n.Kind = Kind.AliasNode → n.Value ∉ d.NodesByID.keys →
      d.ResolveAlias n = Res.err (Error.unresolvedAlias n.Value)) ∧
    (n.Kind = Kind.AliasNode → ∀ target, d.NodesByID.get? n.Value = some target →
      d.ResolveAlias n = Res.ok target) ∧
    (n.Kind = Kind.AliasNode → n.Value ∈ d.NodesByID.keys →
      ∃ target, d.NodesByID.get? n.Value = some target ∧ d.ResolveAlias n = Res.ok target) := by
  refine ⟨?_, ?_, ?_, ?_⟩
  · intro h
    simp [Doc.ResolveAlias, h]
  · intro h hk
    have := (GoMap.get?_eq_none_iff d.NodesByID n.Value).2 hk
    simp [Doc.ResolveAlias, h, this]
  · intro h target ht
    simp [Doc.ResolveAlias, h, ht]
  · intro h hk
    obtain ⟨target, ht⟩ := (GoMap.mem_keys_iff _ _).1 hk
    exact ⟨target, ht, by simp [Doc.ResolveAlias, h, ht]⟩

/-- Witness of C4 on the document `A`, `B: depends_on [*A]`: the alias `*A`
resolves to the entry of `A`, the alias `*nope` is unresolved, a scalar is not
an alias. -/
theorem C4_witness_cases :
    (docOf chainTree).ResolveAlias (aliasOf "A") =
      Res.ok (mkNode (mapOf "A" [scalar "name", scalar "a"])) ∧
    (docOf chainTree).ResolveAlias (aliasOf "nope") = Res.err (Error.unresolvedAlias "nope") ∧
    (docOf chainTree).ResolveAlias (scalar "A") = Res.err (Error.notAlias (scalar "A")) :=
  ⟨(C4_resolveAlias_cases (docOf chainTree) (aliasOf "A")).2.2.1 rfl _ rfl,
   (C4_resolveAlias_cases (docOf chainTree) (aliasOf "nope")).2.1 rfl (by decide),
   (C4_resolveAlias_cases (docOf chainTree) (scalar "A")).1 (by decide)⟩

/-! ## Facts on the index that hold for every tree -/

theorem indexInv_put (m : GoMap Node) (n : YamlNode) (h : IndexInv m) :
    IndexInv (m.put n.Anchor (mkNode n)) := by
  refine ⟨GoMap.nodup_keys_put _ _ _ h.1, ?_⟩
  intro id v hv
  rw [GoMap.get?_put] at hv
  by_cases he : n.Anchor = id
  · rw [if_pos he] at hv
    cases hv
    exact ⟨he, he, he⟩
  · rw [if_neg he] at hv
    exact h.2 id v hv

mutual
theorem indexNode_inv (n : YamlNode) (m : GoMap Node) (h : IndexInv m) :
    IndexInv (indexNode m n) := by
  match n with
  | ⟨k, t, v, a, l, c, cs⟩ =>
    simp only [indexNode]
    have h1 : IndexInv (if a ≠ "" then m.put a (mkNode ⟨k, t, v, a, l, c, cs⟩) else m) := by
      split
      · exact indexInv_put m ⟨k, t, v, a, l, c, cs⟩ h
      · exact h
    split
    · exact indexNodes_inv cs _ h1
    · exact h1
theorem indexNodes_inv (ns : List YamlNode) (m : GoMap Node) (h : IndexInv m) :
    IndexInv (indexNodes m ns) := by
  match ns with
  | [] => simpa [indexNodes] using h
  | n :: rest =>
    simp only [indexNodes]
    exact indexNodes_inv rest _ (indexNode_inv n m h)
end

theorem docOf_indexInv (root : YamlNode) : IndexInv (docOf root).NodesByID :=
  indexNodes_inv root.Content [] ⟨by simp [GoMap.keys], by intro id v h; simp [GoMap.get?] at h⟩

theorem resolveAlias_ok_iff (d : Doc) (it : YamlNode) (r : Node) :
    d.ResolveAlias it = Res.ok r ↔
      (it.Kind = Kind.AliasNode ∧ d.NodesByID.get? it.Value = some r) := by
  unfold Doc.ResolveAlias
  by_cases hk : it.Kind = Kind.AliasNode
  · simp only [hk, ne_eq, not_true_eq_false, if_false, true_and]
    cases d.NodesByID.get? it.Value with
    | none => simp
    | some t => simp
  · simp [hk]

theorem pairItems_eq_nil (key : String) : ∀ (k : Nat) (content : List YamlNode),
    content.length ≤ k → (∀ p ∈ kvPairs content, p.1.Value ≠ key) → pairItems key content = [] := by
  intro k
  induction k with
  | zero =>
    intro content hk _
    have : content = [] := List.length_eq_zero.1 (Nat.le_zero.1 hk)
    subst this
    rfl
  | succ k ih =>
    intro content hk h
    match content, hk, h with
    | [], _, _ => rfl
    | [_], _, _ => rfl
    | kn :: v :: rest, hk, h =>
      have hlen : rest.length ≤ k := by simp at hk; omega
      have h1 : kn.Value ≠ key := h (kn, v) (by simp [kvPairs])
      have h2 := ih rest hlen (fun p hp => h p (by simp [kvPairs, hp]))
      simp [pairItems, h1, h2]

/-- The dependency pointer of an item of an indexed document, when there is
one, is the object filed under the identifier the alias names. -/
theorem depAddr_eq_some (root : YamlNode) (nodes : GoMap Nat) (it : YamlNode) (b : Nat)
    (h : depAddr (docOf root) nodes it = some b) :
    it.Kind = Kind.AliasNode ∧ it.Value ∈ (docOf root).NodesByID.keys ∧
      nodes.get? it.Value = some b := by
  unfold depAddr at h
  cases hr : (docOf root).ResolveAlias it with
  | err e => rw [hr] at h; cases h
  | panic => rw [hr] at h; cases h
  | ok resolved =>
    rw [hr] at h
    obtain ⟨hk, hg⟩ := (resolveAlias_ok_iff _ _ _).1 hr
    have := ((docOf_indexInv root).2 _ _ hg).1
    simp only [this] at h
    exact ⟨hk, (GoMap.mem_keys_iff _ _).2 ⟨_, hg⟩, h⟩

/-! ## Claims on graph building -/

/-- C5: for every indexed document and key on which `BuildDAG` succeeds
(whatever the orders of its two map loops): the graph has exactly one object
per key of the index (the keys of `Nodes` are those of the index, and `Nodes`
pairs them one to one with the objects of the store), the object of `id` has
`ID = id` and the `AST` of the index entry; its `DependsOn` is, in sequence
order, the objects filed under the identifiers named by the elements of the
Sequence values stored under `key` in the Mapping (all of them Alias nodes
that name indexed anchors); and it is empty for a node that is not a Mapping
and for a Mapping without the key.  (A Mapping with an odd number of children
makes `BuildDAG` panic, so it does not succeed on one.) -/
theorem C5_buildDAG_graph (root : YamlNode) (key : String) (ord1 ord2 : List String) (g : DAG)
    (h1 : (docOf root).NodesByID.IterOrder ord1) (h2 : (docOf root).NodesByID.IterOrder ord2)
    (hb : BuildDAG (docOf root) key ord1 ord2 = Res.ok g) :
    g.Nodes.keys.Perm (docOf root).NodesByID.keys ∧
    (g.Nodes.map Prod.snd).Perm (List.range g.Mem.length) ∧
    ∀ id node, (docOf root).NodesByID.get? id = some node →
      ∃ a n, g.Nodes.get? id = some a ∧ g.Mem[a]? = some n ∧ n.ID = id ∧ n.AST = node.AST ∧
        (∀ it ∈ depItems key node.AST,
          it.Kind = Kind.AliasNode ∧ it.Value ∈ (docOf root).NodesByID.keys) ∧
        n.DependsOn.map some = (depItems key node.AST).map (fun it => g.Nodes.get? it.Value) ∧
        (node.AST.Kind ≠ Kind.MappingNode → n.DependsOn = []) ∧
        ((∀ p ∈ kvPairs node.AST.Content, p.1.Value ≠ key) → n.DependsOn = []) := by
  have hnd := (docOf_indexInv root).1
  obtain ⟨hn, hl, hobj⟩ := buildDAG_ok (docOf root) key ord1 ord2 g hnd h1 h2 hb
  have hes : ((docOf root).NodesByID.range ord1).Perm (docOf root).NodesByID :=
    GoMap.range_perm _ hnd h1
  have hesnd : (((docOf root).NodesByID.range ord1).map Prod.fst).Nodup :=
    (hes.map Prod.fst).nodup_iff.2 hnd
  refine ⟨?_, ?_, ?_⟩
  · rw [hn, allocNodes_keys]
    exact hes.map Prod.fst
  · rw [hn, allocNodes_addrs, hl]
  · intro id node hg
    have hmem : (id, node) ∈ (docOf root).NodesByID.range ord1 :=
      hes.mem_iff.2 (GoMap.mem_of_get? hg)
    obtain ⟨a, ha⟩ := List.getElem?_of_mem hmem
    obtain ⟨ds, hds, hv⟩ := hobj a _ ha
    have hitems : ∀ it ∈ depItems key node.AST,
        it.Kind = Kind.AliasNode ∧ it.Value ∈ (docOf root).NodesByID.keys ∧
          depAddr (docOf root) g.Nodes it = g.Nodes.get? it.Value := by
      intro it hit
      have : depAddr (docOf root) g.Nodes it ∈ ds.map some := by
        rw [hv]
        exact List.mem_map_of_mem _ hit
      obtain ⟨b, _, hb2⟩ := List.mem_map.1 this
      obtain ⟨h3, h4, h5⟩ := depAddr_eq_some root g.Nodes it b hb2.symm
      exact ⟨h3, h4, by rw [← hb2, h5]⟩
    have hdeps : (addDeps ds (freshNode (id, node))).DependsOn = ds := by
      simp [addDeps, freshNode]
    have hmap : ds.map some = (depItems key node.AST).map (fun it => g.Nodes.get? it.Value) := by
      rw [hv]
      exact List.map_congr_left (fun it hit => (hitems it hit).2.2)
    refine ⟨a, _, ?_, hds, rfl, rfl, fun it hit => ⟨(hitems it hit).1, (hitems it hit).2.1⟩,
      ?_, ?_, ?_⟩
    · rw [hn]
      exact (allocNodes_get? _ hesnd id a).2 ⟨node, ha⟩
    · rw [hdeps]
      exact hmap
    · intro hk
      rw [hdeps]
      have : depItems key node.AST = [] := by simp [depItems, hk]
      rw [this] at hmap
      simpa using hmap
    · intro hk
      rw [hdeps]
      have : depItems key node.AST = [] := by
        unfold depItems
        split
        · exact pairItems_eq_nil key _ _ (le_refl _) hk
        · rfl
      rw [this] at hmap
      simpa using hmap

/-- Witness of C5 on `A` without dependencies and `B: depends_on [*A]`:
`B.DependsOn == [A]` and `A.DependsOn == []`. -/
theorem C5_witness_chain :
    (chainGraph.Nodes = [("A", 0), ("B", 1)] ∧
      chainGraph.Mem.map DAGNode.DependsOn = [[], [0]] ∧
      chainGraph.Mem.map DAGNode.ID = ["A", "B"]) ∧
    (chainGraph.Nodes.keys.Perm (docOf chainTree).NodesByID.keys ∧
    (chainGraph.Nodes.map Prod.snd).Perm (List.range chainGraph.Mem.length) ∧
    ∀ id node, (docOf chainTree).NodesByID.get? id = some node →
      ∃ a n, chainGraph.Nodes.get? id = some a ∧ chainGraph.Mem[a]? = some n ∧ n.ID = id ∧
        n.AST = node.AST ∧
        (∀ it ∈ depItems "depends_on" node.AST,
          it.Kind = Kind.AliasNode ∧ it.Value ∈ (docOf chainTree).NodesByID.keys) ∧
        n.DependsOn.map some =
          (depItems "depends_on" node.AST).map (fun it => chainGraph.Nodes.get? it.Value) ∧
        (node.AST.Kind ≠ Kind.MappingNode → n.DependsOn = []) ∧
        ((∀ p ∈ kvPairs node.AST.Content, p.1.Value ≠ "depends_on") → n.DependsOn = [])) :=
  ⟨by decide, C5_buildDAG_graph chainTree "depends_on" ["A", "B"] ["B", "A"] chainGraph
    (List.Perm.refl _) (List.Perm.swap _ _ _) rfl⟩

/-! ## How `BuildDAG` fails -/

theorem items_err (doc : Doc) (nodes : GoMap Nat) (id : String) (addr : Nat) :
    ∀ (its : List YamlNode) (mem : List DAGNode) (e : Error),
      BuildDAG.items doc nodes id addr mem its = Res.err e →
      ∃ it ∈ its, ItemFails doc nodes id it e := by
  intro its
  induction its with
  | nil => intro mem e h; simp [BuildDAG.items] at h
  | cons it rest ih =>
    intro mem e h
    simp only [BuildDAG.items] at h
    cases hr : doc.ResolveAlias it with
    | err c =>
      rw [hr] at h
      simp only [Res.err.injEq] at h
      exact ⟨it, List.mem_cons_self _ _, Or.inl ⟨c, hr, h.symm⟩⟩
    | panic => rw [hr] at h; cases h
    | ok resolved =>
      rw [hr] at h
      simp only at h
      cases hg : nodes.get? resolved.RefID with
      | none =>
        rw [hg] at h
        simp only [Res.err.injEq] at h
        exact ⟨it, List.mem_cons_self _ _, Or.inr ⟨resolved, hr, hg, h.symm⟩⟩
      | some dep =>
        rw [hg] at h
        simp only at h
        obtain ⟨it2, h2, h3⟩ := ih _ _ h
        exact ⟨it2, List.mem_cons_of_mem _ h2, h3⟩

theorem resolveAlias_ne_panic (d : Doc) (it : YamlNode) : d.ResolveAlias it ≠ Res.panic := by
  unfold Doc.ResolveAlias
  split
  · simp
  · split <;> simp

theorem items_ne_panic (doc : Doc) (nodes : GoMap Nat) (id : String) (addr : Nat) :
    ∀ (its : List YamlNode) (mem : List DAGNode),
      BuildDAG.items doc nodes id addr mem its ≠ Res.panic := by
  intro its
  induction its with
  | nil => intro mem; simp [BuildDAG.items]
  | cons it rest ih =>
    intro mem
    simp only [BuildDAG.items]
    cases hr : doc.ResolveAlias it with
    | err c => simp
    | panic => exact absurd hr (resolveAlias_ne_panic doc it)
    | ok resolved =>
      simp only
      cases hg : nodes.get? resolved.RefID with
      | none => simp
      | some dep => exact ih _

theorem pairs_err (doc : Doc) (key : String) (nodes : GoMap Nat) (id : String) (addr : Nat) :
    ∀ (k : Nat) (content : List YamlNode) (mem : List DAGNode) (e : Error), content.length ≤ k →
      BuildDAG.pairs doc key nodes id addr mem content = Res.err e →
      ∃ it ∈ pairItems key content, ItemFails doc nodes id it e := by
  intro k
  induction k with
  | zero =>
    intro content mem e hk h
    have : content = [] := List.length_eq_zero.1 (Nat.le_zero.1 hk)
    subst this
    simp [BuildDAG.pairs] at h
  | succ k ih =>
    intro content mem e hk h
    match content, hk, h with
    | [], _, h => simp [BuildDAG.pairs] at h
    | [_], _, h => simp [BuildDAG.pairs] at h
    | kn :: v :: rest, hk, h =>
      have hlen : rest.length ≤ k := by simp at hk; omega
      simp only [BuildDAG.pairs] at h
      by_cases hc : kn.Value = key ∧ v.Kind = Kind.SequenceNode
      · rw [if_pos hc] at h
        cases hi : BuildDAG.items doc nodes id addr mem v.Content with
        | err e2 =>
          rw [hi] at h
          simp only [Res.err.injEq] at h
          subst h
          obtain ⟨it, h1, h2⟩ := items_err doc nodes id addr _ _ _ hi
          exact ⟨it, by simp [pairItems, hc, h1], h2⟩
        | panic => rw [hi] at h; cases h
        | ok m2 =>
          rw [hi] at h
          simp only at h
          obtain ⟨it, h1, h2⟩ := ih _ _ _ hlen h
          exact ⟨it, by simp [pairItems, h1], h2⟩
      · rw [if_neg hc] at h
        obtain ⟨it, h1, h2⟩ := ih _ _ _ hlen h
        exact ⟨it, by simp [pairItems, h1], h2⟩

theorem pairs_panic (doc : Doc) (key : String) (nodes : GoMap Nat) (id : String) (addr : Nat) :
    ∀ (k : Nat) (content : List YamlNode) (mem : List DAGNode), content.length ≤ k →
      BuildDAG.pairs doc key nodes id addr mem content = Res.panic →
      content.length % 2 = 1 := by
  intro k
  induction k with
  | zero =>
    intro content mem hk h
    have : content = [] := List.length_eq_zero.1 (Nat.le_zero.1 hk)
    subst this
    simp [BuildDAG.pairs] at h
  | succ k ih =>
    intro content mem hk h
    match content, hk, h with
    | [], _, h => simp [BuildDAG.pairs] at h
    | [_], _, _ => rfl
    | kn :: v :: rest, hk, h =>
      have hlen : rest.length ≤ k := by simp at hk; omega
      simp only [BuildDAG.pairs] at h
      have hgoal : ∀ m, BuildDAG.pairs doc key nodes id addr m rest = Res.panic →
          (kn :: v :: rest).length % 2 = 1 := by
        intro m hm
        have := ih rest m hlen hm
        simp only [List.length_cons]
        omega
      by_cases hc : kn.Value = key ∧ v.Kind = Kind.SequenceNode
      · rw [if_pos hc] at h
        cases hi : BuildDAG.items doc nodes id addr mem v.Content with
        | err e2 => rw [hi] at h; cases h
        | panic => exact absurd hi (items_ne_panic doc nodes id addr _ _)
        | ok m2 =>
          rw [hi] at h
          exact hgoal _ h
      · rw [if_neg hc] at h
        exact hgoal _ h

/-- The `AST` of the object at every address. -/
theorem ast_modify_addDeps (mem : List DAGNode) (ds : List Nat) (addr i : Nat) :
    ((mem.modify (addDeps ds) addr)[i]?).map DAGNode.AST = (mem[i]?).map DAGNode.AST := by
  rw [List.getElem?_modify]
  cases mem[i]? with
  | none => rfl
  | some n => by_cases h : addr = i <;> simp [h, addDeps]

theorem link_err (doc : Doc) (key : String) (nodes : GoMap Nat) :
    ∀ (entries : List (String × Nat)) (mem : List DAGNode) (e : Error),
      BuildDAG.link doc key nodes mem entries = Res.err e →
      ∃ id addr ast it, (id, addr) ∈ entries ∧ (mem[addr]?).map DAGNode.AST = some ast ∧
        it ∈ depItems key ast ∧ ItemFails doc nodes id it e := by
  intro entries
  induction entries with
  | nil => intro mem e h; simp [BuildDAG.link] at h
  | cons en rest ih =>
    intro mem e h
    obtain ⟨id, addr⟩ := en
    simp only [BuildDAG.link] at h
    cases ha : mem[addr]? with
    | none => rw [ha] at h; cases h
    | some dagNode =>
      rw [ha] at h
      simp only at h
      by_cases hk : dagNode.AST.Kind = Kind.MappingNode
      · simp only [hk, ne_eq, not_true_eq_false, if_false] at h
        cases hp : BuildDAG.pairs doc key nodes id addr mem dagNode.AST.Content with
        | err e2 =>
          rw [hp] at h
          simp only [Res.err.injEq] at h
          subst h
          obtain ⟨it, h1, h2⟩ := pairs_err doc key nodes id addr _ _ _ _ (le_refl _) hp
          exact ⟨id, addr, dagNode.AST, it, List.mem_cons_self _ _, by rw [ha]; rfl,
            by simp [depItems, hk, h1], h2⟩
        | panic => rw [hp] at h; cases h
        | ok m2 =>
          rw [hp] at h
          simp only at h
          obtain ⟨ds0, _, hm2⟩ := pairs_ok doc key nodes id addr _ _ _ _ (le_refl _) hp
          obtain ⟨id2, addr2, ast, it, h1, h2, h3, h4⟩ := ih _ _ h
          rw [hm2, ast_modify_addDeps] at h2
          exact ⟨id2, addr2, ast, it, List.mem_cons_of_mem _ h1, h2, h3, h4⟩
      · simp only [ne_eq, hk, not_false_eq_true, if_true] at h
        obtain ⟨id2, addr2, ast, it, h1, h2, h3, h4⟩ := ih _ _ h
        exact ⟨id2, addr2, ast, it, List.mem_cons_of_mem _ h1, h2, h3, h4⟩

theorem link_panic (doc : Doc) (key : String) (nodes : GoMap Nat) :
    ∀ (entries : List (String × Nat)) (mem : List DAGNode),
      BuildDAG.link doc key nodes mem entries = Res.panic →
      ∃ id addr, (id, addr) ∈ entries ∧ ((mem[addr]?).map DAGNode.AST = none ∨
        ∃ ast, (mem[addr]?).map DAGNode.AST = some ast ∧ ast.Kind = Kind.MappingNode ∧
          ast.Content.length % 2 = 1) := by
  intro entries
  induction entries with
  | nil => intro mem h; simp [BuildDAG.link] at h
  | cons en rest ih =>
    intro mem h
    obtain ⟨id, addr⟩ := en
    simp only [BuildDAG.link] at h
    cases ha : mem[addr]? with
    | none => exact ⟨id, addr, List.mem_cons_self _ _, Or.inl (by rw [ha]; rfl)⟩
    | some dagNode =>
      rw [ha] at h
      simp only at h
      by_cases hk : dagNode.AST.Kind = Kind.MappingNode
      · simp only [hk, ne_eq, not_true_eq_false, if_false] at h
        cases hp : BuildDAG.pairs doc key nodes id addr mem dagNode.AST.Content with
        | err e2 => rw [hp] at h; cases h
        | panic =>
          have := pairs_panic doc key nodes id addr _ _ _ (le_refl _) hp
          exact ⟨id, addr, List.mem_cons_self _ _, Or.inr ⟨dagNode.AST, by rw [ha]; rfl, hk, this⟩⟩
        | ok m2 =>
          rw [hp] at h
          simp only at h
          obtain ⟨ds0, _, hm2⟩ := pairs_ok doc key nodes id addr _ _ _ _ (le_refl _) hp
          obtain ⟨id2, addr2, h1, h2⟩ := ih _ h
          rw [hm2, ast_modify_addDeps] at h2
          exact ⟨id2, addr2, List.mem_cons_of_mem _ h1, h2⟩
      · simp only [ne_eq, hk, not_false_eq_true, if_true] at h
        obtain ⟨id2, addr2, h1, h2⟩ := ih _ h
        exact ⟨id2, addr2, List.mem_cons_of_mem _ h1, h2⟩

theorem GoMap.mem_of_mem_range {β : Type} (m : GoMap β) (ord : List String) {p : String × β}
    (h : p ∈ m.range ord) : p ∈ m := by
  unfold GoMap.range at h
  obtain ⟨k, _, hk⟩ := List.mem_filterMap.1 h
  cases hg : m.get? k with
  | none => rw [hg] at hk; cases hk
  | some v =>
    rw [hg] at hk
    simp only [Option.map_some', Option.some.injEq] at hk
    subst hk
    exact GoMap.mem_of_get? hg

/-- The two loops of `BuildDAG`, the first one in closed form. -/
theorem buildDAG_eq (doc : Doc) (key : String) (ord1 ord2 : List String)
    (hnd : doc.NodesByID.keys.Nodup) (h1 : doc.NodesByID.IterOrder ord1) :
    BuildDAG doc key ord1 ord2 =
      match BuildDAG.link doc key (allocNodes (doc.NodesByID.range ord1))
          ((doc.NodesByID.range ord1).map freshNode)
          (GoMap.range (allocNodes (doc.NodesByID.range ord1)) ord2) with
      | Res.ok mem => Res.ok { Nodes := allocNodes (doc.NodesByID.range ord1), Mem := mem }
      | Res.err e => Res.err e
      | Res.panic => Res.panic := by
  have hes : (doc.NodesByID.range ord1).Perm doc.NodesByID := GoMap.range_perm _ hnd h1
  have hesnd : ((doc.NodesByID.range ord1).map Prod.fst).Nodup :=
    (hes.map Prod.fst).nodup_iff.2 hnd
  have halloc := alloc_eq (doc.NodesByID.range ord1) { Nodes := [], Mem := [] }
    (by simpa [GoMap.keys] using hesnd)
  simp only [List.nil_append, List.length_nil] at halloc
  unfold BuildDAG
  simp only [halloc]
  rfl

/-- An entry the second loop of `BuildDAG` visits is an entry of the index, and
its object carries the `AST` of that entry. -/
theorem buildDAG_entry (doc : Doc) (ord1 ord2 : List String)
    (hnd : doc.NodesByID.keys.Nodup) (h1 : doc.NodesByID.IterOrder ord1)
    {id : String} {addr : Nat}
    (h : (id, addr) ∈ GoMap.range (allocNodes (doc.NodesByID.range ord1)) ord2) :
    ∃ node, doc.NodesByID.get? id = some node ∧
      (((doc.NodesByID.range ord1).map freshNode)[addr]?).map DAGNode.AST = some node.AST := by
  have hes : (doc.NodesByID.range ord1).Perm doc.NodesByID := GoMap.range_perm _ hnd h1
  obtain ⟨node, hn⟩ := (allocNodes_mem_iff _ id addr).1 (GoMap.mem_of_mem_range _ _ h)
  refine ⟨node, GoMap.get?_of_mem hnd (hes.mem_iff.1 (List.getElem?_mem hn)), ?_⟩
  rw [List.getElem?_map, hn]
  rfl

/-- An error of `BuildDAG` on an indexed document wraps the failure of
`ResolveAlias` on a dependency item of an indexed node. -/
theorem buildDAG_err (root : YamlNode) (key : String) (ord1 ord2 : List String) (e : Error)
    (h1 : (docOf root).NodesByID.IterOrder ord1)
    (h : BuildDAG (docOf root) key ord1 ord2 = Res.err e) :
    ∃ id node it, (docOf root).NodesByID.get? id = some node ∧ it ∈ depItems key node.AST ∧
      ((it.Kind ≠ Kind.AliasNode ∧ e = Error.badDependsOnRef id (Error.notAlias it)) ∨
       (it.Kind = Kind.AliasNode ∧ it.Value ∉ (docOf root).NodesByID.keys ∧
        e = Error.badDependsOnRef id (Error.unresolvedAlias it.Value))) := by
  have hinv := docOf_indexInv root
  have hes : ((docOf root).NodesByID.range ord1).Perm (docOf root).NodesByID :=
    GoMap.range_perm _ hinv.1 h1
  rw [buildDAG_eq _ _ _ _ hinv.1 h1] at h
  cases hl : BuildDAG.link (docOf root) key (allocNodes ((docOf root).NodesByID.range ord1))
      (((docOf root).NodesByID.range ord1).map freshNode)
      (GoMap.range (allocNodes ((docOf root).NodesByID.range ord1)) ord2) with
  | ok mem => rw [hl] at h; cases h
  | panic => rw [hl] at h; cases h
  | err e2 =>
    rw [hl] at h
    simp only [Res.err.injEq] at h
    subst h
    obtain ⟨id, addr, ast, it, hmem, hast, hit, hfail⟩ := link_err _ _ _ _ _ _ hl
    obtain ⟨node, hg, hast2⟩ := buildDAG_entry _ ord1 ord2 hinv.1 h1 hmem
    rw [hast2] at hast
    cases hast
    refine ⟨id, node, it, hg, hit, ?_⟩
    rcases hfail with ⟨cause, hc, he⟩ | ⟨r, hr, hnone, _⟩
    · unfold Doc.ResolveAlias at hc
      by_cases hk : it.Kind = Kind.AliasNode
      · simp only [hk, ne_eq, not_true_eq_false, if_false] at hc
        cases hv : (docOf root).NodesByID.get? it.Value with
        | none =>
          rw [hv] at hc
          simp only [Res.err.injEq] at hc
          subst hc
          exact Or.inr ⟨hk, (GoMap.get?_eq_none_iff _ _).1 hv, he⟩
        | some t => rw [hv] at hc; cases hc
      · simp only [ne_eq, hk, not_false_eq_true, if_true, Res.err.injEq] at hc
        subst hc
        exact Or.inl ⟨hk, he⟩
    · exfalso
      obtain ⟨_, hg2⟩ := (resolveAlias_ok_iff _ _ _).1 hr
      have hid := (hinv.2 _ _ hg2).1
      rw [hid, GoMap.get?_eq_none_iff, allocNodes_keys] at hnone
      apply hnone
      exact (hes.map Prod.fst).mem_iff.2 ((GoMap.mem_keys_iff _ _).2 ⟨_, hg2⟩)

/-- A panic of `BuildDAG` comes from an indexed Mapping with an odd number of
children. -/
theorem buildDAG_panic (doc : Doc) (key : String) (ord1 ord2 : List String)
    (hnd : doc.NodesByID.keys.Nodup) (h1 : doc.NodesByID.IterOrder ord1)
    (h : BuildDAG doc key ord1 ord2 = Res.panic) :
    ∃ id node, doc.NodesByID.get? id = some node ∧ node.AST.Kind = Kind.MappingNode ∧
      node.AST.Content.length % 2 = 1 := by
  rw [buildDAG_eq _ _ _ _ hnd h1] at h
  cases hl : BuildDAG.link doc key (allocNodes (doc.NodesByID.range ord1))
      ((doc.NodesByID.range ord1).map freshNode)
      (GoMap.range (allocNodes (doc.NodesByID.range ord1)) ord2) with
  | ok mem => rw [hl] at h; cases h
  | err e => rw [hl] at h; cases h
  | panic =>
    obtain ⟨id, addr, hmem, hcase⟩ := link_panic _ _ _ _ _ hl
    obtain ⟨node, hg, hast2⟩ := buildDAG_entry _ ord1 ord2 hnd h1 hmem
    rw [hast2] at hcase
    rcases hcase with hc | ⟨ast, hast, hk, hodd⟩
    · cases hc
    · cases hast
      exact ⟨id, node, hg, hk, hodd⟩

/-- When `BuildDAG` succeeds on an indexed document, every dependency item of
every indexed node is an Alias that names an indexed anchor. -/
theorem buildDAG_ok_items (root : YamlNode) (key : String) (ord1 ord2 : List String) (g : DAG)
    (h1 : (docOf root).NodesByID.IterOrder ord1) (h2 : (docOf root).NodesByID.IterOrder ord2)
    (hb : BuildDAG (docOf root) key ord1 ord2 = Res.ok g) (id : String) (node : Node)
    (item : YamlNode) (hnode : (docOf root).NodesByID.get? id = some node)
    (hitem : item ∈ depItems key node.AST) :
    item.Kind = Kind.AliasNode ∧ item.Value ∈ (docOf root).NodesByID.keys := by
  have hnd := (docOf_indexInv root).1
  obtain ⟨_, _, hobj⟩ := buildDAG_ok (docOf root) key ord1 ord2 g hnd h1 h2 hb
  have hes : ((docOf root).NodesByID.range ord1).Perm (docOf root).NodesByID :=
    GoMap.range_perm _ hnd h1
  obtain ⟨a, ha⟩ := List.getElem?_of_mem (hes.mem_iff.2 (GoMap.mem_of_get? hnode))
  obtain ⟨ds, _, hv⟩ := hobj a _ ha
  have : depAddr (docOf root) g.Nodes item ∈ ds.map some := by
    rw [hv]
    exact List.mem_map_of_mem _ hitem
  obtain ⟨b, _, hb2⟩ := List.mem_map.1 this
  obtain ⟨h3, h4, _⟩ := depAddr_eq_some root g.Nodes item b hb2.symm
  exact ⟨h3, h4⟩

/-- Claim C6 as stated fails: on `B: &B {depends_on: [*nope]}` the failure of
`BuildDAG` is the wrapped UnresolvedAlias of `ResolveAlias`, not
UnresolvedDAGNode. -/
theorem C6_counterexample_wrapped_unresolvedAlias :
    (docOf badRefTree).NodesByID.get? "B" =
      some (mkNode (mapOf "B" [scalar "depends_on", seqOf [aliasOf "nope"]])) ∧
    "nope" ∉ (docOf badRefTree).NodesByID.keys ∧
    BuildDAG (docOf badRefTree) "depends_on" ["B"] ["B"] =
      Res.err (Error.badDependsOnRef "B" (Error.unresolvedAlias "nope")) ∧
    ¬ ∃ id r, BuildDAG (docOf badRefTree) "depends_on" ["B"] ["B"] =
      Res.err (Error.unresolvedDAGNode id r) := by
  refine ⟨by decide, by decide, by decide, ?_⟩
  rintro ⟨id, r, h⟩
  have h2 : BuildDAG (docOf badRefTree) "depends_on" ["B"] ["B"] =
      Res.err (Error.badDependsOnRef "B" (Error.unresolvedAlias "nope")) := by decide
  rw [h2] at h
  cases h

/-- An anchored Mapping that a later node with the same anchor has replaced
in the index is not looked at by `BuildDAG`. -/
theorem buildDAG_ignores_shadowed_anchor :
    ∃ g, BuildDAG (docOf shadowedTree) "depends_on" ["x"] ["x"] = Res.ok g := ⟨_, rfl⟩

/-- C6, amended: for every indexed document whose indexed Mappings have an even
number of children, if the node indexed under some anchor `id` has, under the
dependency key, a Sequence containing an item (an Alias, in the claim) whose
identifier is not in the index, then `BuildDAG` returns an error, and the error is a
`bad depends_on ref` that wraps the failure of `ResolveAlias` on a dependency
item of an indexed node: NotAnAlias, or UnresolvedAlias naming an identifier
that is not in the index.  It is never UnresolvedDAGNode.  When every
dependency item of the document that does not resolve is an alias of that
identifier below `id`, the error is
`id: bad depends_on ref: unresolved alias: *identifier`. -/
theorem C6_buildDAG_unresolved_alias (root : YamlNode) (key : String) (ord1 ord2 : List String)
    (h1 : (docOf root).NodesByID.IterOrder ord1) (h2 : (docOf root).NodesByID.IterOrder ord2)
    (heven : ∀ id node, (docOf root).NodesByID.get? id = some node →
      node.AST.Kind = Kind.MappingNode → node.AST.Content.length % 2 = 0)
    (id : String) (node : Node) (item : YamlNode)
    (hnode : (docOf root).NodesByID.get? id = some node)
    (hitem : item ∈ depItems key node.AST)
    (hmiss : item.Value ∉ (docOf root).NodesByID.keys) :
    (∃ id1 node1 it, (docOf root).NodesByID.get? id1 = some node1 ∧
      it ∈ depItems key node1.AST ∧
      ((it.Kind ≠ Kind.AliasNode ∧ BuildDAG (docOf root) key ord1 ord2 =
          Res.err (Error.badDependsOnRef id1 (Error.notAlias it))) ∨
       (it.Kind = Kind.AliasNode ∧ it.Value ∉ (docOf root).NodesByID.keys ∧
        BuildDAG (docOf root) key ord1 ord2 =
          Res.err (Error.badDependsOnRef id1 (Error.unresolvedAlias it.Value))))) ∧
    (¬ ∃ id1 r, BuildDAG (docOf root) key ord1 ord2 = Res.err (Error.unresolvedDAGNode id1 r)) ∧
    ((∀ id1 node1 it, (docOf root).NodesByID.get? id1 = some node1 →
        it ∈ depItems key node1.AST →
        it.Kind = Kind.AliasNode ∧
          (it.Value ∈ (docOf root).NodesByID.keys ∨ (id1 = id ∧ it.Value = item.Value))) →
      BuildDAG (docOf root) key ord1 ord2 =
        Res.err (Error.badDependsOnRef id (Error.unresolvedAlias item.Value))) := by
  have hinv := docOf_indexInv root
  have hres : ∃ e, BuildDAG (docOf root) key ord1 ord2 = Res.err e := by
    cases hb : BuildDAG (docOf root) key ord1 ord2 with
    | err e => exact ⟨e, rfl⟩
    | panic =>
      obtain ⟨id1, node1, hg, hk, hodd⟩ := buildDAG_panic _ key ord1 ord2 hinv.1 h1 hb
      have := heven id1 node1 hg hk
      omega
    | ok g =>
      exact absurd (buildDAG_ok_items root key ord1 ord2 g h1 h2 hb id node item hnode hitem).2
        hmiss
  obtain ⟨e, he⟩ := hres
  obtain ⟨id1, node1, it, hg, hit, hcase⟩ := buildDAG_err root key ord1 ord2 e h1 he
  refine ⟨⟨id1, node1, it, hg, hit, ?_⟩, ?_, ?_⟩
  · rcases hcase with ⟨hk, rfl⟩ | ⟨hk, hm, rfl⟩
    · exact Or.inl ⟨hk, he⟩
    · exact Or.inr ⟨hk, hm, he⟩
  · rintro ⟨id2, r, h⟩
    rw [he] at h
    rcases hcase with ⟨_, rfl⟩ | ⟨_, _, rfl⟩ <;> cases h
  · intro honly
    obtain ⟨hk, hv⟩ := honly id1 node1 it hg hit
    rcases hcase with ⟨hnk, _⟩ | ⟨_, hm, rfl⟩
    · exact absurd hk hnk
    · rcases hv with hv | ⟨rfl, hv⟩
      · exact absurd hv hm
      · rw [he, hv]

theorem GoMap.forall_get?_of_forall_mem {β : Type} {m : GoMap β} {P : String → β → Prop}
    (h : ∀ p ∈ m, P p.1 p.2) : ∀ id v, m.get? id = some v → P id v :=
  fun _ _ hg => h _ (GoMap.mem_of_get? hg)

/-- Witness of the amended C6 on `B: &B {depends_on: [*nope]}`. -/
theorem C6_witness_badRef :
    BuildDAG (docOf badRefTree) "depends_on" ["B"] ["B"] =
      Res.err (Error.badDependsOnRef "B" (Error.unresolvedAlias "nope")) := by
  have heven : ∀ p ∈ (docOf badRefTree).NodesByID,
      p.2.AST.Kind = Kind.MappingNode → p.2.AST.Content.length % 2 = 0 := by decide
  have honly : ∀ p ∈ (docOf badRefTree).NodesByID, ∀ it ∈ depItems "depends_on" p.2.AST,
      it.Kind = Kind.AliasNode ∧
        (it.Value ∈ (docOf badRefTree).NodesByID.keys ∨
          (p.1 = "B" ∧ it.Value = (aliasOf "nope").Value)) := by decide
  exact (C6_buildDAG_unresolved_alias badRefTree "depends_on" ["B"] ["B"] (List.Perm.refl _)
    (List.Perm.refl _) (GoMap.forall_get?_of_forall_mem heven) "B"
    (mkNode (mapOf "B" [scalar "depends_on", seqOf [aliasOf "nope"]])) (aliasOf "nope")
    (by decide) (by decide) (by decide)).2.2
    (fun id1 node1 it hg hit => honly (id1, node1) (GoMap.mem_of_get? hg) it hit)

/-- C7, the code at the failing input `A: &A {name: a}`, `B: &B {depends_on: *A}`:
`BuildDAG` succeeds and the dependency list of `B` is empty, not `[A]`; only
a Sequence value is looked at. -/
theorem C7_single_alias_ignored :
    ∃ g, BuildDAG (docOf singleAliasTree) "depends_on" ["A", "B"] ["A", "B"] = Res.ok g ∧
      g.Nodes = [("A", 0), ("B", 1)] ∧ g.Mem.map DAGNode.ID = ["A", "B"] ∧
      g.Mem.map DAGNode.DependsOn = [[], []] :=
  ⟨_, rfl, by decide, by decide, by decide⟩

/-- A value under the dependency key that is not a Sequence adds no dependency
item, whatever it is. -/
theorem pairItems_non_sequence (key : String) (k v : YamlNode) (rest : List YamlNode)
    (h : v.Kind ≠ Kind.SequenceNode) : pairItems key (k :: v :: rest) = pairItems key rest := by
  simp [pairItems, h]

/-! ## Include expansion -/

theorem IncState.le_refl (a : IncState) : a.le a := ⟨fun _ h => h, fun _ h => h⟩

theorem IncState.le_trans {a b c : IncState} (h1 : a.le b) (h2 : b.le c) : a.le c :=
  ⟨fun p h => h2.1 p (h1.1 p h), fun p h => h2.2 p (h1.2 p h)⟩

theorem IncState.le_visit (st : IncState) (p : String) :
    st.le { Visited := p :: st.Visited, Reads := st.Reads ++ [p] } :=
  ⟨fun _ h => List.mem_cons_of_mem _ h, fun _ h => List.mem_append_left _ h⟩

theorem forChildren_le {f : YamlNode → IncState → Run (YamlNode × IncState)}
    (hf : ∀ c s s1, (f c s).state? = some s1 → s.le s1.2) :
    ∀ (cs : List YamlNode) (st : IncState) (s1 : List YamlNode × IncState),
      (forChildren f cs st).state? = some s1 → st.le s1.2 := by
  intro cs
  induction cs with
  | nil =>
    intro st s1 h
    simp only [forChildren, Run.state?, Option.some.injEq] at h
    subst h
    exact IncState.le_refl _
  | cons c cs ih =>
    intro st s1 h
    simp only [forChildren] at h
    cases hc : f c st with
    | outOfFuel => rw [hc] at h; simp [Run.state?] at h
    | err e s2 =>
      obtain ⟨c1, st1⟩ := s2
      rw [hc] at h
      simp only [Run.state?, Option.some.injEq] at h
      subst h
      exact hf c st (c1, st1) (by rw [hc]; rfl)
    | panic s2 =>
      obtain ⟨c1, st1⟩ := s2
      rw [hc] at h
      simp only [Run.state?, Option.some.injEq] at h
      subst h
      exact hf c st (c1, st1) (by rw [hc]; rfl)
    | ok s2 =>
      obtain ⟨c1, st1⟩ := s2
      rw [hc] at h
      simp only at h
      have h1 : st.le st1 := hf c st (c1, st1) (by rw [hc]; rfl)
      cases hr : forChildren f cs st1 with
      | outOfFuel => rw [hr] at h; simp [Run.state?] at h
      | ok s3 =>
        obtain ⟨cs1, st2⟩ := s3
        rw [hr] at h
        simp only [Run.state?, Option.some.injEq] at h
        subst h
        exact IncState.le_trans h1 (ih st1 (cs1, st2) (by rw [hr]; rfl))
      | err e s3 =>
        obtain ⟨cs1, st2⟩ := s3
        rw [hr] at h
        simp only [Run.state?, Option.some.injEq] at h
        subst h
        exact IncState.le_trans h1 (ih st1 (cs1, st2) (by rw [hr]; rfl))
      | panic s3 =>
        obtain ⟨cs1, st2⟩ := s3
        rw [hr] at h
        simp only [Run.state?, Option.some.injEq] at h
        subst h
        exact IncState.le_trans h1 (ih st1 (cs1, st2) (by rw [hr]; rfl))

/-- The directive block on a directive that gets as far as the visited set. -/
theorem directive_of_passes (env : Env) (includeTag : String)
    (recur : YamlNode → String → IncState → Run (YamlNode × IncState))
    (node : YamlNode) (dir p : String) (st : IncState)
    (hp : PassesChecks env includeTag node dir p) :
    resolveIncludes.directive env includeTag recur node dir st =
      if p ∈ st.Visited then Run.err (Error.recursiveInclusion p) (node, st)
      else
        match env.ReadFile p with
        | none => Run.err (Error.includeReadError p)
            (node, { Visited := p :: st.Visited, Reads := st.Reads ++ [p] })
        | some content =>
          match env.Unmarshal content with
          | none => Run.err (Error.includeParseError p)
              (node, { Visited := p :: st.Visited, Reads := st.Reads ++ [p] })
          | some includedNode =>
            match recur includedNode (env.Dir p)
                { Visited := p :: st.Visited, Reads := st.Reads ++ [p] } with
            | Run.ok (included1, st2) =>
              match included1.Content with
              | [] => Run.panic (node, st2)
              | c :: _ => Run.ok (c, st2)
            | Run.err e (_, st2) => Run.err e (node, st2)
            | Run.panic (_, st2) => Run.panic (node, st2)
            | Run.outOfFuel => Run.outOfFuel := by
  obtain ⟨htag, hdots, hclean, absBase, absTarget, hb, ht, hpre⟩ := hp
  unfold resolveIncludes.directive
  simp only [htag, if_true, hdots, Bool.false_eq_true, if_false, hclean, hb, ht, hpre,
    not_true_eq_false]

/-- The directive block either leaves the node and the state as they are (the
node is no directive, or one of the checks before the visited set rejects it),
or the directive gets as far as the visited set. -/
theorem directive_early (env : Env) (includeTag : String)
    (recur : YamlNode → String → IncState → Run (YamlNode × IncState))
    (node : YamlNode) (dir : String) (st : IncState) :
    resolveIncludes.directive env includeTag recur node dir st = Run.ok (node, st) ∨
    (∃ e, resolveIncludes.directive env includeTag recur node dir st = Run.err e (node, st)) ∨
    PassesChecks env includeTag node dir (env.Clean (env.Join dir node.Value)) := by
  by_cases htag : node.Tag = includeTag
  · cases hdots : strings.Contains node.Value ".." with
    | true =>
      right; left
      exact ⟨Error.parentTraversalForbidden node.Value,
        by simp [resolveIncludes.directive, htag, hdots]⟩
    | false =>
      cases hb : env.Abs dir with
      | none =>
        right; left
        exact ⟨Error.absBaseFailed, by simp [resolveIncludes.directive, htag, hdots, hb]⟩
      | some absBase =>
        cases ht : env.Abs (env.Clean (env.Join dir node.Value)) with
        | none =>
          right; left
          exact ⟨Error.absTargetFailed,
            by simp [resolveIncludes.directive, htag, hdots, hb, ht]⟩
        | some absTarget =>
          cases hpre : strings.HasPrefix absTarget absBase with
          | false =>
            right; left
            exact ⟨Error.pathEscape node.Value,
              by simp [resolveIncludes.directive, htag, hdots, hb, ht, hpre]⟩
          | true =>
            right; right
            exact ⟨htag, hdots, rfl, absBase, absTarget, hb, ht, hpre⟩
  · left
    simp [resolveIncludes.directive, htag]

/-- After the directive block has run on a directive that got past the visited
set, its path is in the visited set and among the reads, however the block
ended. -/
theorem directive_marks (env : Env) (includeTag : String)
    (recur : YamlNode → String → IncState → Run (YamlNode × IncState))
    (hrec : ∀ n d s s1, (recur n d s).state? = some s1 → s.le s1.2)
    (node : YamlNode) (dir p : String) (st : IncState)
    (hp : PassesChecks env includeTag node dir p) (hv : p ∉ st.Visited)
    (s1 : YamlNode × IncState)
    (h : (resolveIncludes.directive env includeTag recur node dir st).state? = some s1) :
    st.le s1.2 ∧ p ∈ s1.2.Visited ∧ p ∈ s1.2.Reads := by
  rw [directive_of_passes env includeTag recur node dir p st hp, if_neg hv] at h
  have hst := IncState.le_visit st p
  have hpv : p ∈ (⟨p :: st.Visited, st.Reads ++ [p]⟩ : IncState).Visited :=
    List.mem_cons_self _ _
  have hpr : p ∈ (⟨p :: st.Visited, st.Reads ++ [p]⟩ : IncState).Reads := by simp
  cases hread : env.ReadFile p with
  | none =>
    rw [hread] at h
    simp only [Run.state?, Option.some.injEq] at h
    subst h
    exact ⟨hst, hpv, hpr⟩
  | some content =>
    rw [hread] at h
    simp only at h
    cases hparse : env.Unmarshal content with
    | none =>
      rw [hparse] at h
      simp only [Run.state?, Option.some.injEq] at h
      subst h
      exact ⟨hst, hpv, hpr⟩
    | some includedNode =>
      rw [hparse] at h
      simp only at h
      cases hr : recur includedNode (env.Dir p) ⟨p :: st.Visited, st.Reads ++ [p]⟩ with
      | outOfFuel => rw [hr] at h; simp [Run.state?] at h
      | err e s2 =>
        obtain ⟨n2, st2⟩ := s2
        have hle := hrec _ _ _ (n2, st2) (by rw [hr]; rfl)
        rw [hr] at h
        simp only [Run.state?, Option.some.injEq] at h
        subst h
        exact ⟨IncState.le_trans hst hle, hle.1 p hpv, hle.2 p hpr⟩
      | panic s2 =>
        obtain ⟨n2, st2⟩ := s2
        have hle := hrec _ _ _ (n2, st2) (by rw [hr]; rfl)
        rw [hr] at h
        simp only [Run.state?, Option.some.injEq] at h
        subst h
        exact ⟨IncState.le_trans hst hle, hle.1 p hpv, hle.2 p hpr⟩
      | ok s2 =>
        obtain ⟨n2, st2⟩ := s2
        have hle := hrec _ _ _ (n2, st2) (by rw [hr]; rfl)
        rw [hr] at h
        simp only at h
        cases hcont : n2.Content with
        | nil =>
          rw [hcont] at h
          simp only [Run.state?, Option.some.injEq] at h
          subst h
          exact ⟨IncState.le_trans hst hle, hle.1 p hpv, hle.2 p hpr⟩
        | cons c rest =>
          rw [hcont] at h
          simp only [Run.state?, Option.some.injEq] at h
          subst h
          exact ⟨IncState.le_trans hst hle, hle.1 p hpv, hle.2 p hpr⟩

theorem directive_le (env : Env) (includeTag : String)
    (recur : YamlNode → String → IncState → Run (YamlNode × IncState))
    (hrec : ∀ n d s s1, (recur n d s).state? = some s1 → s.le s1.2)
    (node : YamlNode) (dir : String) (st : IncState) (s1 : YamlNode × IncState)
    (h : (resolveIncludes.directive env includeTag recur node dir st).state? = some s1) :
    st.le s1.2 := by
  rcases directive_early env includeTag recur node dir st with h1 | ⟨e, h1⟩ | hp
  · rw [h1] at h
    simp only [Run.state?, Option.some.injEq] at h
    subst h
    exact IncState.le_refl _
  · rw [h1] at h
    simp only [Run.state?, Option.some.injEq] at h
    subst h
    exact IncState.le_refl _
  · by_cases hv : env.Clean (env.Join dir node.Value) ∈ st.Visited
    · rw [directive_of_passes env includeTag recur node dir _ st hp, if_pos hv] at h
      simp only [Run.state?, Option.some.injEq] at h
      subst h
      exact IncState.le_refl _
    · exact (directive_marks env includeTag recur hrec node dir _ st hp hv s1 h).1

/-- The visited set and the list of reads only grow during a call of
`resolveIncludes`, however it ends. -/
theorem resolveIncludes_le (env : Env) (includeTag : String) :
    ∀ (fuel : Nat) (node : YamlNode) (dir : String) (st : IncState) (s1 : YamlNode × IncState),
      (resolveIncludes env includeTag fuel node dir st).state? = some s1 → st.le s1.2 := by
  intro fuel
  induction fuel with
  | zero => intro node dir st s1 h; simp [resolveIncludes, Run.state?] at h
  | succ fuel ih =>
    intro node dir st s1 h
    simp only [resolveIncludes] at h
    cases hd : resolveIncludes.directive env includeTag (resolveIncludes env includeTag fuel)
        node dir st with
    | outOfFuel => rw [hd] at h; simp [Run.state?] at h
    | err e s2 =>
      rw [hd] at h
      simp only [Run.state?, Option.some.injEq] at h
      subst h
      exact directive_le env includeTag _ ih node dir st _ (by rw [hd]; rfl)
    | panic s2 =>
      rw [hd] at h
      simp only [Run.state?, Option.some.injEq] at h
      subst h
      exact directive_le env includeTag _ ih node dir st _ (by rw [hd]; rfl)
    | ok s2 =>
      obtain ⟨node1, st1⟩ := s2
      have h1 : st.le st1 := directive_le env includeTag _ ih node dir st (node1, st1)
        (by rw [hd]; rfl)
      rw [hd] at h
      simp only at h
      have hch := forChildren_le (f := fun c s => resolveIncludes env includeTag fuel c dir s)
        (fun c s s3 hs => ih c dir s s3 hs) node1.Content st1
      cases hc : forChildren (fun c s => resolveIncludes env includeTag fuel c dir s)
          node1.Content st1 with
      | outOfFuel => rw [hc] at h; simp [Run.state?] at h
      | ok s3 =>
        obtain ⟨cs, st2⟩ := s3
        rw [hc] at h
        simp only [Run.state?, Option.some.injEq] at h
        subst h
        exact IncState.le_trans h1 (hch (cs, st2) (by rw [hc]; rfl))
      | err e s3 =>
        obtain ⟨cs, st2⟩ := s3
        rw [hc] at h
        simp only [Run.state?, Option.some.injEq] at h
        subst h
        exact IncState.le_trans h1 (hch (cs, st2) (by rw [hc]; rfl))
      | panic s3 =>
        obtain ⟨cs, st2⟩ := s3
        rw [hc] at h
        simp only [Run.state?, Option.some.injEq] at h
        subst h
        exact IncState.le_trans h1 (hch (cs, st2) (by rw [hc]; rfl))

/-- An error of the directive block is the result of `resolveIncludes`. -/
theorem resolveIncludes_of_directive_err (env : Env) (includeTag : String) (fuel : Nat)
    (node : YamlNode) (dir : String) (st : IncState) (e : Error) (s : YamlNode × IncState)
    (h : resolveIncludes.directive env includeTag (resolveIncludes env includeTag fuel)
      node dir st = Run.err e s) :
    resolveIncludes env includeTag (fuel + 1) node dir st = Run.err e s := by
  simp only [resolveIncludes, h]

/-- After `resolveIncludes` has run on a directive that got past the visited
set, its path is in the visited set and among the reads, however the call
ended. -/
theorem resolveIncludes_marks (env : Env) (includeTag : String) (fuel : Nat)
    (node : YamlNode) (dir p : String) (st : IncState)
    (hp : PassesChecks env includeTag node dir p) (hv : p ∉ st.Visited)
    (s1 : YamlNode × IncState)
    (h : (resolveIncludes env includeTag (fuel + 1) node dir st).state? = some s1) :
    p ∈ s1.2.Visited ∧ p ∈ s1.2.Reads := by
  have hmark := directive_marks env includeTag (resolveIncludes env includeTag fuel)
    (resolveIncludes_le env includeTag fuel) node dir p st hp hv
  simp only [resolveIncludes] at h
  cases hd : resolveIncludes.directive env includeTag (resolveIncludes env includeTag fuel)
      node dir st with
  | outOfFuel => rw [hd] at h; simp [Run.state?] at h
  | err e s2 =>
    rw [hd] at h
    simp only [Run.state?, Option.some.injEq] at h
    subst h
    exact (hmark _ (by rw [hd]; rfl)).2
  | panic s2 =>
    rw [hd] at h
    simp only [Run.state?, Option.some.injEq] at h
    subst h
    exact (hmark _ (by rw [hd]; rfl)).2
  | ok s2 =>
    obtain ⟨node1, st1⟩ := s2
    have h1 := (hmark (node1, st1) (by rw [hd]; rfl)).2
    rw [hd] at h
    simp only at h
    have hch := forChildren_le (f := fun c s => resolveIncludes env includeTag fuel c dir s)
      (fun c s s3 hs => resolveIncludes_le env includeTag fuel c dir s s3 hs) node1.Content st1
    cases hc : forChildren (fun c s => resolveIncludes env includeTag fuel c dir s)
        node1.Content st1 with
    | outOfFuel => rw [hc] at h; simp [Run.state?] at h
    | ok s3 =>
      obtain ⟨cs, st2⟩ := s3
      have hle := hch (cs, st2) (by rw [hc]; rfl)
      rw [hc] at h
      simp only [Run.state?, Option.some.injEq] at h
      subst h
      exact ⟨hle.1 p h1.1, hle.2 p h1.2⟩
    | err e s3 =>
      obtain ⟨cs, st2⟩ := s3
      have hle := hch (cs, st2) (by rw [hc]; rfl)
      rw [hc] at h
      simp only [Run.state?, Option.some.injEq] at h
      subst h
      exact ⟨hle.1 p h1.1, hle.2 p h1.2⟩
    | panic s3 =>
      obtain ⟨cs, st2⟩ := s3
      have hle := hch (cs, st2) (by rw [hc]; rfl)
      rw [hc] at h
      simp only [Run.state?, Option.some.injEq] at h
      subst h
      exact ⟨hle.1 p h1.1, hle.2 p h1.2⟩

/-! ## Claims on include expansion -/

/-- C8: for every directive node (its tag is the include tag) whose path value
contains `..` anywhere, for every environment (path functions, file system,
parser), base directory and state, `resolveIncludes` fails with
ParentTraversalForbidden naming the path value; the node, the visited set and
the list of files read are those of the start: no file is read. -/
theorem C8_parent_traversal_forbidden (env : Env) (includeTag : String) (fuel : Nat)
    (node : YamlNode) (dir : String) (st : IncState) (htag : node.Tag = includeTag)
    (hdots : strings.Contains node.Value ".." = true) :
    resolveIncludes env includeTag (fuel + 1) node dir st =
      Run.err (Error.parentTraversalForbidden node.Value) (node, st) := by
  apply resolveIncludes_of_directive_err
  simp [resolveIncludes.directive, htag, hdots]

/-- Witness of C8: `sub/../a.yml` is rejected in the base directory `base`,
although the cleaned path `base/a.yml` stays inside it and the file exists. -/
theorem C8_witness_inside_base :
    (filepath.Clean (filepath.Join "base" "sub/../a.yml") = "base/a.yml" ∧
      plainEnv.ReadFile "base/a.yml" = some "- x") ∧
    resolveIncludes plainEnv "!include" 1 (includeOf "sub/../a.yml") "base" IncState.empty =
      Run.err (Error.parentTraversalForbidden "sub/../a.yml")
        (includeOf "sub/../a.yml", IncState.empty) :=
  ⟨⟨by decide, by decide⟩,
    C8_parent_traversal_forbidden plainEnv "!include" 0 (includeOf "sub/../a.yml") "base"
      IncState.empty rfl (by decide)⟩

/-- Claim C9 as stated fails: in the base directory `base` the path value
`/etc/passwd` (no `..`) is joined below the base, passes the prefix test and
the file `base/etc/passwd` is read; the failure is the read error, not
PathEscape. -/
theorem C9_counterexample_absolute_path :
    strings.Contains "/etc/passwd" ".." = false ∧
    filepath.Clean (filepath.Join "base" "/etc/passwd") = "base/etc/passwd" ∧
    resolveIncludes plainEnv "!include" 1 (includeOf "/etc/passwd") "base" IncState.empty =
      Run.err (Error.includeReadError "base/etc/passwd")
        (includeOf "/etc/passwd",
          { Visited := ["base/etc/passwd"], Reads := ["base/etc/passwd"] }) := by
  refine ⟨by decide, by decide, by decide⟩

/-- C9, amended: for every environment, base directory and directive whose path
value has no `..` and for which both absolute paths can be computed: if the
absolute form of the cleaned join of base and value does not have the absolute
form of the base as a string prefix, `resolveIncludes` fails with PathEscape
naming the path value, reads no file and leaves node and visited set as they
are; if it has, the directive is not rejected as an escape: it fails with
RecursiveInclusion when the cleaned path is already visited, and otherwise the
file at the cleaned path is read. -/
theorem C9_path_escape (env : Env) (includeTag : String) (fuel : Nat) (node : YamlNode)
    (dir : String) (st : IncState) (absBase absTarget : String)
    (htag : node.Tag = includeTag) (hdots : strings.Contains node.Value ".." = false)
    (hb : env.Abs dir = some absBase)
    (ht : env.Abs (env.Clean (env.Join dir node.Value)) = some absTarget) :
    (strings.HasPrefix absTarget absBase = false →
      resolveIncludes env includeTag (fuel + 1) node dir st =
        Run.err (Error.pathEscape node.Value) (node, st)) ∧
    (strings.HasPrefix absTarget absBase = true →
      (env.Clean (env.Join dir node.Value) ∈ st.Visited ∧
        resolveIncludes env includeTag (fuel + 1) node dir st =
          Run.err (Error.recursiveInclusion (env.Clean (env.Join dir node.Value))) (node, st)) ∨
      (env.Clean (env.Join dir node.Value) ∉ st.Visited ∧
        ∀ s1, (resolveIncludes env includeTag (fuel + 1) node dir st).state? = some s1 →
          env.Clean (env.Join dir node.Value) ∈ s1.2.Reads)) := by
  constructor
  · intro hpre
    apply resolveIncludes_of_directive_err
    simp [resolveIncludes.directive, htag, hdots, hb, ht, hpre]
  · intro hpre
    have hp : PassesChecks env includeTag node dir (env.Clean (env.Join dir node.Value)) :=
      ⟨htag, hdots, rfl, absBase, absTarget, hb, ht, hpre⟩
    by_cases hv : env.Clean (env.Join dir node.Value) ∈ st.Visited
    · left
      refine ⟨hv, ?_⟩
      apply resolveIncludes_of_directive_err
      rw [directive_of_passes env includeTag _ node dir _ st hp, if_pos hv]
    · right
      exact ⟨hv, fun s1 h => (resolveIncludes_marks env includeTag fuel node dir _ st hp hv s1 h).2⟩

/-- Witness of the amended C9: met with the empty base directory, the path
value `/etc/passwd` resolves to `/etc/passwd`, outside the working directory
`/work`, and is rejected with PathEscape. -/
theorem C9_witness_escape :
    resolveIncludes plainEnv "!include" 1 (includeOf "/etc/passwd") "" IncState.empty =
      Run.err (Error.pathEscape "/etc/passwd") (includeOf "/etc/passwd", IncState.empty) :=
  (C9_path_escape plainEnv "!include" 0 (includeOf "/etc/passwd") "" IncState.empty
    "/work" "/etc/passwd" rfl (by decide) (by decide) (by decide)).1 (by decide)

/-! ## The calls made during an expansion -/

theorem forChildren_append_err {f : YamlNode → IncState → Run (YamlNode × IncState)} :
    ∀ (pre : List YamlNode) (c : YamlNode) (post : List YamlNode) (st1 : IncState)
      (pre1 : List YamlNode) (st2 : IncState) (e : Error) (c1 : YamlNode) (st3 : IncState),
      forChildren f pre st1 = Run.ok (pre1, st2) → f c st2 = Run.err e (c1, st3) →
      forChildren f (pre ++ c :: post) st1 = Run.err e (pre1 ++ c1 :: post, st3) := by
  intro pre
  induction pre with
  | nil =>
    intro c post st1 pre1 st2 e c1 st3 hpre hc
    simp only [forChildren, Run.ok.injEq, Prod.mk.injEq] at hpre
    obtain ⟨rfl, rfl⟩ := hpre
    simp only [List.nil_append, forChildren, hc]
  | cons x pre ih =>
    intro c post st1 pre1 st2 e c1 st3 hpre hc
    simp only [forChildren] at hpre
    cases hx : f x st1 with
    | outOfFuel => rw [hx] at hpre; cases hpre
    | err e2 s2 => obtain ⟨x2, sx⟩ := s2; rw [hx] at hpre; cases hpre
    | panic s2 => obtain ⟨x2, sx⟩ := s2; rw [hx] at hpre; cases hpre
    | ok s2 =>
      obtain ⟨x2, sx⟩ := s2
      rw [hx] at hpre
      simp only at hpre
      cases hr : forChildren f pre sx with
      | outOfFuel => rw [hr] at hpre; cases hpre
      | err e2 s3 => obtain ⟨r3, sr⟩ := s3; rw [hr] at hpre; cases hpre
      | panic s3 => obtain ⟨r3, sr⟩ := s3; rw [hr] at hpre; cases hpre
      | ok s3 =>
        obtain ⟨r3, sr⟩ := s3
        rw [hr] at hpre
        simp only [Run.ok.injEq, Prod.mk.injEq] at hpre
        obtain ⟨rfl, rfl⟩ := hpre
        have hrec := ih c post sx r3 sr e c1 st3 hr hc
        rw [List.cons_append]
        simp only [forChildren, hx, hrec, List.cons_append]

/-- An error of a call reached during a call is the error of that call: the
first failure ends the whole expansion. -/
theorem calls_err (env : Env) (includeTag : String) {a b : Call}
    (h : Calls env includeTag a b) : ∀ (e : Error) (s : YamlNode × IncState),
    b.run env includeTag = Run.err e s → ∃ s1, a.run env includeTag = Run.err e s1 := by
  induction h with
  | here a => intro e s hb; exact ⟨s, hb⟩
  | @included fuel node dir st p content inc b hp hv hread hparse _ ih =>
    intro e s hb
    obtain ⟨⟨n2, st2⟩, h1⟩ := ih e s hb
    simp only [Call.run] at h1
    refine ⟨(node, st2), ?_⟩
    simp only [Call.run]
    apply resolveIncludes_of_directive_err
    rw [directive_of_passes env includeTag _ node dir p st hp, if_neg hv, hread]
    simp only [hparse, h1]
  | @child fuel node dir st n1 st1 pre c post pre1 st2 b hd hcont hpre _ ih =>
    intro e s hb
    obtain ⟨⟨c1, st3⟩, h1⟩ := ih e s hb
    simp only [Call.run] at h1
    refine ⟨({ n1 with Content := pre1 ++ c1 :: post }, st3), ?_⟩
    simp only [Call.run, resolveIncludes, hd, hcont]
    rw [forChildren_append_err pre c post st1 pre1 st2 e c1 st3 hpre h1]

/-- The visited set and the list of reads have only grown when a call is
reached. -/
theorem calls_le (env : Env) (includeTag : String) {a b : Call}
    (h : Calls env includeTag a b) : a.st.le b.st := by
  induction h with
  | here a => exact IncState.le_refl _
  | @included fuel node dir st p content inc b hp hv hread hparse _ ih =>
    exact IncState.le_trans (IncState.le_visit st p) ih
  | @child fuel node dir st n1 st1 pre c post pre1 st2 b hd hcont hpre _ ih =>
    have h1 : st.le st1 := directive_le env includeTag (resolveIncludes env includeTag fuel)
      (resolveIncludes_le env includeTag fuel) node dir st (n1, st1) (by rw [hd]; rfl)
    have h2 : st1.le st2 := forChildren_le
      (fun x s s1 hx => resolveIncludes_le env includeTag fuel x dir s s1 hx) pre st1
      (pre1, st2) (by rw [hpre]; rfl)
    exact IncState.le_trans h1 (IncState.le_trans h2 ih)

/-- A call reached inside the call on a directive that resolves to `p` starts
with `p` in the visited set: the path is marked before the parsed file is
expanded. -/
theorem calls_inside_directive (env : Env) (includeTag : String) {a b : Call} {p : String}
    (h : Calls env includeTag a b) (hp : PassesChecks env includeTag a.node a.dir p)
    (hlt : b.fuel < a.fuel) : p ∈ b.st.Visited := by
  cases h with
  | here => exact absurd hlt (Nat.lt_irrefl _)
  | @included fuel node dir st p1 content inc b hp1 hv hread hparse hsub =>
    have hpp : p1 = p := by rw [← hp1.2.2.1, ← hp.2.2.1]
    subst hpp
    exact (calls_le env includeTag hsub).1 p1 (List.mem_cons_self _ _)
  | @child fuel node dir st n1 st1 pre c post pre1 st2 b hd hcont hpre hsub =>
    have hv : p ∉ st.Visited := by
      intro hv
      rw [directive_of_passes env includeTag _ node dir p st hp, if_pos hv] at hd
      cases hd
    have h1 := (directive_marks env includeTag (resolveIncludes env includeTag fuel)
      (resolveIncludes_le env includeTag fuel) node dir p st hp hv (n1, st1)
      (by rw [hd]; rfl)).2.1
    have h2 : st1.le st2 := forChildren_le
      (fun x s s1 hx => resolveIncludes_le env includeTag fuel x dir s s1 hx) pre st1
      (pre1, st2) (by rw [hpre]; rfl)
    exact (calls_le env includeTag hsub).1 p (h2.1 p h1)

theorem calls_trans (env : Env) (includeTag : String) {a b c : Call}
    (h1 : Calls env includeTag a b) (h2 : Calls env includeTag b c) : Calls env includeTag a c := by
  induction h1 with
  | here a => exact h2
  | included hp hv hread hparse _ ih => exact Calls.included hp hv hread hparse (ih h2)
  | child pre x post hd hcont hpre _ ih => exact Calls.child pre x post hd hcont hpre (ih h2)

/-- C10 (counterexample): of two sibling directives that resolve to the same
cleaned path `base/a.yml`, of a file that is read and parsed, the second has
`..` in its path value; the expansion fails when it is reached, with
ParentTraversalForbidden and not with RecursiveInclusion. -/
theorem C10_counterexample_dotted_path :
    plainEnv.Clean (plainEnv.Join "base" "a.yml") = "base/a.yml" ∧
    plainEnv.Clean (plainEnv.Join "base" "sub/../a.yml") = "base/a.yml" ∧
    plainEnv.ReadFile "base/a.yml" = some "- x" ∧
    plainEnv.Unmarshal "- x" = some (documentOf (seqOf [scalar "x"])) ∧
    resolveIncludes plainEnv "!include" 5
        (seqOf [includeOf "a.yml", includeOf "sub/../a.yml"]) "base" IncState.empty =
      Run.err (Error.parentTraversalForbidden "sub/../a.yml")
        (seqOf [seqOf [scalar "x"], includeOf "sub/../a.yml"], visitedA) := by
  decide

/-- C10 (amended): within one expansion call the visited set is shared and only
grows (third part).  Let the directives `d1` and `d2` both pass the `..` test
and the prefix test and resolve to the cleaned path `p`, and let `d2` be
reached during the expansion of `root`, either inside the call on `d1` (the
file includes itself, directly or through other files) or after the call on
`d1` has ended, however it ended (diamond).  Then the call on `d2` fails with
RecursiveInclusion naming `p`, without reading the file again, and the whole
expansion fails with that error. -/
theorem C10_repeated_include (env : Env) (includeTag : String) (root d1 : Call) (fuel2 : Nat)
    (d2 : YamlNode) (dir2 p : String) (st2 : IncState)
    (hd1 : PassesChecks env includeTag d1.node d1.dir p)
    (hd2 : PassesChecks env includeTag d2 dir2 p)
    (hreach : Calls env includeTag root ⟨fuel2 + 1, d2, dir2, st2⟩)
    (hsecond : (Calls env includeTag d1 ⟨fuel2 + 1, d2, dir2, st2⟩ ∧ fuel2 + 1 < d1.fuel) ∨
      ∃ s1, (d1.run env includeTag).state? = some s1 ∧ s1.2.le st2) :
    resolveIncludes env includeTag (fuel2 + 1) d2 dir2 st2 =
      Run.err (Error.recursiveInclusion p) (d2, st2) ∧
    (∃ s, root.run env includeTag = Run.err (Error.recursiveInclusion p) s) ∧
    (∀ fuel node dir st s, (resolveIncludes env includeTag fuel node dir st).state? = some s →
      st.le s.2) := by
  have hp2 : p ∈ st2.Visited := by
    rcases hsecond with ⟨hin, hlt⟩ | ⟨s1, hrun, hlater⟩
    · exact calls_inside_directive env includeTag hin hd1 hlt
    · apply hlater.1
      obtain ⟨fuel1, n1, dir1, st1⟩ := d1
      simp only [Call.run] at hrun
      simp only at hd1
      by_cases hv : p ∈ st1.Visited
      · exact (resolveIncludes_le env includeTag _ n1 dir1 st1 s1 hrun).1 p hv
      · cases fuel1 with
        | zero => simp [resolveIncludes, Run.state?] at hrun
        | succ fuel1 =>
          exact (resolveIncludes_marks env includeTag fuel1 n1 dir1 p st1 hd1 hv s1 hrun).1
  have hcall : resolveIncludes env includeTag (fuel2 + 1) d2 dir2 st2 =
      Run.err (Error.recursiveInclusion p) (d2, st2) := by
    apply resolveIncludes_of_directive_err
    rw [directive_of_passes env includeTag _ d2 dir2 p st2 hd2, if_pos hp2]
  exact ⟨hcall, calls_err env includeTag hreach _ _ hcall, resolveIncludes_le env includeTag⟩

/-- The directive `!include a.yml` met in `base` gets as far as the visited set,
in both example file systems. -/
theorem includeOf_passes :
    PassesChecks selfIncludeEnv "!include" (includeOf "a.yml") "base" "base/a.yml" ∧
    PassesChecks plainEnv "!include" (includeOf "a.yml") "base" "base/a.yml" :=
  ⟨⟨rfl, by decide, by decide, "/work/base", "/work/base/a.yml", by decide, by decide,
    by decide⟩,
   ⟨rfl, by decide, by decide, "/work/base", "/work/base/a.yml", by decide, by decide,
    by decide⟩⟩

/-- In the expansion of `k: !include a.yml` the directive is reached, in the
state the expansion started from. -/
theorem selfIncludeTree_calls (fuel : Nat) (dir : String) (st : IncState) :
    Calls selfIncludeEnv "!include" ⟨fuel + 3, selfIncludeTree, dir, st⟩
      ⟨fuel + 1, includeOf "a.yml", dir, st⟩ := by
  apply @Calls.child selfIncludeEnv "!include" (fuel + 2) selfIncludeTree dir st selfIncludeTree
    st [] (mapOf "" [scalar "k", includeOf "a.yml"]) [] [] st _ rfl rfl rfl
  exact @Calls.child selfIncludeEnv "!include" (fuel + 1)
    (mapOf "" [scalar "k", includeOf "a.yml"]) dir
    st (mapOf "" [scalar "k", includeOf "a.yml"]) st [scalar "k"] (includeOf "a.yml") []
    [scalar "k"] st _ rfl rfl rfl (Calls.here _)

/-- In the expansion of the file that includes itself, the directive inside the
included content is reached inside the call on the first directive. -/
theorem selfInclude_calls :
    Calls selfIncludeEnv "!include" ⟨4, includeOf "a.yml", "base", IncState.empty⟩
      ⟨1, includeOf "a.yml", "base", visitedA⟩ :=
  @Calls.included selfIncludeEnv "!include" 3 (includeOf "a.yml") "base" IncState.empty
    "base/a.yml" "k: !include a.yml" selfIncludeTree _ includeOf_passes.1 (by decide)
    (by decide) (by decide) (selfIncludeTree_calls 0 "base" visitedA)

/-- In the expansion of two sibling directives the second is reached after the
first has been expanded. -/
theorem siblings_calls :
    Calls plainEnv "!include" ⟨5, seqOf [includeOf "a.yml", includeOf "a.yml"], "base",
        IncState.empty⟩
      ⟨4, includeOf "a.yml", "base", visitedA⟩ :=
  @Calls.child plainEnv "!include" 4 (seqOf [includeOf "a.yml", includeOf "a.yml"]) "base"
    IncState.empty (seqOf [includeOf "a.yml", includeOf "a.yml"]) IncState.empty
    [includeOf "a.yml"] (includeOf "a.yml") [] [seqOf [scalar "x"]] visitedA _
    (by decide) rfl (by decide) (Calls.here _)

/-- Witness of C10 on the file that includes itself (the first call is still
running when the second directive is reached) and on two sibling directives
naming the same file (the first call has ended). -/
theorem C10_witness_both :
    (resolveIncludes selfIncludeEnv "!include" 1 (includeOf "a.yml") "base" visitedA =
        Run.err (Error.recursiveInclusion "base/a.yml") (includeOf "a.yml", visitedA) ∧
      ∃ s, resolveIncludes selfIncludeEnv "!include" 6 selfIncludeTree "base" IncState.empty =
        Run.err (Error.recursiveInclusion "base/a.yml") s) ∧
    (resolveIncludes plainEnv "!include" 4 (includeOf "a.yml") "base" visitedA =
        Run.err (Error.recursiveInclusion "base/a.yml") (includeOf "a.yml", visitedA) ∧
      ∃ s, resolveIncludes plainEnv "!include" 5
          (seqOf [includeOf "a.yml", includeOf "a.yml"]) "base" IncState.empty =
        Run.err (Error.recursiveInclusion "base/a.yml") s) :=
  have h1 := C10_repeated_include selfIncludeEnv "!include"
    ⟨6, selfIncludeTree, "base", IncState.empty⟩
    ⟨4, includeOf "a.yml", "base", IncState.empty⟩ 0 (includeOf "a.yml") "base" "base/a.yml"
    visitedA includeOf_passes.1 includeOf_passes.1
    (calls_trans selfIncludeEnv "!include" (selfIncludeTree_calls 3 "base" IncState.empty)
      selfInclude_calls)
    (Or.inl ⟨selfInclude_calls, by decide⟩)
  have h2 := C10_repeated_include plainEnv "!include"
    ⟨5, seqOf [includeOf "a.yml", includeOf "a.yml"], "base", IncState.empty⟩
    ⟨4, includeOf "a.yml", "base", IncState.empty⟩ 3 (includeOf "a.yml") "base" "base/a.yml"
    visitedA includeOf_passes.2 includeOf_passes.2 siblings_calls
    (Or.inr ⟨(seqOf [scalar "x"], visitedA), by decide, IncState.le_refl _⟩)
  ⟨⟨h1.1, h1.2.1⟩, ⟨h2.1, h2.2.1⟩⟩

/-- Diamond: the whole expansion of a sequence of two sibling directives that
name the same file fails with RecursiveInclusion; the first sibling has been
substituted, the file was read once. -/
theorem siblings_recursiveInclusion :
    resolveIncludes plainEnv "!include" 5 (seqOf [includeOf "a.yml", includeOf "a.yml"]) "base"
        IncState.empty =
      Run.err (Error.recursiveInclusion "base/a.yml")
        (seqOf [seqOf [scalar "x"], includeOf "a.yml"],
          { Visited := ["base/a.yml"], Reads := ["base/a.yml"] }) := by decide

/-- A file that includes itself: the expansion of `k: !include a.yml`, where
`a.yml` holds `k: !include a.yml` again, fails with RecursiveInclusion when the
directive inside the included content is reached. -/
theorem selfInclude_recursiveInclusion :
    resolveIncludes selfIncludeEnv "!include" 6
        (documentOf (mapOf "" [scalar "k", includeOf "a.yml"])) "base" IncState.empty =
      Run.err (Error.recursiveInclusion "base/a.yml")
        (documentOf (mapOf "" [scalar "k", includeOf "a.yml"]),
          { Visited := ["base/a.yml"], Reads := ["base/a.yml"] }) := by decide

/-! ## Trees without directives, and the result of an expansion -/

theorem height_eq (n : YamlNode) : n.height = heightList n.Content + 1 := by
  cases n
  simp [YamlNode.height]

theorem height_le_heightList {c : YamlNode} {cs : List YamlNode} (h : c ∈ cs) :
    c.height ≤ heightList cs := by
  induction cs with
  | nil => cases h
  | cons d ds ih =>
    simp only [heightList]
    rcases List.mem_cons.1 h with rfl | h1
    · exact le_max_left _ _
    · exact le_trans (ih h1) (le_max_right _ _)

theorem heightList_le {cs : List YamlNode} {k : Nat} (h : ∀ c ∈ cs, c.height ≤ k) :
    heightList cs ≤ k := by
  induction cs with
  | nil => simp [heightList]
  | cons d ds ih =>
    simp only [heightList]
    exact max_le (h d (List.mem_cons_self _ _)) (ih (fun c hc => h c (List.mem_cons_of_mem _ hc)))

theorem mem_preorderList {x : YamlNode} {cs : List YamlNode} :
    x ∈ preorderList cs ↔ ∃ c ∈ cs, x ∈ c.preorder := by
  induction cs with
  | nil => simp [preorderList]
  | cons d ds ih => simp [preorderList, ih]

theorem tagFree_iff (tag : String) (n : YamlNode) :
    TagFree tag n ↔ (n.Tag ≠ tag ∧ ∀ c ∈ n.Content, TagFree tag c) := by
  unfold TagFree
  rw [preorder_eq]
  constructor
  · intro h
    refine ⟨h n (List.mem_cons_self _ _), fun c hc x hx => ?_⟩
    exact h x (List.mem_cons_of_mem _ (mem_preorderList.2 ⟨c, hc, hx⟩))
  · rintro ⟨h1, h2⟩ x hx
    rcases List.mem_cons.1 hx with rfl | hx1
    · exact h1
    · obtain ⟨c, hc, hxc⟩ := mem_preorderList.1 hx1
      exact h2 c hc x hxc

theorem content_update_self (n : YamlNode) : { n with Content := n.Content } = n := by
  cases n
  rfl

theorem forChildren_noop {f : YamlNode → IncState → Run (YamlNode × IncState)} :
    ∀ (cs : List YamlNode) (st : IncState), (∀ c ∈ cs, ∀ s, f c s = Run.ok (c, s)) →
      forChildren f cs st = Run.ok (cs, st) := by
  intro cs
  induction cs with
  | nil => intro st _; rfl
  | cons c cs ih =>
    intro st h
    simp only [forChildren]
    rw [h c (List.mem_cons_self _ _) st]
    simp only
    rw [ih st (fun d hd s => h d (List.mem_cons_of_mem _ hd) s)]

/-- On a tree without directives `resolveIncludes` does nothing, given fuel for
the height of the tree. -/
theorem resolveIncludes_noop (env : Env) (includeTag : String) :
    ∀ (fuel : Nat) (node : YamlNode) (dir : String) (st : IncState),
      TagFree includeTag node → node.height ≤ fuel →
      resolveIncludes env includeTag fuel node dir st = Run.ok (node, st) := by
  intro fuel
  induction fuel with
  | zero =>
    intro node dir st _ hh
    rw [height_eq] at hh
    omega
  | succ fuel ih =>
    intro node dir st hfree hh
    obtain ⟨htag, hch⟩ := (tagFree_iff includeTag node).1 hfree
    rw [height_eq] at hh
    have hd : resolveIncludes.directive env includeTag (resolveIncludes env includeTag fuel)
        node dir st = Run.ok (node, st) := by
      simp [resolveIncludes.directive, htag]
    simp only [resolveIncludes, hd]
    rw [forChildren_noop node.Content st (fun c hc s =>
      ih c dir s (hch c hc) (le_trans (height_le_heightList hc) (by omega)))]
    simp only
    rw [content_update_self]

/-- Pair by pair, what the loop over the children made of them when it ran to
its end. -/
theorem forChildren_ok {f : YamlNode → IncState → Run (YamlNode × IncState)} :
    ∀ (cs : List YamlNode) (st : IncState) (cs1 : List YamlNode) (st1 : IncState),
      forChildren f cs st = Run.ok (cs1, st1) →
      List.Forall₂ (fun c c1 => ∃ s s1, f c s = Run.ok (c1, s1)) cs cs1 := by
  intro cs
  induction cs with
  | nil =>
    intro st cs1 st1 h
    simp only [forChildren, Run.ok.injEq, Prod.mk.injEq] at h
    rw [← h.1]
    exact List.Forall₂.nil
  | cons c cs ih =>
    intro st cs1 st1 h
    simp only [forChildren] at h
    cases hc : f c st with
    | outOfFuel => rw [hc] at h; cases h
    | err e s2 => obtain ⟨c2, st2⟩ := s2; rw [hc] at h; cases h
    | panic s2 => obtain ⟨c2, st2⟩ := s2; rw [hc] at h; cases h
    | ok s2 =>
      obtain ⟨c2, st2⟩ := s2
      rw [hc] at h
      simp only at h
      cases hr : forChildren f cs st2 with
      | outOfFuel => rw [hr] at h; cases h
      | err e s3 => obtain ⟨cs3, st3⟩ := s3; rw [hr] at h; cases h
      | panic s3 => obtain ⟨cs3, st3⟩ := s3; rw [hr] at h; cases h
      | ok s3 =>
        obtain ⟨cs3, st3⟩ := s3
        rw [hr] at h
        simp only [Run.ok.injEq, Prod.mk.injEq] at h
        rw [← h.1]
        exact List.Forall₂.cons ⟨st, st2, hc⟩ (ih st2 cs3 st3 hr)

/-- On a directive the block fails at one of the checks before the visited set,
or the directive gets as far as the visited set. -/
theorem directive_tagged (env : Env) (includeTag : String)
    (recur : YamlNode → String → IncState → Run (YamlNode × IncState))
    (node : YamlNode) (dir : String) (st : IncState) (htag : node.Tag = includeTag) :
    (∃ e, resolveIncludes.directive env includeTag recur node dir st = Run.err e (node, st)) ∨
    PassesChecks env includeTag node dir (env.Clean (env.Join dir node.Value)) := by
  cases hdots : strings.Contains node.Value ".." with
  | true =>
    left
    exact ⟨Error.parentTraversalForbidden node.Value,
      by simp [resolveIncludes.directive, htag, hdots]⟩
  | false =>
    cases hb : env.Abs dir with
    | none =>
      left
      exact ⟨Error.absBaseFailed, by simp [resolveIncludes.directive, htag, hdots, hb]⟩
    | some absBase =>
      cases ht : env.Abs (env.Clean (env.Join dir node.Value)) with
      | none =>
        left
        exact ⟨Error.absTargetFailed,
          by simp [resolveIncludes.directive, htag, hdots, hb, ht]⟩
      | some absTarget =>
        cases hpre : strings.HasPrefix absTarget absBase with
        | false =>
          left
          exact ⟨Error.pathEscape node.Value,
            by simp [resolveIncludes.directive, htag, hdots, hb, ht, hpre]⟩
        | true =>
          right
          exact ⟨htag, hdots, rfl, absBase, absTarget, hb, ht, hpre⟩

/-- When the directive block returns `nil`, either the node is no directive and
nothing has changed, or the node is now the first child of the expanded
document of the included file. -/
theorem directive_ok (env : Env) (includeTag : String)
    (recur : YamlNode → String → IncState → Run (YamlNode × IncState))
    (node : YamlNode) (dir : String) (st : IncState) (n1 : YamlNode) (st1 : IncState)
    (h : resolveIncludes.directive env includeTag recur node dir st = Run.ok (n1, st1)) :
    (node.Tag ≠ includeTag ∧ n1 = node ∧ st1 = st) ∨
    (node.Tag = includeTag ∧ ∃ inc d0 s0 inc1 rest, recur inc d0 s0 = Run.ok (inc1, st1) ∧
      inc1.Content = n1 :: rest) := by
  by_cases htag : node.Tag = includeTag
  · right
    refine ⟨htag, ?_⟩
    rcases directive_tagged env includeTag recur node dir st htag with ⟨e, h1⟩ | hp
    · rw [h1] at h; cases h
    · rw [directive_of_passes env includeTag recur node dir _ st hp] at h
      split at h
      · cases h
      · cases hread : env.ReadFile (env.Clean (env.Join dir node.Value)) with
        | none => rw [hread] at h; cases h
        | some content =>
          rw [hread] at h
          simp only at h
          cases hparse : env.Unmarshal content with
          | none => rw [hparse] at h; cases h
          | some inc =>
            rw [hparse] at h
            simp only at h
            cases hr : recur inc (env.Dir (env.Clean (env.Join dir node.Value)))
                ⟨env.Clean (env.Join dir node.Value) :: st.Visited,
                  st.Reads ++ [env.Clean (env.Join dir node.Value)]⟩ with
            | outOfFuel => rw [hr] at h; cases h
            | err e s2 => obtain ⟨n2, st2⟩ := s2; rw [hr] at h; cases h
            | panic s2 => obtain ⟨n2, st2⟩ := s2; rw [hr] at h; cases h
            | ok s2 =>
              obtain ⟨inc1, st2⟩ := s2
              rw [hr] at h
              simp only at h
              cases hcont : inc1.Content with
              | nil => rw [hcont] at h; cases h
              | cons c rest =>
                rw [hcont] at h
                simp only [Run.ok.injEq, Prod.mk.injEq] at h
                obtain ⟨rfl, rfl⟩ := h
                exact ⟨inc, _, _, inc1, rest, hr, hcont⟩
  · left
    simp only [resolveIncludes.directive, htag, if_false, Run.ok.injEq, Prod.mk.injEq] at h
    exact ⟨htag, h.1.symm, h.2.symm⟩

theorem forall₂_mem_right {α β : Type} {R : α → β → Prop} {l1 : List α} {l2 : List β}
    (h : List.Forall₂ R l1 l2) : ∀ b ∈ l2, ∃ a ∈ l1, R a b := by
  induction h with
  | nil => intro b hb; cases hb
  | cons hab _ ih =>
    intro b hb
    rcases List.mem_cons.1 hb with rfl | hb1
    · exact ⟨_, List.mem_cons_self _ _, hab⟩
    · obtain ⟨a, ha, hr⟩ := ih b hb1
      exact ⟨a, List.mem_cons_of_mem _ ha, hr⟩

theorem forall₂_imp_mem {α β : Type} {R S : α → β → Prop} {l1 : List α} {l2 : List β}
    (h : List.Forall₂ R l1 l2) (himp : ∀ a ∈ l1, ∀ b, R a b → S a b) : List.Forall₂ S l1 l2 := by
  induction h with
  | nil => exact List.Forall₂.nil
  | cons hab _ ih =>
    exact List.Forall₂.cons (himp _ (List.mem_cons_self _ _) _ hab)
      (ih (fun a ha b hr => himp a (List.mem_cons_of_mem _ ha) b hr))

/-- The parts of a call of `resolveIncludes` that returned `nil`: the directive
block returned `nil`, the loop over the children returned `nil`. -/
theorem resolveIncludes_ok_parts (env : Env) (includeTag : String) (fuel : Nat)
    (node : YamlNode) (dir : String) (st : IncState) (n1 : YamlNode) (st1 : IncState)
    (h : resolveIncludes env includeTag (fuel + 1) node dir st = Run.ok (n1, st1)) :
    ∃ n0 st0 cs, resolveIncludes.directive env includeTag (resolveIncludes env includeTag fuel)
        node dir st = Run.ok (n0, st0) ∧
      forChildren (fun c s => resolveIncludes env includeTag fuel c dir s) n0.Content st0 =
        Run.ok (cs, st1) ∧
      n1 = { n0 with Content := cs } := by
  simp only [resolveIncludes] at h
  cases hd : resolveIncludes.directive env includeTag (resolveIncludes env includeTag fuel)
      node dir st with
  | outOfFuel => rw [hd] at h; cases h
  | err e s2 => rw [hd] at h; cases h
  | panic s2 => rw [hd] at h; cases h
  | ok s2 =>
    obtain ⟨n0, st0⟩ := s2
    rw [hd] at h
    simp only at h
    cases hc : forChildren (fun c s => resolveIncludes env includeTag fuel c dir s)
        n0.Content st0 with
    | outOfFuel => rw [hc] at h; cases h
    | err e s3 => obtain ⟨cs, st2⟩ := s3; rw [hc] at h; cases h
    | panic s3 => obtain ⟨cs, st2⟩ := s3; rw [hc] at h; cases h
    | ok s3 =>
      obtain ⟨cs, st2⟩ := s3
      rw [hc] at h
      simp only [Run.ok.injEq, Prod.mk.injEq] at h
      obtain ⟨rfl, rfl⟩ := h
      exact ⟨n0, st0, cs, rfl, hc, rfl⟩

/-- The tree a call of `resolveIncludes` that returned `nil` leaves behind holds
no directive, and is no higher than the fuel of the call. -/
theorem resolveIncludes_ok_tagFree (env : Env) (includeTag : String) :
    ∀ (fuel : Nat) (node : YamlNode) (dir : String) (st : IncState) (n1 : YamlNode)
      (st1 : IncState), resolveIncludes env includeTag fuel node dir st = Run.ok (n1, st1) →
      TagFree includeTag n1 ∧ n1.height ≤ fuel := by
  intro fuel
  induction fuel with
  | zero => intro node dir st n1 st1 h; simp [resolveIncludes] at h
  | succ fuel ih =>
    intro node dir st n1 st1 h
    obtain ⟨n0, st0, cs, hd, hc, rfl⟩ := resolveIncludes_ok_parts env includeTag fuel node dir st
      n1 st1 h
    have hcs : ∀ c ∈ cs, TagFree includeTag c ∧ c.height ≤ fuel := by
      intro c hcmem
      obtain ⟨c0, _, s, s1, hcall⟩ := forall₂_mem_right (forChildren_ok _ _ _ _ hc) c hcmem
      exact ih c0 dir s c s1 hcall
    have htag0 : n0.Tag ≠ includeTag := by
      rcases directive_ok env includeTag _ node dir st n0 st0 hd with ⟨h1, rfl, _⟩ |
        ⟨_, inc, d0, s0, inc1, rest, hr, hcont⟩
      · exact h1
      · have hfree := (ih inc d0 s0 inc1 st0 hr).1
        exact ((tagFree_iff includeTag inc1).1 hfree).2 n0 (by rw [hcont]; simp) n0
          (by rw [preorder_eq]; simp)
    constructor
    · rw [tagFree_iff]
      exact ⟨htag0, fun c hcmem => (hcs c hcmem).1⟩
    · rw [height_eq]
      have := heightList_le (fun c hcmem => (hcs c hcmem).2)
      simpa using this

theorem forChildren_unchanged {f : YamlNode → IncState → Run (YamlNode × IncState)} :
    ∀ (cs : List YamlNode) (st : IncState) (cs1 : List YamlNode) (st1 : IncState),
      (∀ c ∈ cs, ∀ s c1 s1, f c s = Run.ok (c1, s1) → c1 = c ∧ s1 = s) →
      forChildren f cs st = Run.ok (cs1, st1) → cs1 = cs ∧ st1 = st := by
  intro cs
  induction cs with
  | nil =>
    intro st cs1 st1 _ h
    simp only [forChildren, Run.ok.injEq, Prod.mk.injEq] at h
    exact ⟨h.1.symm, h.2.symm⟩
  | cons c cs ih =>
    intro st cs1 st1 hf h
    simp only [forChildren] at h
    cases hc : f c st with
    | outOfFuel => rw [hc] at h; cases h
    | err e s2 => obtain ⟨c2, st2⟩ := s2; rw [hc] at h; cases h
    | panic s2 => obtain ⟨c2, st2⟩ := s2; rw [hc] at h; cases h
    | ok s2 =>
      obtain ⟨c2, st2⟩ := s2
      obtain ⟨rfl, rfl⟩ := hf c (List.mem_cons_self _ _) st c2 st2 hc
      rw [hc] at h
      simp only at h
      cases hr : forChildren f cs st2 with
      | outOfFuel => rw [hr] at h; cases h
      | err e s3 => obtain ⟨cs3, st3⟩ := s3; rw [hr] at h; cases h
      | panic s3 => obtain ⟨cs3, st3⟩ := s3; rw [hr] at h; cases h
      | ok s3 =>
        obtain ⟨cs3, st3⟩ := s3
        obtain ⟨rfl, rfl⟩ := ih st2 cs3 st3
          (fun d hd => hf d (List.mem_cons_of_mem _ hd)) hr
        rw [hr] at h
        simp only [Run.ok.injEq, Prod.mk.injEq] at h
        exact ⟨h.1.symm, h.2.symm⟩

/-- A call of `resolveIncludes` on a tree without directives that returns `nil`
has changed nothing. -/
theorem resolveIncludes_tagFree_ok (env : Env) (includeTag : String) :
    ∀ (fuel : Nat) (node : YamlNode) (dir : String) (st : IncState) (n1 : YamlNode)
      (st1 : IncState), TagFree includeTag node →
      resolveIncludes env includeTag fuel node dir st = Run.ok (n1, st1) →
      n1 = node ∧ st1 = st := by
  intro fuel
  induction fuel with
  | zero => intro node dir st n1 st1 _ h; simp [resolveIncludes] at h
  | succ fuel ih =>
    intro node dir st n1 st1 hfree h
    obtain ⟨htag, hch⟩ := (tagFree_iff includeTag node).1 hfree
    obtain ⟨n0, st0, cs, hd, hc, rfl⟩ := resolveIncludes_ok_parts env includeTag fuel node dir st
      n1 st1 h
    have hd0 : resolveIncludes.directive env includeTag (resolveIncludes env includeTag fuel)
        node dir st = Run.ok (node, st) := by
      simp [resolveIncludes.directive, htag]
    rw [hd0] at hd
    simp only [Run.ok.injEq, Prod.mk.injEq] at hd
    obtain ⟨rfl, rfl⟩ := hd
    obtain ⟨rfl, rfl⟩ := forChildren_unchanged _ _ _ _
      (fun c hcm s c1 s1 hcall => ih c dir s c1 s1 (hch c hcm) hcall) hc
    exact ⟨content_update_self _, rfl⟩

/-! ## Claims on the result of an expansion and on `LoadWithOptions` -/

/-! ## The pointers of the index after an expansion -/

theorem at?_nil (n : YamlNode) : n.at? [] = some n := by
  rw [YamlNode.at?]

theorem at?_cons (n : YamlNode) (i : Nat) (rest : List Nat) :
    n.at? (i :: rest) = (n.Content[i]?).bind (fun c => c.at? rest) := by
  rw [YamlNode.at?]
  cases n.Content[i]? <;> rfl

theorem at?_append : ∀ (p q : List Nat) (n : YamlNode),
    n.at? (p ++ q) = (n.at? p).bind (fun x => x.at? q) := by
  intro p
  induction p with
  | nil => intro q n; simp [at?_nil]
  | cons i p ih =>
    intro q n
    rw [List.cons_append, at?_cons, at?_cons]
    cases n.Content[i]? with
    | none => rfl
    | some c => simp [ih q c]

/-- An expansion that changes nothing leaves every object as it was. -/
theorem after_self (includeTag : String) : ∀ (path : List Nat) (n : YamlNode),
    YamlNode.after includeTag n n path = n.at? path := by
  intro path
  induction path with
  | nil => intro n; rw [YamlNode.after, at?_nil]
  | cons i rest ih =>
    intro n
    rw [YamlNode.after]
    split
    · rfl
    · rw [at?_cons]
      cases n.Content[i]? with
      | none => rfl
      | some c => simp [ih c]

mutual
theorem indexNode_pos (root : YamlNode) (n : YamlNode) (path : List Nat) (m : GoMap Node)
    (mp : GoMap (List Nat)) (hn : root.at? path = some n) (hinv : PosInv root m mp) :
    PosInv root (indexNode m n) (posNode path mp n) := by
  match n with
  | ⟨k, t, v, a, l, c, cs⟩ =>
    simp only [indexNode, posNode]
    have h1 : PosInv root (if a ≠ "" then m.put a (mkNode ⟨k, t, v, a, l, c, cs⟩) else m)
        (if a ≠ "" then mp.put a path else mp) := by
      by_cases ha : a = ""
      · simpa [ha] using hinv
      · rw [if_pos ha, if_pos ha]
        intro id nd hg
        rw [GoMap.get?_put] at hg
        rw [GoMap.get?_put]
        by_cases he : a = id
        · rw [if_pos he] at hg
          cases hg
          rw [if_pos he]
          exact ⟨path, rfl, hn⟩
        · rw [if_neg he] at hg
          rw [if_neg he]
          exact hinv id nd hg
    split
    · apply indexNodes_pos root cs path 0 _ _ _ h1
      intro j x hx
      rw [Nat.zero_add, at?_append, hn]
      simp [at?_cons, at?_nil, hx]
    · exact h1
theorem indexNodes_pos (root : YamlNode) (cs : List YamlNode) (path : List Nat) (i : Nat)
    (m : GoMap Node) (mp : GoMap (List Nat))
    (hcs : ∀ (j : Nat) (x : YamlNode), cs[j]? = some x → root.at? (path ++ [i + j]) = some x)
    (hinv : PosInv root m mp) :
    PosInv root (indexNodes m cs) (posNodes path i mp cs) := by
  match cs with
  | [] =>
    simp only [indexNodes, posNodes]
    exact hinv
  | n :: rest =>
    simp only [indexNodes, posNodes]
    apply indexNodes_pos root rest path (i + 1) _ _ _
      (indexNode_pos root n (path ++ [i]) m mp (by simpa using hcs 0 n (by simp)) hinv)
    intro j x hx
    have := hcs (j + 1) x (by simpa using hx)
    rw [show i + 1 + j = i + (j + 1) by omega]
    exact this
end

/-- The positions computed for the index of a tree lead to the nodes the index
holds. -/
theorem docOf_posInv (root : YamlNode) :
    PosInv root (docOf root).NodesByID (posNodes [] 0 [] root.Content) := by
  apply indexNodes_pos root root.Content [] 0 [] []
  · intro j x hx
    simp [at?_cons, at?_nil, hx]
  · intro id nd h
    simp [GoMap.get?] at h

theorem refreshIndex_keys (includeTag : String) (old new : YamlNode) (m : GoMap Node) :
    (refreshIndex includeTag old new m).keys = m.keys := by
  simp only [refreshIndex, GoMap.keys, List.map_map]
  rfl

/-- An expansion that changes nothing leaves the index as it was. -/
theorem refreshIndex_self (includeTag : String) (root : YamlNode) :
    refreshIndex includeTag root root (docOf root).NodesByID = (docOf root).NodesByID := by
  unfold refreshIndex
  conv_rhs => rw [← List.map_id (docOf root).NodesByID]
  apply List.map_congr_left
  rintro ⟨key, nd⟩ he
  have hg := GoMap.get?_of_mem (docOf_indexInv root).1 he
  obtain ⟨path, hp, hat⟩ := docOf_posInv root key nd hg
  simp only [hp, after_self, hat, id]

/-- C11: for every tree none of whose nodes carries the include tag, with fuel
for the height of the tree, `resolveIncludes` returns `nil` and leaves the
tree, the visited set and the list of files read as they were; and
`LoadWithOptions` with that include tag and a base path returns, without
reading a file, the very document `ParseYAML` returns. -/
theorem C11_no_directive_noop (env : Env) (includeTag : String) (fuel : Nat) (node : YamlNode)
    (dir : String) (st : IncState) (hfree : TagFree includeTag node)
    (hfuel : node.height ≤ fuel) :
    resolveIncludes env includeTag fuel node dir st = Run.ok (node, st) ∧
    ∀ basePath, basePath ≠ "" →
      (LoadWithOptions env fuel (some node) { IncludeTag := includeTag, BasePath := basePath } =
        Loaded.returned (some (docOf node)) none [] ∧
      ParseYAML (some node) = Res.ok (docOf node)) := by
  refine ⟨resolveIncludes_noop env includeTag fuel node dir st hfree hfuel, ?_⟩
  intro basePath hbase
  refine ⟨?_, rfl⟩
  unfold LoadWithOptions
  simp only [ParseYAML]
  by_cases htag : includeTag = ""
  · simp [htag, docOf]
  · simp only [ne_eq, htag, not_false_eq_true, if_true, hbase, if_false]
    rw [resolveIncludes_noop env includeTag fuel node basePath _ hfree hfuel]
    have hidx := refreshIndex_self includeTag node
    simp only [docOf] at hidx
    simp only [hidx]
    rfl

/-- Witness of C11 on the document `A`, `B: depends_on [*A]`, which holds no
directive. -/
theorem C11_witness_chain :
    resolveIncludes plainEnv "!include" 5 chainTree "base" IncState.empty =
      Run.ok (chainTree, IncState.empty) :=
  (C11_no_directive_noop plainEnv "!include" 5 chainTree "base" IncState.empty (by decide)
    (by decide)).1

/-- C12: for every directive that gets past the checks and the visited set,
whose file is read and parsed, and whose parsed document expands without error
to a document with first content node `R`: `resolveIncludes` returns `nil` and
the directive has become `R`, with all its fields and children (first part).
And in every node that is no directive itself and on which `resolveIncludes`
returns `nil`, the node keeps its own fields, the child list keeps its length,
every slot holds what the call on the child of that slot produced (for a
directive: `R`, by the first part), and every child without a directive below
it is unchanged (second part). -/
theorem C12_substitution (env : Env) (includeTag : String) (fuel : Nat) (d : YamlNode)
    (dir p : String) (st : IncState) (content : String) (inc inc1 R : YamlNode)
    (rest : List YamlNode) (st2 : IncState)
    (hp : PassesChecks env includeTag d dir p) (hv : p ∉ st.Visited)
    (hread : env.ReadFile p = some content) (hparse : env.Unmarshal content = some inc)
    (hexp : resolveIncludes env includeTag fuel inc (env.Dir p)
      { Visited := p :: st.Visited, Reads := st.Reads ++ [p] } = Run.ok (inc1, st2))
    (hroot : inc1.Content = R :: rest) :
    resolveIncludes env includeTag (fuel + 1) d dir st = Run.ok (R, st2) ∧
    ∀ (parent : YamlNode) (fuel1 : Nat) (dir1 : String) (s0 s1 : IncState) (n1 : YamlNode),
      parent.Tag ≠ includeTag →
      resolveIncludes env includeTag fuel1 parent dir1 s0 = Run.ok (n1, s1) →
      n1 = { parent with Content := n1.Content } ∧
      List.Forall₂ (fun c c1 =>
          (∃ s s2, resolveIncludes env includeTag (fuel1 - 1) c dir1 s = Run.ok (c1, s2)) ∧
          (TagFree includeTag c → c1 = c))
        parent.Content n1.Content := by
  constructor
  · obtain ⟨hfree1, hheight1⟩ := resolveIncludes_ok_tagFree env includeTag fuel inc _ _ inc1 st2
      hexp
    have hRmem : R ∈ inc1.Content := by rw [hroot]; simp
    have hRfree : TagFree includeTag R := ((tagFree_iff includeTag inc1).1 hfree1).2 R hRmem
    have hRheight : R.height + 1 ≤ fuel := by
      have := height_le_heightList hRmem
      rw [height_eq inc1] at hheight1
      omega
    have hd : resolveIncludes.directive env includeTag (resolveIncludes env includeTag fuel)
        d dir st = Run.ok (R, st2) := by
      rw [directive_of_passes env includeTag _ d dir p st hp, if_neg hv, hread]
      simp only [hparse, hexp, hroot]
    simp only [resolveIncludes, hd]
    rw [forChildren_noop R.Content st2 (fun c hc s =>
      resolveIncludes_noop env includeTag fuel c dir s
        (((tagFree_iff includeTag R).1 hRfree).2 c hc)
        (by
          have := height_le_heightList hc
          rw [height_eq R] at hRheight
          omega))]
    simp only
    rw [content_update_self]
  · intro parent fuel1 dir1 s0 s1 n1 htag h
    cases fuel1 with
    | zero => simp [resolveIncludes] at h
    | succ fuel1 =>
      obtain ⟨n0, st0, cs, hd, hc, rfl⟩ := resolveIncludes_ok_parts env includeTag fuel1 parent
        dir1 s0 n1 s1 h
      have hd0 : resolveIncludes.directive env includeTag (resolveIncludes env includeTag fuel1)
          parent dir1 s0 = Run.ok (parent, s0) := by
        simp [resolveIncludes.directive, htag]
      rw [hd0] at hd
      simp only [Run.ok.injEq, Prod.mk.injEq] at hd
      obtain ⟨rfl, rfl⟩ := hd
      refine ⟨rfl, ?_⟩
      simp only [Nat.add_sub_cancel]
      apply forall₂_imp_mem (forChildren_ok _ _ _ _ hc)
      rintro c _ c1 ⟨s, s2, hcall⟩
      exact ⟨⟨s, s2, hcall⟩, fun hfree =>
        (resolveIncludes_tagFree_ok env includeTag fuel1 c dir1 s c1 s2 hfree hcall).1⟩

/-- Witness of C12: the directive of `tasks: !include tasks.yml`, where
`tasks.yml` holds a sequence, becomes that sequence, which is not empty. -/
theorem C12_witness_tasks :
    resolveIncludes tasksEnv "!include" 5 (includeOf "tasks.yml") "base" IncState.empty =
      Run.ok (seqOf [mapOf "" [scalar "task1", scalar "run"]],
        { Visited := ["base/tasks.yml"], Reads := ["base/tasks.yml"] }) :=
  (C12_substitution tasksEnv "!include" 4 (includeOf "tasks.yml") "base" "base/tasks.yml"
    IncState.empty "- task1: run" (documentOf (seqOf [mapOf "" [scalar "task1", scalar "run"]]))
    (documentOf (seqOf [mapOf "" [scalar "task1", scalar "run"]]))
    (seqOf [mapOf "" [scalar "task1", scalar "run"]]) []
    { Visited := ["base/tasks.yml"], Reads := ["base/tasks.yml"] }
    ⟨rfl, by decide, by decide, "/work/base", "/work/base/tasks.yml", by decide, by decide,
      by decide⟩
    (by decide) (by decide) (by decide) (by decide) rfl).1

/-- The whole document `tasks: !include tasks.yml` after the expansion: the
value of `tasks` is the sequence, the key is unchanged. -/
theorem tasksTree_expanded :
    resolveIncludes tasksEnv "!include" 7 tasksTree "base" IncState.empty =
      Run.ok (documentOf (mapOf "" [scalar "tasks",
          seqOf [mapOf "" [scalar "task1", scalar "run"]]]),
        { Visited := ["base/tasks.yml"], Reads := ["base/tasks.yml"] }) := by decide

/-- C13, the code at the failing input `data: !include inc.yml`, where `inc.yml`
holds `&inc_anchor {k: v}`: `LoadWithOptions` succeeds, the returned tree
holds the node with the anchor `inc_anchor`, and the index of the returned
document is empty: it was built before the expansion and is not built again. -/
theorem C13_included_anchor_not_indexed :
    ∃ doc, LoadWithOptions anchorEnv 7 (some anchorMainTree)
        { IncludeTag := "!include", BasePath := "base" } =
        Loaded.returned (some doc) none ["base/inc.yml"] ∧
      (∃ n ∈ doc.RawTree.preorder, n.Anchor = "inc_anchor") ∧
      doc.NodesByID = [] ∧ doc.NodesByID.get? "inc_anchor" = none :=
  ⟨_, rfl, by decide, by decide, by decide⟩

/-- The keys of the index `LoadWithOptions` returns are always the keys of the
index of the tree before the expansion: no entry is added for an anchor that
came in with an included file. -/
theorem loadWithOptions_keys (env : Env) (fuel : Nat) (root : YamlNode) (opts : LoadOptions)
    (doc : Doc) (reads : List String)
    (h : LoadWithOptions env fuel (some root) opts = Loaded.returned (some doc) none reads) :
    doc.NodesByID.keys = (docOf root).NodesByID.keys := by
  unfold LoadWithOptions at h
  simp only [ParseYAML] at h
  split at h
  · split at h
    · cases h
    · split at h
      · simp only [Loaded.returned.injEq, Option.some.injEq] at h
        rw [← h.1]
        exact refreshIndex_keys _ _ _ _
      · cases h
      · cases h
      · cases h
  · simp only [Loaded.returned.injEq, Option.some.injEq] at h
    rw [← h.1]
    rfl

/-- The entries of the returned index point into the tree as the expansion left
it: on `data: &x !include inc.yml` the entry `x`, filed for the directive, holds
the node of the included file after `LoadWithOptions`, and the anchor
`inc_anchor` of that node is still no key of the index. -/
theorem loadWithOptions_entry_follows_tree :
    LoadWithOptions anchorEnv 7 (some anchoredDirectiveTree)
        { IncludeTag := "!include", BasePath := "base" } =
      Loaded.returned
        (some ⟨[("x", ⟨"x", mapOf "inc_anchor" [scalar "k", scalar "v"], "x", 0, 0⟩)],
          documentOf (mapOf "" [scalar "data", mapOf "inc_anchor" [scalar "k", scalar "v"]])⟩)
        none ["base/inc.yml"] := by
  decide

/-- C16, the code at the failing input `tasks: !include tasks.yml` with
`IncludeTag` empty and `BasePath` set: `LoadWithOptions` returns the document
with the directive still in place and reads no file, whereas with `IncludeTag`
set to `!include` the directive is expanded. -/
theorem C16_empty_includeTag_no_expansion :
    LoadWithOptions tasksEnv 7 (some tasksTree) { IncludeTag := "", BasePath := "base" } =
      Loaded.returned (some (docOf tasksTree)) none [] ∧
    LoadWithOptions tasksEnv 7 (some tasksTree) { IncludeTag := "!include", BasePath := "base" } =
      Loaded.returned (some { NodesByID := [], RawTree := documentOf (mapOf "" [scalar "tasks",
        seqOf [mapOf "" [scalar "task1", scalar "run"]]]) }) none ["base/tasks.yml"] := by
  constructor <;> decide

/-- With an empty `IncludeTag` nothing is expanded, whatever the document. -/
theorem loadWithOptions_empty_includeTag (env : Env) (fuel : Nat) (root : YamlNode)
    (basePath : String) :
    LoadWithOptions env fuel (some root) { IncludeTag := "", BasePath := basePath } =
      Loaded.returned (some (docOf root)) none [] := by
  simp [LoadWithOptions, ParseYAML, docOf]

/-- C17: `LoadWithOptions` with a non-empty `IncludeTag` and an empty `BasePath`
returns, for every input the parser accepts, no document and the error
`BasePath must be set when IncludeTag is used`, whether or not the document
holds a directive; when the parser fails it returns no document and the
unmarshal error; when the expansion fails it returns no document and the error
of the expansion; and whenever it returns an error it returns no document. -/
theorem C17_loadWithOptions_failures (env : Env) (fuel : Nat) (decoded : Option YamlNode)
    (opts : LoadOptions) :
    (∀ root, decoded = some root → opts.IncludeTag ≠ "" → opts.BasePath = "" →
      LoadWithOptions env fuel decoded opts =
        Loaded.returned none (some Error.basePathMissing) []) ∧
    (decoded = none →
      LoadWithOptions env fuel decoded opts =
        Loaded.returned none (some Error.unmarshalError) []) ∧
    (∀ root e tree st, decoded = some root → opts.IncludeTag ≠ "" → opts.BasePath ≠ "" →
      resolveIncludes env opts.IncludeTag fuel root opts.BasePath { Visited := [], Reads := [] } =
        Run.err e (tree, st) →
      LoadWithOptions env fuel decoded opts = Loaded.returned none (some e) st.Reads) ∧
    (∀ doc e reads, LoadWithOptions env fuel decoded opts = Loaded.returned doc (some e) reads →
      doc = none) := by
  refine ⟨?_, ?_, ?_, ?_⟩
  · rintro root rfl htag hbase
    simp [LoadWithOptions, ParseYAML, htag, hbase]
  · rintro rfl
    simp [LoadWithOptions, ParseYAML]
  · rintro root e tree st rfl htag hbase hrun
    simp only [LoadWithOptions, ParseYAML, ne_eq, htag, not_false_eq_true, if_true, hbase,
      if_false, hrun]
  · intro doc e reads h
    unfold LoadWithOptions at h
    cases decoded with
    | none =>
      simp only [ParseYAML, Loaded.returned.injEq] at h
      exact h.1.symm
    | some root =>
      simp only [ParseYAML] at h
      split at h
      · split at h
        · simp only [Loaded.returned.injEq] at h
          exact h.1.symm
        · split at h
          · simp only [Loaded.returned.injEq] at h
            cases h.2.1
          · simp only [Loaded.returned.injEq] at h
            exact h.1.symm
          · cases h
          · cases h
      · simp only [Loaded.returned.injEq] at h
        cases h.2.1

/-- Witness of C17: the document `A`, `B: depends_on [*A]` holds no directive,
and loading it with `IncludeTag` set and `BasePath` empty fails. -/
theorem C17_witness_no_basePath :
    TagFree "!include" chainTree ∧
    LoadWithOptions plainEnv 5 (some chainTree) { IncludeTag := "!include", BasePath := "" } =
      Loaded.returned none (some Error.basePathMissing) [] :=
  ⟨by decide, (C17_loadWithOptions_failures plainEnv 5 (some chainTree)
    { IncludeTag := "!include", BasePath := "" }).1 chainTree rfl (by decide) rfl⟩

/-- C20: for every tree, base directory and environment on which
`resolveIncludes` returns `nil`, no node of the resulting tree carries the
include tag; hence another run of `resolveIncludes` on the result, with any
base directory and state and at least the same fuel, returns `nil` and changes
nothing. -/
theorem C20_result_has_no_directive (env : Env) (includeTag : String) (fuel : Nat)
    (node : YamlNode) (dir : String) (st : IncState) (n1 : YamlNode) (st1 : IncState)
    (h : resolveIncludes env includeTag fuel node dir st = Run.ok (n1, st1)) :
    TagFree includeTag n1 ∧
    ∀ fuel2 dir2 st2, fuel ≤ fuel2 →
      resolveIncludes env includeTag fuel2 n1 dir2 st2 = Run.ok (n1, st2) := by
  obtain ⟨hfree, hheight⟩ := resolveIncludes_ok_tagFree env includeTag fuel node dir st n1 st1 h
  exact ⟨hfree, fun fuel2 dir2 st2 hle =>
    resolveIncludes_noop env includeTag fuel2 n1 dir2 st2 hfree (le_trans hheight hle)⟩

/-- Witness of C20 on `tasks: !include tasks.yml`: the expanded document holds
no directive, and a second run with another state changes nothing. -/
theorem C20_witness_tasks :
    TagFree "!include" (documentOf (mapOf "" [scalar "tasks",
      seqOf [mapOf "" [scalar "task1", scalar "run"]]])) ∧
    resolveIncludes tasksEnv "!include" 7 (documentOf (mapOf "" [scalar "tasks",
        seqOf [mapOf "" [scalar "task1", scalar "run"]]])) "other" IncState.empty =
      Run.ok (documentOf (mapOf "" [scalar "tasks",
        seqOf [mapOf "" [scalar "task1", scalar "run"]]]), IncState.empty) :=
  have h := C20_result_has_no_directive tasksEnv "!include" 7 tasksTree "base" IncState.empty
    (documentOf (mapOf "" [scalar "tasks", seqOf [mapOf "" [scalar "task1", scalar "run"]]]))
    { Visited := ["base/tasks.yml"], Reads := ["base/tasks.yml"] } (by decide)
  ⟨h.1, h.2 7 "other" IncState.empty (le_refl _)⟩

/-! ## The fuel of `DetectCycles` is enough on every graph -/

theorem forEach_fuel {f : List DAGNode → Nat → Run (List DAGNode)} {k : Nat}
    (hok : ∀ mem a mem1, f mem a = Run.ok mem1 → Post mem mem1 ∧ IsVisited mem1 a)
    (hne : ∀ mem a, (unvisitedSet mem).card < k → f mem a ≠ Run.outOfFuel) :
    ∀ (ds : List Nat) (mem : List DAGNode), (unvisitedSet mem).card < k →
      forEach f mem ds ≠ Run.outOfFuel := by
  intro ds
  induction ds with
  | nil => intro mem _ h; simp [forEach] at h
  | cons d ds ih =>
    intro mem hk
    simp only [forEach]
    cases hd : f mem d with
    | ok m2 =>
      obtain ⟨p, _⟩ := hok _ _ _ hd
      exact ih m2 (lt_of_le_of_lt (Finset.card_le_card p.unvisitedSet_subset) hk)
    | err e m2 => simp
    | panic m2 => simp
    | outOfFuel => exact absurd hd (hne mem d hk)

theorem visit_fuel : ∀ (fuel : Nat) (mem : List DAGNode) (a : Nat),
    (unvisitedSet mem).card < fuel → visit fuel mem a ≠ Run.outOfFuel := by
  intro fuel
  induction fuel with
  | zero => intro mem a h; omega
  | succ fuel ih =>
    intro mem a hk
    simp only [visit]
    cases ha : mem[a]? with
    | none => simp
    | some n =>
      simp only
      by_cases hv : n.Visited = true
      · simp [hv]
      · have hvf : n.Visited = false := by simpa using hv
        by_cases hg : n.Visiting = true
        · simp [hvf, hg]
        · have hgf : n.Visiting = false := by simpa using hg
          simp only [hvf, hgf, Bool.false_eq_true, if_false]
          have hlt := unvisitedSet_setVisiting ha hvf hgf
          have := forEach_fuel (visit_ok fuel) ih n.DependsOn
            (mem.modify (fun m => { m with Visiting := true }) a) (by omega)
          cases h2 : forEach (visit fuel) (mem.modify (fun m => { m with Visiting := true }) a)
              n.DependsOn with
          | ok m2 => simp
          | err e m2 => simp
          | panic m2 => simp
          | outOfFuel => exact absurd h2 this

theorem detectCycles_fuel (g : DAG) (ord : List String) :
    g.DetectCycles ord ≠ Run.outOfFuel :=
  forEach_fuel (visit_ok _) (visit_fuel _) _ _ (Nat.lt_succ_of_le (unvisitedSet_card_le _))

/-! ## No node is left both Visited and Visiting -/

theorem AllUnvisited.cleanMarks {mem : List DAGNode} (hu : AllUnvisited mem) : CleanMarks mem := by
  intro x n hn hv
  have := (hu n (List.getElem?_mem hn)).1
  rw [hv] at this
  cases this

theorem forEach_clean {f : List DAGNode → Nat → Run (List DAGNode)}
    (hf : ∀ mem a mem1, f mem a = Run.ok mem1 → CleanMarks mem → CleanMarks mem1) :
    ∀ (ds : List Nat) (mem mem1 : List DAGNode), forEach f mem ds = Run.ok mem1 →
      CleanMarks mem → CleanMarks mem1 := by
  intro ds
  induction ds with
  | nil =>
    intro mem mem1 h hc
    simp only [forEach, Run.ok.injEq] at h
    subst h
    exact hc
  | cons d ds ih =>
    intro mem mem1 h hc
    simp only [forEach] at h
    cases hd : f mem d with
    | ok m2 =>
      rw [hd] at h
      exact ih m2 mem1 h (hf _ _ _ hd hc)
    | err e m2 => rw [hd] at h; cases h
    | panic m2 => rw [hd] at h; cases h
    | outOfFuel => rw [hd] at h; cases h

theorem visit_clean : ∀ (fuel : Nat) (mem : List DAGNode) (a : Nat) (mem1 : List DAGNode),
    visit fuel mem a = Run.ok mem1 → CleanMarks mem → CleanMarks mem1 := by
  intro fuel
  induction fuel with
  | zero => intro mem a mem1 h; simp [visit] at h
  | succ fuel ih =>
    intro mem a mem1 h hc
    simp only [visit] at h
    cases ha : mem[a]? with
    | none => rw [ha] at h; cases h
    | some n =>
      rw [ha] at h
      simp only at h
      by_cases hv : n.Visited = true
      · simp only [hv, if_true, Run.ok.injEq] at h
        subst h
        exact hc
      · have hvf : n.Visited = false := by simpa using hv
        by_cases hg : n.Visiting = true
        · simp [hvf, hg] at h
        · have hgf : n.Visiting = false := by simpa using hg
          simp only [hvf, hgf, Bool.false_eq_true, if_false] at h
          have hc0 : CleanMarks (mem.modify (fun m => { m with Visiting := true }) a) := by
            intro x m hm hmv
            rw [List.getElem?_modify] at hm
            by_cases hax : a = x
            · subst hax
              rw [ha] at hm
              simp only [if_true, Option.map_some, Option.some.injEq] at hm
              subst hm
              simp only at hmv
              rw [hvf] at hmv
              cases hmv
            · simp only [hax, if_false, id_map'] at hm
              exact hc x m hm hmv
          cases hl : forEach (visit fuel) (mem.modify (fun m => { m with Visiting := true }) a)
              n.DependsOn with
          | ok m2 =>
            rw [hl] at h
            simp only [Run.ok.injEq] at h
            subst h
            have hc2 := forEach_clean ih _ _ _ hl hc0
            intro x m hm hmv
            rw [List.getElem?_modify] at hm
            by_cases hax : a = x
            · subst hax
              cases h3 : m2[a]? with
              | none => rw [h3] at hm; simp at hm
              | some m3 =>
                rw [h3] at hm
                simp only [if_true, Option.map_some, Option.some.injEq] at hm
                subst hm
                rfl
            · simp only [hax, if_false, id_map'] at hm
              exact hc2 x m hm hmv
          | err e m2 => rw [hl] at h; cases h
          | panic m2 => rw [hl] at h; cases h
          | outOfFuel => rw [hl] at h; cases h

/-! ## A pass over markers that are already Visited -/

theorem visit_of_isVisited (fuel : Nat) (mem : List DAGNode) (a : Nat) (h : IsVisited mem a) :
    visit (fuel + 1) mem a = Run.ok mem := by
  obtain ⟨n, hn, hv⟩ := h
  simp [visit, hn, hv]

theorem forEach_of_isVisited (fuel : Nat) (mem : List DAGNode) :
    ∀ ds : List Nat, (∀ d ∈ ds, IsVisited mem d) →
      forEach (visit (fuel + 1)) mem ds = Run.ok mem := by
  intro ds
  induction ds with
  | nil => intro _; rfl
  | cons d ds ih =>
    intro h
    simp only [forEach]
    rw [visit_of_isVisited fuel mem d (h d (List.mem_cons_self _ _))]
    exact ih (fun x hx => h x (List.mem_cons_of_mem _ hx))

theorem GoMap.mem_range_of_get? {β : Type} (m : GoMap β) {ord : List String}
    (hord : m.IterOrder ord) {k : String} {v : β} (h : m.get? k = some v) :
    (k, v) ∈ m.range ord := by
  unfold GoMap.range
  rw [List.mem_filterMap]
  refine ⟨k, ?_, by simp [h]⟩
  exact hord.mem_iff.2 ((GoMap.mem_keys_iff m k).2 ⟨v, h⟩)

theorem GoMap.range_snd_subset {β : Type} (m : GoMap β) {ord ord1 : List String}
    (hord : m.IterOrder ord) {a : β} (h : a ∈ (m.range ord1).map Prod.snd) :
    a ∈ (m.range ord).map Prod.snd := by
  rw [List.mem_map] at h ⊢
  obtain ⟨⟨k, v⟩, hkv, rfl⟩ := h
  unfold GoMap.range at hkv
  rw [List.mem_filterMap] at hkv
  obtain ⟨k1, _, hk1⟩ := hkv
  cases hg : m.get? k1 with
  | none => rw [hg] at hk1; cases hk1
  | some v1 =>
    rw [hg] at hk1
    cases hk1
    exact ⟨_, GoMap.mem_range_of_get? m hord hg, rfl⟩

/-- A second pass over the markers a successful pass left behind returns `nil`
and leaves the store as it is, whatever the order of the loop. -/
theorem detectCycles_again (g : DAG) (ord ord1 : List String) (mem1 : List DAGNode)
    (hord : g.Nodes.IterOrder ord) (h : g.DetectCycles ord = Run.ok mem1) :
    ({ g with Mem := mem1 } : DAG).DetectCycles ord1 = Run.ok mem1 := by
  obtain ⟨_, hv⟩ := forEach_ok (visit_ok _) _ _ _ h
  unfold DAG.DetectCycles
  exact forEach_of_isVisited _ mem1 _ (fun d hd => hv d (GoMap.range_snd_subset g.Nodes hord hd))

/-- Every object of a graph `BuildDAG` returns is filed in `Nodes`, and `Nodes`
holds nothing else. -/
theorem buildDAG_filed (doc : Doc) (key : String) (ord1 ord2 : List String) (g : DAG)
    (hnd : doc.NodesByID.keys.Nodup) (h1 : doc.NodesByID.IterOrder ord1)
    (h2 : doc.NodesByID.IterOrder ord2) (h : BuildDAG doc key ord1 ord2 = Res.ok g) (a : Nat) :
    a < g.Mem.length ↔ ∃ id, g.Nodes.get? id = some a := by
  constructor
  · intro ha
    obtain ⟨hn, hl, _⟩ := buildDAG_ok doc key ord1 ord2 g hnd h1 h2 h
    have hes : (doc.NodesByID.range ord1).Perm doc.NodesByID := GoMap.range_perm _ hnd h1
    have hesnd : ((doc.NodesByID.range ord1).map Prod.fst).Nodup :=
      (hes.map Prod.fst).nodup_iff.2 hnd
    rw [hl] at ha
    refine ⟨((doc.NodesByID.range ord1)[a]).1, ?_⟩
    rw [hn, allocNodes_get? _ hesnd]
    exact ⟨((doc.NodesByID.range ord1)[a]).2, List.getElem?_eq_getElem ha⟩
  · rintro ⟨id, hg⟩
    exact buildDAG_get?_lt doc key ord1 ord2 g hnd h1 h2 h hg

/-- C15 (counterexample): on the graph of `X -> A -> B -> A` a pass with all
markers Unvisited fails naming `A`; it leaves `X`, `A` and `B` Visiting, and
the next pass over the same graph fails naming `X`, a node that is on no
cycle.  The markers are not reset. -/
theorem C15_counterexample_stale_markers :
    AllUnvisited tailCycleGraph.Mem ∧
    tailCycleGraph.DetectCycles ["X", "A", "B"] =
      Run.err (Error.cycleDetected "A") (tailCycleGraph.DetectCycles ["X", "A", "B"]).stateD ∧
    ({ tailCycleGraph with Mem := (tailCycleGraph.DetectCycles ["X", "A", "B"]).stateD } :
      DAG).DetectCycles ["X", "A", "B"] =
      Run.err (Error.cycleDetected "X") (tailCycleGraph.DetectCycles ["X", "A", "B"]).stateD ∧
    (tailCycleGraph.DetectCycles ["X", "A", "B"]).stateD ≠ tailCycleGraph.Mem :=
  ⟨by decide, rfl, rfl, by decide⟩

/-- C15 (amended): `DetectCycles` does not reset the markers.  For every graph
whose pointers are valid and whose objects are exactly those filed in `Nodes`:
when a pass that started with all markers Unvisited returned `nil`, every node
is left Visited, and a later pass over these markers returns `nil` again and
changes nothing, and a pass with all markers Unvisited returns `nil` too,
whatever keys the later loop walks and in whatever order. -/
theorem C15_markers_kept_after_success (g : DAG) (ord ord1 : List String)
    (mem1 : List DAGNode) (hu : AllUnvisited g.Mem) (hc : Closed g.Mem)
    (hfiled : ∀ a, a < g.Mem.length ↔ ∃ id, g.Nodes.get? id = some a)
    (hord : g.Nodes.IterOrder ord) (h : g.DetectCycles ord = Run.ok mem1) :
    (∀ a, a < g.Mem.length → IsVisited mem1 a) ∧
    ({ g with Mem := mem1 } : DAG).DetectCycles ord1 = Run.ok mem1 ∧
    ∃ mem2, g.DetectCycles ord1 = Run.ok mem2 := by
  have hroot : ∀ a, a < g.Mem.length → a ∈ (g.Nodes.range ord).map Prod.snd := by
    intro a ha
    obtain ⟨id, hid⟩ := (hfiled a).1 ha
    exact List.mem_map.2 ⟨(id, a), GoMap.mem_range_of_get? g.Nodes hord hid, rfl⟩
  refine ⟨?_, detectCycles_again g ord ord1 mem1 hord h, ?_⟩
  · obtain ⟨_, hv⟩ := forEach_ok (visit_ok _) _ _ _ h
    exact fun a ha => hv a (hroot a ha)
  · have hret : (g.DetectCycles ord1).Returned := by
      apply detectCycles_returned g ord1 hc
      intro a ha
      have := GoMap.range_snd_subset g.Nodes hord ha
      rw [List.mem_map] at this
      obtain ⟨⟨id, b⟩, hmem, rfl⟩ := this
      apply (hfiled b).2
      unfold GoMap.range at hmem
      rw [List.mem_filterMap] at hmem
      obtain ⟨k, _, hk⟩ := hmem
      cases hg : g.Nodes.get? k with
      | none => rw [hg] at hk; cases hk
      | some v =>
        rw [hg] at hk
        cases hk
        exact ⟨_, hg⟩
    rcases hret with ⟨m, hm⟩ | ⟨e, m, hm⟩
    · exact ⟨m, hm⟩
    · obtain ⟨y, n, hy, _, hcyc⟩ := detectCycles_err g ord1 hu e m hm
      have hlt : y < g.Mem.length := by
        rcases Nat.lt_or_ge y g.Mem.length with h3 | h3
        · exact h3
        · rw [List.getElem?_eq_none h3] at hy; cases hy
      exact absurd hcyc (detectCycles_ok g ord hu mem1 h y (hroot y hlt))

/-- Witness of C15 on `A` without dependencies and `B: depends_on [*A]`: the
second pass, in the other order, returns `nil` and leaves the markers. -/
theorem C15_witness_chain :
    AllUnvisited chainGraph.Mem ∧
    chainGraph.DetectCycles ["B", "A"] = Run.ok (chainGraph.DetectCycles ["B", "A"]).stateD ∧
    ((∀ a, a < chainGraph.Mem.length → IsVisited (chainGraph.DetectCycles ["B", "A"]).stateD a) ∧
    ({ chainGraph with Mem := (chainGraph.DetectCycles ["B", "A"]).stateD } :
      DAG).DetectCycles ["A", "B"] = Run.ok (chainGraph.DetectCycles ["B", "A"]).stateD ∧
    ∃ mem2, chainGraph.DetectCycles ["A", "B"] = Run.ok mem2) :=
  ⟨by decide, rfl,
    C15_markers_kept_after_success chainGraph ["B", "A"] ["A", "B"] _ (by decide)
      (buildDAG_closed (docOf chainTree) "depends_on" ["A", "B"] ["B", "A"] chainGraph
        (by decide) (List.Perm.refl _) (List.Perm.swap _ _ _) rfl)
      (buildDAG_filed (docOf chainTree) "depends_on" ["A", "B"] ["B", "A"] chainGraph
        (by decide) (List.Perm.refl _) (List.Perm.swap _ _ _) rfl)
      (List.Perm.swap _ _ _) rfl⟩

/-- C18: `DetectCycles` ends on every graph and every marker state within the
recursion depth the model gives it (number of objects plus one), because a
descent first marks an Unvisited node Visiting, which makes the number of
Unvisited nodes smaller; with valid pointers it returns `nil` or an error.
When it returns `nil` and no node was both Visited and Visiting at the start
(as when all markers are Unvisited), identifiers and edges are untouched and
every node of `Nodes` ends with `Visited = true` and `Visiting = false`. -/
theorem C18_detectCycles_ends_all_marked (g : DAG) (ord : List String) :
    g.DetectCycles ord ≠ Run.outOfFuel ∧
    (∀ (a : Nat) (n : DAGNode), g.Mem[a]? = some n → n.Visited = false → n.Visiting = false →
      (unvisitedSet (g.Mem.modify (fun m => { m with Visiting := true }) a)).card <
        (unvisitedSet g.Mem).card) ∧
    (Closed g.Mem → (∀ a ∈ (g.Nodes.range ord).map Prod.snd, a < g.Mem.length) →
      (g.DetectCycles ord).Returned) ∧
    (CleanMarks g.Mem → g.Nodes.IterOrder ord → ∀ mem1, g.DetectCycles ord = Run.ok mem1 →
      SameGraph g.Mem mem1 ∧
      ∀ id a, g.Nodes.get? id = some a →
        ∃ n, mem1[a]? = some n ∧ n.Visited = true ∧ n.Visiting = false) := by
  refine ⟨detectCycles_fuel g ord, fun a n ha hv hg => unvisitedSet_setVisiting ha hv hg,
    detectCycles_returned g ord, ?_⟩
  intro hclean hord mem1 h
  obtain ⟨p, hv⟩ := forEach_ok (visit_ok _) _ _ _ h
  have hc1 : CleanMarks mem1 := forEach_clean (visit_clean _) _ _ _ h hclean
  refine ⟨p.same, ?_⟩
  intro id a hid
  obtain ⟨n, hn, hnv⟩ := hv a
    (List.mem_map.2 ⟨(id, a), GoMap.mem_range_of_get? g.Nodes hord hid, rfl⟩)
  exact ⟨n, hn, hnv, hc1 a n hn hnv⟩

/-- Witness of C18 on `A` without dependencies and `B: depends_on [*A]`. -/
theorem C18_witness_chain :
    CleanMarks chainGraph.Mem ∧
    chainGraph.DetectCycles ["B", "A"] = Run.ok (chainGraph.DetectCycles ["B", "A"]).stateD ∧
    ∀ id a, chainGraph.Nodes.get? id = some a →
      ∃ n, (chainGraph.DetectCycles ["B", "A"]).stateD[a]? = some n ∧
        n.Visited = true ∧ n.Visiting = false :=
  ⟨AllUnvisited.cleanMarks (by decide), rfl,
    ((C18_detectCycles_ends_all_marked chainGraph ["B", "A"]).2.2.2
      (AllUnvisited.cleanMarks (by decide)) (List.Perm.swap _ _ _) _ rfl).2⟩

/-! ## The index holds nodes of the tree -/

mutual
theorem indexNode_ast (P : YamlNode → Prop) (n : YamlNode) (m : GoMap Node)
    (hm : ∀ id v, m.get? id = some v → P v.AST) (hn : ∀ x ∈ n.preorder, P x) :
    ∀ id v, (indexNode m n).get? id = some v → P v.AST := by
  match n with
  | ⟨k, t, v, a, l, c, cs⟩ =>
    simp only [indexNode]
    have h1 : ∀ id w, (if a ≠ "" then m.put a (mkNode ⟨k, t, v, a, l, c, cs⟩) else m).get? id
        = some w → P w.AST := by
      intro id w hw
      split at hw
      · rw [GoMap.get?_put] at hw
        by_cases he : a = id
        · rw [if_pos he] at hw
          cases hw
          exact hn _ (by simp [YamlNode.preorder, mkNode])
        · rw [if_neg he] at hw
          exact hm id w hw
      · exact hm id w hw
    split
    · apply indexNodes_ast P cs _ h1
      intro x hx
      apply hn
      simp [YamlNode.preorder, hx]
    · exact h1
theorem indexNodes_ast (P : YamlNode → Prop) (ns : List YamlNode) (m : GoMap Node)
    (hm : ∀ id v, m.get? id = some v → P v.AST) (hn : ∀ x ∈ preorderList ns, P x) :
    ∀ id v, (indexNodes m ns).get? id = some v → P v.AST := by
  match ns with
  | [] => simpa [indexNodes] using hm
  | n :: rest =>
    simp only [indexNodes]
    apply indexNodes_ast P rest _
    · apply indexNode_ast P n m hm
      intro x hx
      apply hn
      rw [preorderList_cons]
      exact List.mem_append_left _ hx
    · intro x hx
      apply hn
      rw [preorderList_cons]
      exact List.mem_append_right _ hx
end

/-- Every entry of the index of a tree holds a node of the tree. -/
theorem docOf_ast_mem (root : YamlNode) (id : String) (node : Node)
    (h : (docOf root).NodesByID.get? id = some node) : node.AST ∈ preorderList root.Content :=
  indexNodes_ast (fun x => x ∈ preorderList root.Content) root.Content []
    (by intro id v h; simp [GoMap.get?] at h) (fun _ hx => hx) id node h

/-- C19: for every tree in which every Mapping node has an even number of
children, `ParseYAML` gives the document `docOf root`; the key/value scan of
`BuildDAG` over an indexed Mapping never reads `Content[i+1]` past the end
(the scan of its child list does not panic, whatever the graph built so far),
and `BuildDAG` returns a graph or an error value, whatever the orders of its
two loops. -/
theorem C19_even_mappings_in_range (root : YamlNode) (key : String) (ord1 ord2 : List String)
    (h1 : (docOf root).NodesByID.IterOrder ord1) (heven : EvenMappings root) :
    ParseYAML (some root) = Res.ok (docOf root) ∧
    (∀ id node, (docOf root).NodesByID.get? id = some node →
      node.AST.Kind = Kind.MappingNode →
      ∀ (nodes : GoMap Nat) (owner : String) (addr : Nat) (mem : List DAGNode),
        BuildDAG.pairs (docOf root) key nodes owner addr mem node.AST.Content ≠ Res.panic) ∧
    ((∃ g, BuildDAG (docOf root) key ord1 ord2 = Res.ok g) ∨
      ∃ e, BuildDAG (docOf root) key ord1 ord2 = Res.err e) := by
  have hidx : ∀ id node, (docOf root).NodesByID.get? id = some node →
      node.AST.Kind = Kind.MappingNode → node.AST.Content.length % 2 = 0 := by
    intro id node hg hk
    apply heven _ _ hk
    rw [preorder_eq]
    exact List.mem_cons_of_mem _ (docOf_ast_mem root id node hg)
  refine ⟨rfl, ?_, ?_⟩
  · intro id node hg hk nodes owner addr mem hp
    have := pairs_panic (docOf root) key nodes owner addr _ _ mem (le_refl _) hp
    have := hidx id node hg hk
    omega
  · cases hb : BuildDAG (docOf root) key ord1 ord2 with
    | ok g => exact Or.inl ⟨g, rfl⟩
    | err e => exact Or.inr ⟨e, rfl⟩
    | panic =>
      obtain ⟨id, node, hg, hk, hodd⟩ :=
        buildDAG_panic (docOf root) key ord1 ord2 (docOf_indexInv root).1 h1 hb
      have := hidx id node hg hk
      omega

/-- Witness of C19 on `A` without dependencies and `B: depends_on [*A]`. -/
theorem C19_witness_chain :
    EvenMappings chainTree ∧
    (∃ g, BuildDAG (docOf chainTree) "depends_on" ["A", "B"] ["B", "A"] = Res.ok g) :=
  ⟨by decide,
    (C19_even_mappings_in_range chainTree "depends_on" ["A", "B"] ["B", "A"]
      (List.Perm.refl _) (by decide)).2.2.resolve_right (by rintro ⟨e, he⟩; cases he)⟩

/-- Outside the precondition of C19 the scan does read past the end: on the
Mapping `&M` with the single child `k`, `BuildDAG` panics. -/
theorem buildDAG_odd_mapping_panics :
    ¬ EvenMappings oddMappingTree ∧
    BuildDAG (docOf oddMappingTree) "depends_on" ["M"] ["M"] = Res.panic :=
  ⟨by decide, rfl⟩

/-! ## `walkAndIndex` records every alias -/

theorem Run.map_ok {σ τ : Type} (f : σ → τ) {r : Run σ} {s : σ} (h : r = Run.ok s) :
    r.map f = Run.ok (f s) := by
  subst h
  rfl

mutual
theorem walkAndIndex_aliases (n : YamlNode) (path : List Nat)
    (st : GoMap (List Nat) × GoMap String) :
    (∀ k, st.2.get? k = some k → (walkAndIndex path st n).2.get? k = some k) ∧
    (IdentityMap st.2 → IdentityMap (walkAndIndex path st n).2) ∧
    ∀ x ∈ n.preorder, x.Kind = Kind.AliasNode →
      (walkAndIndex path st n).2.get? x.Value = some x.Value := by
  match n with
  | ⟨k, t, v, a, l, c, cs⟩ =>
    simp only [walkAndIndex]
    obtain ⟨h1, h2, h3⟩ := walkAndIndex_children_aliases cs path 0
      (if a ≠ "" then st.1.put a path else st.1,
        if k = Kind.AliasNode then st.2.put v v else st.2)
    have hkeep : ∀ k1, st.2.get? k1 = some k1 →
        (if k = Kind.AliasNode then st.2.put v v else st.2).get? k1 = some k1 := by
      intro k1 hk1
      split
      · rw [GoMap.get?_put]
        by_cases he : v = k1
        · rw [if_pos he, he]
        · rw [if_neg he]; exact hk1
      · exact hk1
    refine ⟨fun k1 hk1 => h1 k1 (hkeep k1 hk1), ?_, ?_⟩
    · intro hid
      apply h2
      intro k1 v1 hg
      simp only at hg
      split at hg
      · rw [GoMap.get?_put] at hg
        by_cases he : v = k1
        · rw [if_pos he] at hg
          cases hg
          exact he
        · rw [if_neg he] at hg
          exact hid k1 v1 hg
      · exact hid k1 v1 hg
    · intro x hx hk
      rw [preorder_eq] at hx
      rcases List.mem_cons.1 hx with rfl | hx1
      · apply h1
        simp only at hk ⊢
        rw [if_pos hk, GoMap.get?_put, if_pos rfl]
      · exact h3 x hx1 hk
theorem walkAndIndex_children_aliases (cs : List YamlNode) (path : List Nat) (i : Nat)
    (st : GoMap (List Nat) × GoMap String) :
    (∀ k, st.2.get? k = some k → (walkAndIndex.children path i st cs).2.get? k = some k) ∧
    (IdentityMap st.2 → IdentityMap (walkAndIndex.children path i st cs).2) ∧
    ∀ x ∈ preorderList cs, x.Kind = Kind.AliasNode →
      (walkAndIndex.children path i st cs).2.get? x.Value = some x.Value := by
  match cs with
  | [] =>
    simp only [walkAndIndex.children]
    exact ⟨fun _ h => h, fun h => h, by intro x hx; simp [preorderList] at hx⟩
  | c :: rest =>
    simp only [walkAndIndex.children]
    obtain ⟨a1, a2, a3⟩ := walkAndIndex_aliases c (path ++ [i]) st
    obtain ⟨b1, b2, b3⟩ := walkAndIndex_children_aliases rest path (i + 1)
      (walkAndIndex (path ++ [i]) st c)
    refine ⟨fun k hk => b1 k (a1 k hk), fun h => b2 (a2 h), ?_⟩
    intro x hx hk
    rw [preorderList_cons] at hx
    rcases List.mem_append.1 hx with hx1 | hx1
    · exact b1 _ (a3 x hx1 hk)
    · exact b3 x hx1 hk
end

/-- What `Load` returns: the first content node of the document, with every
alias of the tree recorded under itself in `Aliases`. -/
theorem load_ok (decoded : Option YamlNode) (c : CarDan) (h : Load decoded = Res.ok c) :
    (∃ root rest, decoded = some root ∧ root.Content = c.RootNode :: rest) ∧
    AliasesRecorded c.Aliases c.RootNode ∧ IdentityMap c.Aliases := by
  unfold Load at h
  cases decoded with
  | none => cases h
  | some root =>
    simp only at h
    cases hc : root.Content with
    | nil => rw [hc] at h; cases h
    | cons first rest =>
      rw [hc] at h
      simp only [Res.ok.injEq] at h
      subst h
      obtain ⟨_, h2, h3⟩ := walkAndIndex_aliases first [] ([], [])
      refine ⟨⟨root, rest, rfl, hc⟩, h3, h2 ?_⟩
      intro k v hk
      simp [GoMap.get?] at hk

/-! ## The tree the specification describes -/

theorem resolvedList_eq_map (field : String) :
    ∀ cs : List YamlNode, resolvedList field cs = cs.map (YamlNode.resolved field) := by
  intro cs
  induction cs with
  | nil => simp [resolvedList]
  | cons c cs ih => simp [resolvedList, ih]

theorem resolved_eq (field : String) (n : YamlNode) :
    n.resolved field = { n with Content :=
      (if n.Kind = Kind.MappingNode then markPairs field (resolvedList field n.Content)
      else resolvedList field n.Content) } := by
  cases n
  simp [YamlNode.resolved]

theorem resolved_kind (field : String) (n : YamlNode) : (n.resolved field).Kind = n.Kind := by
  rw [resolved_eq]

theorem resolved_value (field : String) (n : YamlNode) : (n.resolved field).Value = n.Value := by
  rw [resolved_eq]

theorem resolved_markItem (field : String) (x : YamlNode) :
    (markItem x).resolved field = markItem (x.resolved field) := by
  unfold markItem
  rw [resolved_kind]
  by_cases hk : x.Kind = Kind.AliasNode
  · rw [if_pos hk, if_pos hk, resolved_eq, resolved_eq]
    simp [YamlNode.asString, hk]
  · rw [if_neg hk, if_neg hk]

theorem resolvedList_markItem (field : String) (l : List YamlNode) :
    resolvedList field (l.map markItem) = (resolvedList field l).map markItem := by
  rw [resolvedList_eq_map, resolvedList_eq_map, List.map_map, List.map_map]
  apply List.map_congr_left
  intro x _
  exact resolved_markItem field x

theorem resolved_markValue (field : String) (v : YamlNode) :
    (markValue v).resolved field = markValue (v.resolved field) := by
  unfold markValue
  rw [resolved_kind]
  by_cases hs : v.Kind = Kind.SequenceNode
  · rw [if_pos hs, if_pos hs, resolved_eq, resolved_eq]
    simp [hs, resolvedList_markItem]
  · rw [if_neg hs, if_neg hs]
    by_cases hk : v.Kind = Kind.AliasNode
    · rw [if_pos hk, if_pos hk, resolved_eq, resolved_eq]
      simp [YamlNode.asString, hk]
    · rw [if_neg hk, if_neg hk]

/-- Marking the values of the field and rewriting below the children can be
done in either order. -/
theorem resolvedList_markPairs (field : String) : ∀ (k : Nat) (cs : List YamlNode),
    cs.length ≤ k →
    resolvedList field (markPairs field cs) = markPairs field (resolvedList field cs) := by
  intro k
  induction k using Nat.strong_induction_on with
  | _ k ih =>
    intro cs hk
    match cs, hk with
    | [], _ => simp [markPairs, resolvedList]
    | [c], _ => simp [markPairs, resolvedList]
    | key :: v :: rest, hk =>
      simp only [List.length_cons] at hk
      simp only [markPairs, resolvedList, resolved_value]
      rw [ih (k - 2) (by omega) rest (by omega)]
      by_cases hf : key.Value = field
      · simp only [hf, if_true, resolved_markValue]
      · simp only [hf, if_false]

/-! ## Marking keeps heights and records -/

theorem height_asString (x : YamlNode) : x.asString.height = x.height := by
  rw [height_eq, height_eq]
  rfl

theorem height_markItem (x : YamlNode) : (markItem x).height = x.height := by
  unfold markItem
  split
  · exact height_asString x
  · rfl

theorem heightList_markItem (l : List YamlNode) : heightList (l.map markItem) = heightList l := by
  induction l with
  | nil => rfl
  | cons x l ih => simp only [List.map_cons, heightList, height_markItem, ih]

theorem height_markValue (v : YamlNode) : (markValue v).height = v.height := by
  unfold markValue
  split
  · rw [height_eq, height_eq]
    simp only [heightList_markItem]
  · split
    · exact height_asString v
    · rfl

theorem heightList_markPairs (field : String) : ∀ (k : Nat) (cs : List YamlNode),
    cs.length ≤ k → heightList (markPairs field cs) = heightList cs := by
  intro k
  induction k using Nat.strong_induction_on with
  | _ k ih =>
    intro cs hk
    match cs, hk with
    | [], _ => simp [markPairs]
    | [c], _ => simp [markPairs]
    | key :: v :: rest, hk =>
      simp only [List.length_cons] at hk
      simp only [markPairs, heightList]
      rw [ih (k - 2) (by omega) rest (by omega)]
      by_cases hf : key.Value = field
      · simp only [hf, if_true, height_markValue]
      · simp only [hf, if_false]

theorem AliasesRecorded.child {aliases : GoMap String} {n c : YamlNode}
    (h : AliasesRecorded aliases n) (hc : c ∈ n.Content) : AliasesRecorded aliases c := by
  intro x hx hk
  apply h x _ hk
  rw [preorder_eq]
  exact List.mem_cons_of_mem _ (mem_preorderList.2 ⟨c, hc, hx⟩)

theorem aliasesRecorded_iff (aliases : GoMap String) (n : YamlNode) :
    AliasesRecorded aliases n ↔
      (n.Kind = Kind.AliasNode → aliases.get? n.Value = some n.Value) ∧
      ∀ c ∈ n.Content, AliasesRecorded aliases c := by
  constructor
  · intro h
    exact ⟨h n (by rw [preorder_eq]; exact List.mem_cons_self _ _), fun c hc => h.child hc⟩
  · rintro ⟨h1, h2⟩ x hx hk
    rw [preorder_eq] at hx
    rcases List.mem_cons.1 hx with rfl | hx1
    · exact h1 hk
    · obtain ⟨c, hc, hxc⟩ := mem_preorderList.1 hx1
      exact h2 c hc x hxc hk

theorem aliasesRecorded_asString {aliases : GoMap String} {x : YamlNode}
    (h : AliasesRecorded aliases x) : AliasesRecorded aliases x.asString := by
  rw [aliasesRecorded_iff] at h ⊢
  refine ⟨fun hk => ?_, h.2⟩
  simp [YamlNode.asString] at hk

theorem aliasesRecorded_markItem {aliases : GoMap String} {x : YamlNode}
    (h : AliasesRecorded aliases x) : AliasesRecorded aliases (markItem x) := by
  unfold markItem
  split
  · exact aliasesRecorded_asString h
  · exact h

theorem aliasesRecorded_markValue {aliases : GoMap String} {v : YamlNode}
    (h : AliasesRecorded aliases v) : AliasesRecorded aliases (markValue v) := by
  unfold markValue
  split
  · rw [aliasesRecorded_iff] at h ⊢
    refine ⟨h.1, ?_⟩
    intro c hc
    simp only [List.mem_map] at hc
    obtain ⟨x, hx, rfl⟩ := hc
    exact aliasesRecorded_markItem (h.2 x hx)
  · split
    · exact aliasesRecorded_asString h
    · exact h

theorem aliasesRecorded_markPairs (field : String) (aliases : GoMap String) :
    ∀ (k : Nat) (cs : List YamlNode), cs.length ≤ k →
      (∀ c ∈ cs, AliasesRecorded aliases c) →
      ∀ c ∈ markPairs field cs, AliasesRecorded aliases c := by
  intro k
  induction k using Nat.strong_induction_on with
  | _ k ih =>
    intro cs hk h
    match cs, hk, h with
    | [], _, h => exact h
    | [c], _, h => exact h
    | key :: v :: rest, hk, h =>
      simp only [List.length_cons] at hk
      intro c hc
      simp only [markPairs, List.mem_cons] at hc
      rcases hc with rfl | rfl | hc
      · exact h _ (by simp)
      · have hv : AliasesRecorded aliases v := h v (by simp)
        split
        · exact aliasesRecorded_markValue hv
        · exact hv
      · exact ih (k - 2) (by omega) rest (by omega)
          (fun c hc => h c (by simp [hc])) c hc

/-! ## The loops of `resolveFieldRefs` -/

theorem setScalar_self (n : YamlNode) : setScalar n n.Value = n.asString := by
  cases n
  rfl

theorem items_recorded (aliases : GoMap String) : ∀ its : List YamlNode,
    (∀ x ∈ its, x.Kind = Kind.AliasNode → aliases.get? x.Value = some x.Value) →
    resolveFieldRefs.items aliases its = Run.ok (its.map markItem) := by
  intro its
  induction its with
  | nil => intro _; rfl
  | cons x its ih =>
    intro h
    have hrest := ih (fun y hy => h y (List.mem_cons_of_mem _ hy))
    simp only [resolveFieldRefs.items, List.map_cons, markItem]
    by_cases hk : x.Kind = Kind.AliasNode
    · rw [if_pos hk, if_pos hk, h x (List.mem_cons_self _ _) hk]
      simp only [hrest, Run.map, setScalar_self]
    · rw [if_neg hk, if_neg hk]
      simp only [hrest, Run.map]

theorem value_recorded (field : String) (aliases : GoMap String) (k v : YamlNode)
    (h : AliasesRecorded aliases v) :
    resolveFieldRefs.value field aliases k v =
      Run.ok (if k.Value = field then markValue v else v) := by
  unfold resolveFieldRefs.value
  by_cases hf : k.Value = field
  · rw [if_pos hf, if_pos hf]
    unfold markValue
    by_cases hs : v.Kind = Kind.SequenceNode
    · rw [if_pos hs, if_pos hs, items_recorded aliases v.Content
        (fun x hx hk => (h.child hx) x (by rw [preorder_eq]; exact List.mem_cons_self _ _) hk)]
      rfl
    · rw [if_neg hs, if_neg hs]
      by_cases hk : v.Kind = Kind.AliasNode
      · rw [if_pos hk, if_pos hk, ((aliasesRecorded_iff aliases v).1 h).1 hk]
        simp only [setScalar_self]
      · rw [if_neg hk, if_neg hk]
  · rw [if_neg hf, if_neg hf]

theorem pairs_recorded (field : String) (aliases : GoMap String) :
    ∀ (k : Nat) (cs : List YamlNode), cs.length ≤ k →
      (∀ c ∈ cs, AliasesRecorded aliases c) →
      resolveFieldRefs.pairs field aliases cs = Run.ok (markPairs field cs) := by
  intro k
  induction k using Nat.strong_induction_on with
  | _ k ih =>
    intro cs hk h
    match cs, hk, h with
    | [], _, _ => simp [resolveFieldRefs.pairs, markPairs]
    | [c], _, _ => simp [resolveFieldRefs.pairs, markPairs]
    | key :: v :: rest, hk, h =>
      simp only [List.length_cons] at hk
      simp only [resolveFieldRefs.pairs, markPairs]
      rw [value_recorded field aliases key v (h v (by simp))]
      simp only
      rw [ih (k - 2) (by omega) rest (by omega) (fun c hc => h c (by simp [hc]))]
      rfl

theorem forNodes_ok (f : YamlNode → Run YamlNode) (g : YamlNode → YamlNode) :
    ∀ cs : List YamlNode, (∀ c ∈ cs, f c = Run.ok (g c)) →
      forNodes f cs = Run.ok (cs.map g) := by
  intro cs
  induction cs with
  | nil => intro _; rfl
  | cons c cs ih =>
    intro h
    simp only [forNodes, h c (List.mem_cons_self _ _),
      ih (fun x hx => h x (List.mem_cons_of_mem _ hx)), Run.map, List.map_cons]

/-- With every alias of the tree recorded under itself, and fuel for the height
of the tree, `resolveFieldRefs` returns `nil` and leaves the tree the
specification describes. -/
theorem resolveFieldRefs_recorded (field : String) (aliases : GoMap String) :
    ∀ (fuel : Nat) (n : YamlNode), n.height ≤ fuel → AliasesRecorded aliases n →
      resolveFieldRefs field aliases fuel n = Run.ok (n.resolved field) := by
  intro fuel
  induction fuel with
  | zero =>
    intro n hh _
    rw [height_eq] at hh
    omega
  | succ fuel ih =>
    intro n hh hrec
    rw [height_eq] at hh
    have hch : ∀ c ∈ n.Content, AliasesRecorded aliases c := fun c hc => hrec.child hc
    simp only [resolveFieldRefs]
    rw [resolved_eq]
    by_cases hm : n.Kind = Kind.MappingNode
    · rw [if_pos hm, if_pos hm, pairs_recorded field aliases _ _ (le_refl _) hch]
      simp only
      rw [forNodes_ok _ (YamlNode.resolved field)]
      · simp only [Run.map, ← resolvedList_eq_map,
          resolvedList_markPairs field _ _ (le_refl _)]
      · intro c hc
        apply ih
        · have := heightList_markPairs field _ n.Content (le_refl _)
          have := height_le_heightList hc
          omega
        · exact aliasesRecorded_markPairs field aliases _ _ (le_refl _) hch c hc
    · rw [if_neg hm, if_neg hm]
      simp only
      rw [forNodes_ok _ (YamlNode.resolved field)]
      · simp only [Run.map, ← resolvedList_eq_map]
      · intro c hc
        apply ih
        · have := height_le_heightList hc
          omega
        · exact hch c hc

/-- `ResolveRefs` on a document in which every alias is recorded under itself. -/
theorem resolveRefs_recorded (c : CarDan) (field : String)
    (h : AliasesRecorded c.Aliases c.RootNode) :
    c.ResolveRefs field = Run.ok { c with RootNode := c.RootNode.resolved field } := by
  unfold CarDan.ResolveRefs
  rw [resolveFieldRefs_recorded field c.Aliases _ _ (le_refl _) h]
  rfl

/-- C14: for every document `Load` returns and every field name,
`ResolveRefs(field)` returns `nil` and leaves the two maps as they were and the
tree the specification describes: in every Mapping of the tree, under every
key equal to `field`, the Alias elements of a Sequence value and a single Alias
value have become string Scalars (kind Scalar, tag `!!str`) with the value of
the alias, which is the identifier of its anchor; every other node is as it
was. -/
theorem C14_resolveRefs_rewrites (decoded : Option YamlNode) (c : CarDan) (field : String)
    (h : Load decoded = Res.ok c) :
    c.ResolveRefs field = Run.ok { c with RootNode := c.RootNode.resolved field } :=
  resolveRefs_recorded c field (load_ok decoded c h).2.1

/-- Witness of C14 on the document of `TestCarDanLoadAndResolve`: the element
`*jobA` of `depends_on` of `jobB` has become the string Scalar `jobA`, the rest
of the tree is as it was. -/
theorem C14_witness_jobs :
    Load (some jobsTree) = Res.ok (loaded (Load (some jobsTree))) ∧
    (loaded (Load (some jobsTree))).ResolveRefs "depends_on" =
      Run.ok { loaded (Load (some jobsTree)) with
        RootNode := mapOf "" [scalar "jobA", mapOf "jobA" [scalar "name", scalar "a"],
          scalar "jobB", mapOf "" [scalar "name", scalar "b",
            scalar "depends_on", seqOf [scalar "jobA"]]] } :=
  ⟨rfl, (C14_resolveRefs_rewrites (some jobsTree) (loaded (Load (some jobsTree))) "depends_on"
    rfl).trans (by decide)⟩

/-- The document of the test after `Load`: the anchor `jobA` is found, and the
alias `jobA` is recorded. -/
theorem jobsTree_loaded :
    (loaded (Load (some jobsTree))).GetRawAnchor "jobA" =
      some (mapOf "jobA" [scalar "name", scalar "a"]) ∧
    (loaded (Load (some jobsTree))).Aliases = [("jobA", "jobA")] := by
  decide

/-- A single alias stored under the field becomes a string Scalar as well. -/
theorem singleRefTree_resolved :
    (loaded (Load (some singleRefTree))).ResolveRefs "depends_on" =
      Run.ok { loaded (Load (some singleRefTree)) with
        RootNode := mapOf "" [scalar "jobA", mapOf "jobA" [scalar "name", scalar "a"],
          scalar "jobB", mapOf "" [scalar "depends_on", scalar "jobA"]] } := by
  decide

/-! ## Later calls of `ResolveRefs` -/

/-- The rewriting of references keeps every alias of the tree recorded: it only
turns aliases into Scalars. -/
theorem aliasesRecorded_resolved (field : String) (aliases : GoMap String) :
    ∀ (k : Nat) (n : YamlNode), n.height ≤ k → AliasesRecorded aliases n →
      AliasesRecorded aliases (n.resolved field) := by
  intro k
  induction k with
  | zero =>
    intro n hh _
    rw [height_eq] at hh
    omega
  | succ k ih =>
    intro n hh h
    rw [height_eq] at hh
    have hch : ∀ c ∈ resolvedList field n.Content, AliasesRecorded aliases c := by
      intro c hc
      rw [resolvedList_eq_map, List.mem_map] at hc
      obtain ⟨c0, hc0, rfl⟩ := hc
      apply ih c0 _ (h.child hc0)
      have := height_le_heightList hc0
      omega
    rw [aliasesRecorded_iff] at h ⊢
    refine ⟨?_, ?_⟩
    · rw [resolved_kind, resolved_value]
      exact h.1
    · rw [resolved_eq]
      intro c hc
      simp only at hc
      split at hc
      · exact aliasesRecorded_markPairs field aliases _ _ (le_refl _) hch c hc
      · exact hch c hc

/-- On a document in which every alias is recorded under itself, any number of
calls of `ResolveRefs` return `nil`, and every alias still in the tree stays
recorded. -/
theorem resolveRefsAll_recorded : ∀ (fields : List String) (c : CarDan),
    AliasesRecorded c.Aliases c.RootNode →
    ∃ c1, resolveRefsAll c fields = Run.ok c1 ∧ c1.Aliases = c.Aliases ∧
      c1.Anchors = c.Anchors ∧ AliasesRecorded c1.Aliases c1.RootNode := by
  intro fields
  induction fields with
  | nil => intro c h; exact ⟨c, rfl, rfl, rfl, h⟩
  | cons field rest ih =>
    intro c h
    simp only [resolveRefsAll, resolveRefs_recorded c field h]
    obtain ⟨c1, h1, h2, h3, h4⟩ := ih { c with RootNode := c.RootNode.resolved field }
      (aliasesRecorded_resolved field c.Aliases _ _ (le_refl _) h)
    exact ⟨c1, h1, h2, h3, h4⟩

/-- C21: for every document `Load` returns, every alias node of the tree is a
key of `Aliases`, stored under itself; so `ResolveRefs(field)` returns `nil`
for every field name, never the error `unresolved alias`, and so does every
call in any sequence of later calls on the same document, which leave
`Aliases` as it was and every alias still in the tree recorded. -/
theorem C21_resolveRefs_never_fails (decoded : Option YamlNode) (c : CarDan)
    (h : Load decoded = Res.ok c) :
    (∀ x ∈ c.RootNode.preorder, x.Kind = Kind.AliasNode →
      c.Aliases.get? x.Value = some x.Value) ∧
    (∀ field, (∃ c1, c.ResolveRefs field = Run.ok c1) ∧
      ∀ e c1, c.ResolveRefs field ≠ Run.err e c1) ∧
    ∀ fields : List String, ∃ c1, resolveRefsAll c fields = Run.ok c1 ∧
      c1.Aliases = c.Aliases ∧ AliasesRecorded c1.Aliases c1.RootNode := by
  have hrec := (load_ok decoded c h).2.1
  refine ⟨hrec, ?_, ?_⟩
  · intro field
    rw [resolveRefs_recorded c field hrec]
    exact ⟨⟨_, rfl⟩, fun e c1 he => by cases he⟩
  · intro fields
    obtain ⟨c1, h1, h2, _, h4⟩ := resolveRefsAll_recorded fields c hrec
    exact ⟨c1, h1, h2, h4⟩

/-- Witness of C21 on the document of `TestCarDanLoadAndResolve`: three calls,
two of them for the same field, all return `nil`. -/
theorem C21_witness_jobs :
    Load (some jobsTree) = Res.ok (loaded (Load (some jobsTree))) ∧
    ∃ c1, resolveRefsAll (loaded (Load (some jobsTree))) ["depends_on", "depends_on", "name"] =
        Run.ok c1 ∧
      c1.Aliases = (loaded (Load (some jobsTree))).Aliases ∧
      AliasesRecorded c1.Aliases c1.RootNode :=
  ⟨rfl, (C21_resolveRefs_never_fails (some jobsTree) (loaded (Load (some jobsTree))) rfl).2.2
    ["depends_on", "depends_on", "name"]⟩

/-- A second call for the same field changes nothing more. -/
theorem jobsTree_second_call :
    resolveRefsAll (loaded (Load (some jobsTree))) ["depends_on", "depends_on"] =
      (loaded (Load (some jobsTree))).ResolveRefs "depends_on" := by
  decide

/-! ## An include target without content -/

/-- A directive that gets past the checks, whose file is read and parsed, and
whose parsed document is left without content by its expansion: the read of
`includedNode.Content[0]` is out of range. -/
theorem directive_empty_content (env : Env) (includeTag : String) (fuel : Nat) (d : YamlNode)
    (dir p : String) (st : IncState) (content : String) (inc inc1 : YamlNode) (st2 : IncState)
    (hp : PassesChecks env includeTag d dir p) (hv : p ∉ st.Visited)
    (hread : env.ReadFile p = some content) (hparse : env.Unmarshal content = some inc)
    (hexp : resolveIncludes env includeTag fuel inc (env.Dir p)
      { Visited := p :: st.Visited, Reads := st.Reads ++ [p] } = Run.ok (inc1, st2))
    (hempty : inc1.Content = []) :
    resolveIncludes env includeTag (fuel + 1) d dir st = Run.panic (d, st2) := by
  have hd : resolveIncludes.directive env includeTag (resolveIncludes env includeTag fuel)
      d dir st = Run.panic (d, st2) := by
    rw [directive_of_passes env includeTag _ d dir p st hp, if_neg hv, hread]
    simp only [hparse, hexp, hempty]
  simp only [resolveIncludes, hd]

/-- A parsed document without content and without the include tag stays without
content: the expansion of an empty file yields nothing to substitute. -/
theorem resolveIncludes_no_content (env : Env) (includeTag : String) (fuel : Nat)
    (inc : YamlNode) (dir : String) (st : IncState) (htag : inc.Tag ≠ includeTag)
    (hempty : inc.Content = []) :
    resolveIncludes env includeTag (fuel + 1) inc dir st = Run.ok (inc, st) := by
  have hd : resolveIncludes.directive env includeTag (resolveIncludes env includeTag fuel)
      inc dir st = Run.ok (inc, st) := by
    simp [resolveIncludes.directive, htag]
  simp only [resolveIncludes, hd, hempty, forChildren]
  rw [← hempty, content_update_self]

/-- C22, the code at the failing input: a directive `!include empty.yml` whose
target is an empty file, which is read and which the parser accepts, leaving
the zero node without content.  `resolveIncludes` reads
`includedNode.Content[0]` out of range and panics, and so does
`LoadWithOptions` on `data: !include empty.yml`; it returns neither success
nor an error value.  `Load` in `loader.go` tests the same condition and returns
the error `empty YAML document`. -/
theorem C22_empty_include_panics :
    emptyFileEnv.ReadFile "base/empty.yml" = some "" ∧
    emptyFileEnv.Unmarshal "" = some zeroNode ∧ zeroNode.Content = [] ∧
    resolveIncludes emptyFileEnv "!include" 3 (includeOf "empty.yml") "base" IncState.empty =
      Run.panic (includeOf "empty.yml",
        { Visited := ["base/empty.yml"], Reads := ["base/empty.yml"] }) ∧
    LoadWithOptions emptyFileEnv 6 (some emptyIncludeTree)
        { IncludeTag := "!include", BasePath := "base" } = Loaded.panic ["base/empty.yml"] ∧
    Load (some zeroNode) = Res.err Error.emptyDocument := by
  decide

/-- The panic on an empty include target does not depend on the recursion
bound: it is there for every bound that lets the directive be processed. -/
theorem empty_include_panics_any_fuel (fuel : Nat) :
    resolveIncludes emptyFileEnv "!include" (fuel + 2) (includeOf "empty.yml") "base"
        IncState.empty =
      Run.panic (includeOf "empty.yml",
        { Visited := ["base/empty.yml"], Reads := ["base/empty.yml"] }) :=
  directive_empty_content emptyFileEnv "!include" (fuel + 1) (includeOf "empty.yml") "base"
    "base/empty.yml" IncState.empty "" zeroNode zeroNode
    { Visited := ["base/empty.yml"], Reads := ["base/empty.yml"] }
    ⟨rfl, by decide, by decide, "/work/base", "/work/base/empty.yml", by decide, by decide,
      by decide⟩
    (by decide) (by decide) (by decide)
    (resolveIncludes_no_content emptyFileEnv "!include" fuel zeroNode _ _ (by decide) rfl)
    rfl

theorem directive_panic (env : Env) (includeTag : String) (fuel : Nat)
    (ih : ∀ node dir st s, resolveIncludes env includeTag fuel node dir st = Run.panic s →
      EmptyTarget env includeTag)
    (node : YamlNode) (dir : String) (st : IncState) (s : YamlNode × IncState)
    (h : resolveIncludes.directive env includeTag (resolveIncludes env includeTag fuel)
      node dir st = Run.panic s) : EmptyTarget env includeTag := by
  by_cases htag : node.Tag = includeTag
  · rcases directive_tagged env includeTag (resolveIncludes env includeTag fuel) node dir st
      htag with ⟨e, h1⟩ | hp
    · rw [h1] at h; cases h
    · rw [directive_of_passes env includeTag _ node dir _ st hp] at h
      split at h
      · cases h
      · cases hread : env.ReadFile (env.Clean (env.Join dir node.Value)) with
        | none => rw [hread] at h; cases h
        | some content =>
          rw [hread] at h
          simp only at h
          cases hparse : env.Unmarshal content with
          | none => rw [hparse] at h; cases h
          | some inc =>
            rw [hparse] at h
            simp only at h
            cases hr : resolveIncludes env includeTag fuel inc
                (env.Dir (env.Clean (env.Join dir node.Value)))
                ⟨env.Clean (env.Join dir node.Value) :: st.Visited,
                  st.Reads ++ [env.Clean (env.Join dir node.Value)]⟩ with
            | outOfFuel => rw [hr] at h; cases h
            | err e s2 => obtain ⟨n2, st2⟩ := s2; rw [hr] at h; cases h
            | panic s2 => exact ih _ _ _ _ hr
            | ok s2 =>
              obtain ⟨inc1, st2⟩ := s2
              rw [hr] at h
              simp only at h
              cases hcont : inc1.Content with
              | nil => exact ⟨_, content, inc, fuel, _, _, inc1, st2, hread, hparse, hr, hcont⟩
              | cons c rest => rw [hcont] at h; cases h
  · simp [resolveIncludes.directive, htag] at h

theorem forChildren_panic {f : YamlNode → IncState → Run (YamlNode × IncState)} {P : Prop}
    (hf : ∀ c st s, f c st = Run.panic s → P) :
    ∀ (cs : List YamlNode) (st : IncState) (s : List YamlNode × IncState),
      forChildren f cs st = Run.panic s → P := by
  intro cs
  induction cs with
  | nil => intro st s h; simp [forChildren] at h
  | cons c cs ih =>
    intro st s h
    simp only [forChildren] at h
    cases hc : f c st with
    | outOfFuel => rw [hc] at h; cases h
    | err e s2 => obtain ⟨c2, st2⟩ := s2; rw [hc] at h; cases h
    | panic s2 => exact hf _ _ _ hc
    | ok s2 =>
      obtain ⟨c2, st2⟩ := s2
      rw [hc] at h
      simp only at h
      cases hr : forChildren f cs st2 with
      | outOfFuel => rw [hr] at h; cases h
      | err e s3 => obtain ⟨cs3, st3⟩ := s3; rw [hr] at h; cases h
      | panic s3 => exact ih _ _ hr
      | ok s3 => obtain ⟨cs3, st3⟩ := s3; rw [hr] at h; cases h

/-- The read of `includedNode.Content[0]` is the only place at which
`resolveIncludes` can panic: a call panics only if some included file is read
and parsed and its document has no content after its expansion. -/
theorem resolveIncludes_panic (env : Env) (includeTag : String) :
    ∀ (fuel : Nat) (node : YamlNode) (dir : String) (st : IncState) (s : YamlNode × IncState),
      resolveIncludes env includeTag fuel node dir st = Run.panic s →
      EmptyTarget env includeTag := by
  intro fuel
  induction fuel with
  | zero => intro node dir st s h; simp [resolveIncludes] at h
  | succ fuel ih =>
    intro node dir st s h
    simp only [resolveIncludes] at h
    cases hd : resolveIncludes.directive env includeTag (resolveIncludes env includeTag fuel)
        node dir st with
    | outOfFuel => rw [hd] at h; cases h
    | err e s2 => rw [hd] at h; cases h
    | panic s2 => exact directive_panic env includeTag fuel ih node dir st s2 hd
    | ok s2 =>
      obtain ⟨n0, st0⟩ := s2
      rw [hd] at h
      simp only at h
      cases hc : forChildren (fun c s => resolveIncludes env includeTag fuel c dir s)
          n0.Content st0 with
      | outOfFuel => rw [hc] at h; cases h
      | err e s3 => obtain ⟨cs, st2⟩ := s3; rw [hc] at h; cases h
      | ok s3 => obtain ⟨cs, st2⟩ := s3; rw [hc] at h; cases h
      | panic s3 => exact forChildren_panic (fun c st1 s1 h1 => ih c dir st1 s1 h1) _ _ _ hc

end CarDan
